import Mathlib

/-!
# HUD compositor (`src/hud.c`): tile index, dirty tracking and paint pass

A shallow embedding of the display compositor of `hud.c` (the framebuffer build,
i.e. without `SDL_SIM`).  C `int` values are mathematical integers (`Int`), the
unsigned fields are naturals with the truncation written out where a store can
truncate, and the fixed-size global arrays are total maps from the index to the
stored value.  Calls into cairo and the blitter are recorded as a trace of
`event`s.

The namespaces `Canlog` and `GpioPoll` embed the ring buffer and the frame scan
of `src/canlog_shmem.c` and the rotor decoder of `src/gpio_poll.c`.  In each
namespace the definitions come first; the theorems of all three follow.
-/

namespace Hud

/-! ## Constants and records -/

/-- Constant `#define SHM_SIZE 32768`. -/
def SHM_SIZE : Nat := 32768

/-- Constant `#define MAXWIDGETS 256`. -/
def MAXWIDGETS : Nat := 256

/-- The producer-owned widget record `widget_t`.  The `double cxscale` field is
read only by the text routine, which is external here, and is left out. -/
structure widget_t where
  version : Nat := 0
  visgroup : Nat := 0
  vismask : Nat := 0
  cflags : Nat := 0
  cfg : Nat := 0
  cbg : Nat := 0
  cstrike : Nat := 0
  cx : Int := 0
  cy : Int := 0
  cw : Nat := 0
  ch : Nat := 0
  cxo : Int := 0
  cyo : Int := 0
  ctextsize : Nat := 0
  ctextptr : Nat := 0
  ctype : Nat := 0
  cnchar : Nat := 0
  cfont : Nat := 0
  deriving DecidableEq

/-- The consumer-owned `widget_ldata_t`; `textbuf` is the byte offset of the
text slice inside the shared region. -/
structure widget_ldata_t where
  last_version : Nat := 0
  dirty_mask : Nat := 0
  ty1 : Nat := 0
  ty2 : Nat := 0
  nchar : Nat := 0
  visible : Nat := 0
  textbuf : Nat := 0
  deriving DecidableEq

/-- The header `memheader_t`. -/
structure memheader_t where
  version : Nat := 0
  numwidgets : Nat := 0
  visibility : Nat := 0
  deriving DecidableEq

/-- The shared region as one reader pass sees it: the header at offset 0 and
the record array `widgets` behind it. -/
structure shm_t where
  hdr : memheader_t
  widgets : Nat → widget_t

/-- The module-level state of `hud.c` that the compositor reads and writes. -/
structure hud_t where
  cur_header : memheader_t
  widget_ldata : Nat → widget_ldata_t
  dirty_bits : Nat → Nat
  tile_widgets : Nat → Nat
  tile_nwidgets : Nat → Nat
  tilesize_x : Int
  tilesize_y : Int
  screenw : Int
  screenh : Int
  vt_active : Int
  vt_active_requested : Int

/-- Calls that leave the compositor, in program order. -/
inductive event where
  /-- Line 399: `ioctl(vt_fd, VT_RELDISP, arg)`. -/
  | reldisp (arg : Int)
  /-- Lines 318 and 401: `clear_image(frontctx, 0)`. -/
  | clear_image
  /-- Lines 474-478: reset the clip, clip to the run rectangle, paint black. -/
  | paint_run (x y w h : Int)
  /-- Lines 486-488: clip to the run rectangle again before a later widget. -/
  | reclip_run (x y w h : Int)
  /-- Lines 490-491: clip to the bounding box of widget `i`. -/
  | clip_widget (i : Nat)
  /-- Lines 493-494: paint the background of widget `i`. -/
  | paint_bg (i : Nat)
  /-- Line 498: `drawfuncs[type](frontctx, cw, ld)` for widget `i`. -/
  | draw (type i : Nat)
  /-- Line 520: `blitter(x, y, w, h)`. -/
  | blit (x y w h : Int)
  deriving DecidableEq

/-! ## Macros -/

/-- Macro `IS_VISIBLE(cw, visibility)`. -/
def IS_VISIBLE (cw : widget_t) (visibility : Nat) : Bool :=
  cw.visgroup == (visibility &&& cw.vismask)

/-- Macro `TILE_WIDGETS(x, y)`: index of the first list slot of tile `(x, y)`. -/
def TILE_WIDGETS (x y : Nat) : Nat := (y <<< 9) ||| (x <<< 5)

/-- Macro `TILE_NWIDGETS(x, y)`: index of the counter of tile `(x, y)`. -/
def TILE_NWIDGETS (x y : Nat) : Nat := (y <<< 4) ||| x

/-- Macro `_TILEPOS(var, val, sz)`: C division truncates toward zero; the result is
clamped to `[0, 15]`. -/
def _TILEPOS (val sz : Int) : Int :=
  let var := Int.tdiv val sz
  let var := if var < 0 then 0 else var
  if var > 15 then 15 else var

/-- The expression `(2 << tx2) - (1 << tx1)` stored into a `uint16_t`. -/
def col_mask (tx1 tx2 : Int) : Nat :=
  ((((2 <<< tx2.toNat : Nat) : Int) - ((1 <<< tx1.toNat : Nat) : Int)) % 65536).toNat

/-- The loop `for (yy = ty1; yy <= ty2; yy++) dirty_bits[yy] |= mask`. -/
def or_rows (mask : Nat) (ty1 ty2 : Nat) (bits : Nat → Nat) : Nat → Nat :=
  (List.range' ty1 (ty2 + 1 - ty1)).foldl
    (fun b yy => Function.update b yy (b yy ||| mask)) bits

/-! ## `mark_screen_dirty` and `mark_dirty` -/

/-- Function `mark_screen_dirty()`: `memset(dirty_bits, 0xFF, sizeof(dirty_bits))`. -/
def mark_screen_dirty (st : hud_t) : hud_t :=
  { st with dirty_bits := fun r => if r < 16 then 65535 else st.dirty_bits r }

/-- Function `mark_dirty(x, y, w, h)`. -/
def mark_dirty (x y w h : Int) (st : hud_t) : hud_t :=
  let tx1 := _TILEPOS x st.tilesize_x
  let ty1 := _TILEPOS y st.tilesize_y
  let tx2 := _TILEPOS (x + w) st.tilesize_x
  let ty2 := _TILEPOS (y + h) st.tilesize_y
  let mask := col_mask tx1 tx2
  { st with dirty_bits := or_rows mask ty1.toNat ty2.toNat st.dirty_bits }

/-! ## `load_widgets` -/

/-- Size `sizeof(memheader_t)`: three `uint32_t`. -/
def sizeof_memheader_t : Nat := 12

/-- Size `sizeof(widget_t)` under the usual ABIs (the `double` at offset 16, the last
byte at offset 54, padded to a multiple of the alignment). -/
def sizeof_widget_t : Nat := 56

/-- Lines 298-302: append widget `i` to the list of tile `(xx, yy)` unless the
list is full.  Both stores go into `uint8_t` cells. -/
def tile_add (i xx yy : Nat) (st : hud_t) : hud_t :=
  let tnw := st.tile_nwidgets (TILE_NWIDGETS xx yy)
  if tnw < 32 then
    { st with
      tile_widgets := Function.update st.tile_widgets (TILE_WIDGETS xx yy + tnw) (i % 256)
      tile_nwidgets :=
        Function.update st.tile_nwidgets (TILE_NWIDGETS xx yy)
          ((st.tile_nwidgets (TILE_NWIDGETS xx yy) + 1) % 256) }
  else st

/-- Lines 296-304: the two nested loops over the tile range of widget `i`. -/
def index_tiles (i tx1 tx2 ty1 ty2 : Nat) (st : hud_t) : hud_t :=
  (List.range' ty1 (ty2 + 1 - ty1)).foldl
    (fun s yy => (List.range' tx1 (tx2 + 1 - tx1)).foldl (fun s xx => tile_add i xx yy s) s) st

/-- Lines 291-312: the body of the copy loop for widget `i`.  The second
component is the running `textbuf` pointer, as an offset into the region. -/
def load_widget (shm : shm_t) (s : hud_t × Nat) (i : Nat) : hud_t × Nat :=
  let st := s.1
  let textbuf := s.2
  let cw := shm.widgets i
  let tx1 := _TILEPOS cw.cx st.tilesize_x
  let ty1 := _TILEPOS cw.cy st.tilesize_y
  let tx2 := _TILEPOS (cw.cx + cw.cw) st.tilesize_x
  let ty2 := _TILEPOS (cw.cy + cw.ch) st.tilesize_y
  let ld := st.widget_ldata i
  let ld := { ld with dirty_mask := col_mask tx1 tx2, ty1 := ty1.toNat, ty2 := ty2.toNat }
  let st := index_tiles i tx1.toNat tx2.toNat ty1.toNat ty2.toNat st
  let ld := { ld with nchar := cw.cnchar }
  let shmend := SHM_SIZE - 1
  let r : widget_ldata_t × Nat :=
    if textbuf + ld.nchar > shmend then ({ ld with nchar := 0 }, textbuf)
    else ({ ld with textbuf := textbuf }, textbuf + ld.nchar)
  let ld := { r.1 with last_version := (cw.version + 4294967296 - 1) % 4294967296 }
  ({ st with widget_ldata := Function.update st.widget_ldata i ld }, r.2)

/-- Lines 290-313 run for the first `n` widgets. -/
def load_loop (shm : shm_t) (n : Nat) (s : hud_t × Nat) : hud_t × Nat :=
  (List.range n).foldl (load_widget shm) s

/-- Line 282: `memset(tile_nwidgets, 0, sizeof(tile_nwidgets))`. -/
def clear_tile_counts (st : hud_t) : hud_t :=
  { st with tile_nwidgets := fun k => if k < 256 then 0 else st.tile_nwidgets k }

/-- Lines 282-313 of one pass of the `while (1)` body, for `nw <= MAXWIDGETS`. -/
def load_pass (shm : shm_t) (st : hud_t) : hud_t :=
  let nw := shm.hdr.numwidgets
  (load_loop shm nw (clear_tile_counts st, sizeof_memheader_t + nw * sizeof_widget_t)).1

/-- Lines 315-319: the commit. -/
def load_commit (cvers nw : Nat) (st : hud_t) : hud_t :=
  mark_screen_dirty
    { st with cur_header := { version := cvers, numwidgets := nw, visibility := 0 } }

/-- Function `load_widgets()`.  Pass `k` of the `while (1)` loop reads the header and the
records as `(obs k).1` and reads the header version again, after the copy, as
`(obs k).2`.  The result is `none` when `fuel` passes were all torn.  The icon
loop after the `while` touches no state of the model (`icons[]` is never
filled). -/
def load_widgets : Nat → (Nat → shm_t × Nat) → hud_t → Option (hud_t × List event)
  | 0, _, _ => none
  | fuel + 1, obs, st =>
    let shm := (obs 0).1
    let cvers := shm.hdr.version
    let nw := shm.hdr.numwidgets
    if nw > MAXWIDGETS then some (clear_tile_counts st, [])
    else
      let st := load_pass shm st
      if cvers = (obs 0).2 then some (load_commit cvers nw st, [event.clear_image])
      else load_widgets fuel (fun k => obs (k + 1)) st

/-- A region that no producer writes while the reader runs. -/
def stable (shm : shm_t) : Nat → shm_t × Nat := fun _ => (shm, shm.hdr.version)

/-! ## `draw_widgets` -/

/-- Constant `VT_ACKACQ` of `linux/vt.h`. -/
def VT_ACKACQ : Int := 2

/-- Lines 417-431 for widget `i`. -/
def detect_widget (shm : shm_t) (new_visibility : Nat) (st : hud_t) (i : Nat) : hud_t :=
  let cw := shm.widgets i
  let ld := st.widget_ldata i
  let version := cw.version
  let was_visible := IS_VISIBLE cw st.cur_header.visibility
  let now_visible := IS_VISIBLE cw new_visibility
  if (now_visible && version != ld.last_version) || was_visible != now_visible then
    { st with
      widget_ldata :=
        Function.update st.widget_ldata i
          { ld with visible := if now_visible then 1 else 0, last_version := version }
      dirty_bits := or_rows ld.dirty_mask ld.ty1 ld.ty2 st.dirty_bits }
  else st

/-- Lines 417-431: the change detection loop. -/
def detect_changes (shm : shm_t) (new_visibility : Nat) (st : hud_t) : hud_t :=
  (List.range st.cur_header.numwidgets).foldl (detect_widget shm new_visibility) st

/-- Lines 452-465: the insertion into the ascending `update_widgets[0..numupdates)`.
The scan stops before the first larger entry and inserts there, and leaves the
list alone when it meets an equal entry. -/
def insert_update (wjtnum : Nat) : List Nat → List Nat
  | [] => [wjtnum]
  | u :: us =>
    if wjtnum < u then wjtnum :: u :: us
    else if wjtnum = u then u :: us
    else u :: insert_update wjtnum us

/-- Lines 444-467: collect the visible widgets of tile `(ctx, cty)`. -/
def collect_tile (st : hud_t) (ctx cty : Nat) (upd : List Nat) : List Nat :=
  let nw := st.tile_nwidgets (TILE_NWIDGETS ctx cty)
  let tw := TILE_WIDGETS ctx cty
  (List.range nw).foldl
    (fun u i =>
      let wjtnum := st.tile_widgets (tw + i)
      if (st.widget_ldata wjtnum).visible ≠ 0 then insert_update wjtnum u else u)
    upd

/-- One closed run of the paint loop: the rectangle of lines 475 and the
contents of `update_widgets[0..numupdates)` when the run is closed. -/
structure run_t where
  x : Int
  y : Int
  w : Int
  h : Int
  widgets : List Nat
  deriving DecidableEq

/-- Lines 442-507: the `do ... while (mask)` of one row of the paint loop.
`n` bounds the number of iterations. -/
def paint_cols (st : hud_t) (cty : Nat) (cy ch : Int) :
    Nat → Nat → Nat → Int → Int → List Nat → Option (List run_t)
  | 0, _, _, _, _, _ => none
  | n + 1, mask, ctx, cx, x1, upd =>
    let upd := if mask &&& 1 ≠ 0 then collect_tile st ctx cty upd else upd
    let cx := cx + st.tilesize_x
    let z := mask &&& 3
    let cx := if z = 1 then (if cx > st.screenw then st.screenw else cx) else cx
    let out := if z = 1 then [run_t.mk x1 cy (cx - x1) ch upd] else []
    let upd := if z = 1 then [] else upd
    let x1 := if z = 1 then x1 else if z = 2 then cx else x1
    let mask := mask >>> 1
    if mask ≠ 0 then (paint_cols st cty cy ch n mask (ctx + 1) cx x1 upd).map (out ++ ·)
    else some out

/-- Lines 436-507: one row of the paint loop; `dirty_bits[cty]` is a `uint16_t`. -/
def paint_row (st : hud_t) (cty : Nat) (cy : Int) : Option (List run_t) :=
  let ch := if cty = 15 then st.screenh - cy else st.tilesize_y
  paint_cols st cty cy ch 16 (st.dirty_bits cty % 65536) 0 0 0 []

/-- Lines 435-508 from row `cty` on, `n` rows left. -/
def paint_rows (st : hud_t) : Nat → Nat → Int → Option (List run_t)
  | 0, _, _ => some []
  | n + 1, cty, cy =>
    match paint_row st cty cy, paint_rows st n (cty + 1) (cy + st.tilesize_y) with
    | some r, some rs => some (r ++ rs)
    | _, _ => none

/-- Lines 435-508: the paint loop. -/
def paint_loop (st : hud_t) : Option (List run_t) := paint_rows st 16 0 0

/-- Lines 480-500: the cairo calls for the widgets of one run; `i` is the loop
counter. -/
def draw_updates (shm : shm_t) (x y w h : Int) : Nat → List Nat → List event
  | _, [] => []
  | i, wjtnum :: rest =>
    let cw := shm.widgets wjtnum
    (if i ≠ 0 then [event.reclip_run x y w h] else [])
      ++ [event.clip_widget wjtnum]
      ++ (if cw.cbg ≠ 0 then [event.paint_bg wjtnum] else [])
      ++ (if cw.ctype < 1 then [event.draw cw.ctype wjtnum] else [])
      ++ draw_updates shm x y w h (i + 1) rest

/-- Lines 474-500: the cairo calls of one closed run. -/
def run_events (shm : shm_t) (r : run_t) : List event :=
  event.paint_run r.x r.y r.w r.h :: draw_updates shm r.x r.y r.w r.h 0 r.widgets

/-- Lines 515-526: the `do ... while (mask)` of one row of the blit loop. -/
def blit_cols (st : hud_t) (cy ch : Int) : Nat → Nat → Int → Int → Option (List event)
  | 0, _, _, _ => none
  | n + 1, mask, cx, x1 =>
    let cx := cx + st.tilesize_x
    let z := mask &&& 3
    let cx := if z = 1 then (if cx > st.screenw then st.screenw else cx) else cx
    let out := if z = 1 then [event.blit x1 cy (cx - x1) ch] else []
    let x1 := if z = 1 then x1 else if z = 2 then cx else x1
    let mask := mask >>> 1
    if mask ≠ 0 then (blit_cols st cy ch n mask cx x1).map (out ++ ·)
    else some out

/-- Lines 511-526: one row of the blit loop. -/
def blit_row (st : hud_t) (cty : Nat) (cy : Int) : Option (List event) :=
  let ch := if cty = 15 then st.screenh - cy else st.tilesize_y
  blit_cols st cy ch 16 (st.dirty_bits cty % 65536) 0 0

/-- Lines 510-527 from row `cty` on, `n` rows left. -/
def blit_rows (st : hud_t) : Nat → Nat → Int → Option (List event)
  | 0, _, _ => some []
  | n + 1, cty, cy =>
    match blit_row st cty cy, blit_rows st n (cty + 1) (cy + st.tilesize_y) with
    | some r, some rs => some (r ++ rs)
    | _, _ => none

/-- Lines 510-527: the blit loop. -/
def blit_loop (st : hud_t) : Option (List event) := blit_rows st 16 0 0

/-- Lines 397-404: acknowledge a VT switch. -/
def vt_switch (st : hud_t) : hud_t × List event :=
  if st.vt_active ≠ st.vt_active_requested then
    let st := { st with vt_active := st.vt_active_requested }
    let ev := [event.reldisp (if st.vt_active ≠ 0 then VT_ACKACQ else 1)]
    if st.vt_active ≠ 0 then (mark_screen_dirty st, ev ++ [event.clear_image]) else (st, ev)
  else (st, [])

/-- Lines 529-530: clear the bitmap and advance the cached visibility. -/
def finish_pass (new_visibility : Nat) (st : hud_t) : hud_t :=
  { st with
    dirty_bits := fun r => if r < 16 then 0 else st.dirty_bits r
    cur_header := { st.cur_header with visibility := new_visibility } }

/-- Lines 410-530: what `draw_widgets` does once the display is owned. -/
def draw_owned (fuel : Nat) (obs : Nat → shm_t × Nat) (shm : shm_t) (st : hud_t) :
    Option (hud_t × List event) :=
  match (if st.cur_header.version ≠ shm.hdr.version then load_widgets fuel obs st
         else some (st, [])) with
  | none => none
  | some (st, ev1) =>
    let new_visibility := shm.hdr.visibility
    let st := detect_changes shm new_visibility st
    match paint_loop st, blit_loop st with
    | some runs, some ev3 =>
      some (finish_pass new_visibility st, ev1 ++ runs.flatMap (run_events shm) ++ ev3)
    | _, _ => none

/-- Function `draw_widgets()`.  Its own reads of the shared region see `shm`; the passes
of a reload see `obs` (see `load_widgets`). -/
def draw_widgets (fuel : Nat) (obs : Nat → shm_t × Nat) (shm : shm_t) (st : hud_t) :
    Option (hud_t × List event) :=
  let r := vt_switch st
  if r.1.vt_active = 0 then some r
  else (draw_owned fuel obs shm r.1).map (fun q => (q.1, r.2 ++ q.2))

/-! ## Specification-side notions -/

/-- The entries of the list of tile `(x, y)`: the first `TILE_NWIDGETS(x, y)`
cells behind `TILE_WIDGETS(x, y)`. -/
def tile_list (st : hud_t) (x y : Nat) : List Nat :=
  (List.range (st.tile_nwidgets (TILE_NWIDGETS x y))).map
    (fun k => st.tile_widgets (TILE_WIDGETS x y + k))

/-- Columns `a..b` are a maximal run of set bits of the row mask `m`. -/
def is_run (m a b : Nat) : Prop :=
  a ≤ b ∧ (∀ c, a ≤ c → c ≤ b → m.testBit c = true) ∧
    (a = 0 ∨ m.testBit (a - 1) = false) ∧ m.testBit (b + 1) = false

/-- The runs that the column scan closes, as (first column, last column), when
it stands at column `ctx` with the remaining mask `mask` and the last run was
opened at column `start`. -/
def run_cols : Nat → Nat → Nat → Nat → List (Nat × Nat)
  | 0, _, _, _ => []
  | n + 1, mask, ctx, start =>
    (if mask % 4 = 1 then [(start, ctx)] else [])
      ++ run_cols n (mask / 2) (ctx + 1) (if mask % 4 = 2 then ctx + 1 else start)

/-- The widgets drawn for the run `r` are the visible widgets listed by a tile
of columns `ab.1..ab.2` of row `cty`, once each, in ascending index order. -/
def run_widgets_ok (st : hud_t) (cty : Nat) (r : run_t) (ab : Nat × Nat) : Prop :=
  r.widgets.Pairwise (fun i j => i < j) ∧
    ∀ w, w ∈ r.widgets ↔
      ((st.widget_ldata w).visible ≠ 0 ∧ ∃ c, ab.1 ≤ c ∧ c ≤ ab.2 ∧ w ∈ tile_list st c cty)

/-- The rectangle of the run `r` of a row at height `cy`, `ch` covers the tile
columns `ab.1..ab.2`, cut at the right screen edge. -/
def run_rect_ok (st : hud_t) (cy ch : Int) (r : run_t) (ab : Nat × Nat) : Prop :=
  r.x = ab.1 * st.tilesize_x ∧ r.y = cy ∧
    r.w = min ((ab.2 + 1) * st.tilesize_x) st.screenw - ab.1 * st.tilesize_x ∧ r.h = ch

/-- No run of `mask` that is followed by another dirty column ends right of
the screen edge, so that line 473 clamps `cx` at most when the scan ends. -/
def no_early_clamp (st : hud_t) (mask ctx : Nat) : Prop :=
  ∀ j, mask.testBit j = true → mask.testBit (j + 1) = false → mask >>> (j + 1) ≠ 0 →
    ((ctx + j + 1 : Nat) : Int) * st.tilesize_x ≤ st.screenw

/-- The rectangle of a run. -/
def run_t.rect (r : run_t) : Int × Int × Int × Int := (r.x, r.y, r.w, r.h)

/-- Lines 771-772 of `main`: the tile size is the screen size over 16, rounded
up, for a screen of positive size. -/
def screen_ok (st : hud_t) : Prop :=
  0 < st.screenw ∧ 0 < st.screenh ∧
    st.tilesize_x = (st.screenw + 15) / 16 ∧ st.tilesize_y = (st.screenh + 15) / 16

/-- Tile `(x, y)` lies in the tile range that line 292 computes for the record
`cw`. -/
def covers (st : hud_t) (cw : widget_t) (x y : Nat) : Prop :=
  (_TILEPOS cw.cx st.tilesize_x).toNat ≤ x ∧ x ≤ (_TILEPOS (cw.cx + cw.cw) st.tilesize_x).toNat ∧
    (_TILEPOS cw.cy st.tilesize_y).toNat ≤ y ∧ y ≤ (_TILEPOS (cw.cy + cw.ch) st.tilesize_y).toNat

instance covers_decidable (st : hud_t) (cw : widget_t) (x y : Nat) :
    Decidable (covers st cw x y) := by
  unfold covers; infer_instance

/-- No tile counter exceeds the capacity of a tile list. -/
def tiles_ok (st : hud_t) : Prop :=
  ∀ x y, x < 16 → y < 16 → st.tile_nwidgets (TILE_NWIDGETS x y) ≤ 32

/-- The two states agree on the screen size, the tile size and the VT flags. -/
def same_screen (a b : hud_t) : Prop :=
  a.tilesize_x = b.tilesize_x ∧ a.tilesize_y = b.tilesize_y ∧
    a.screenw = b.screenw ∧ a.screenh = b.screenh ∧
    a.vt_active = b.vt_active ∧ a.vt_active_requested = b.vt_active_requested

/-- The tile list `new` is `old` with `v` appended when `c` holds and `old` has
room, and is `old` otherwise. -/
def appended (c : Prop) (new old : List Nat) (v : Nat) : Prop :=
  (c ∧ old.length < 32 → new = old ++ [v]) ∧ (¬ (c ∧ old.length < 32) → new = old)

/-- The runs that the paint loop closes (it never runs out of iterations, see
`paint_loop_eq`). -/
def paint_runs (st : hud_t) : List run_t := (paint_loop st).getD []

/-- The argument list of the `blitter` call for a run. -/
def run_t.blit (r : run_t) : event := event.blit r.x r.y r.w r.h

/-- The condition of line 422 for widget `i`, on the state before the loop. -/
def changed (shm : shm_t) (new_visibility : Nat) (st : hud_t) (i : Nat) : Prop :=
  (IS_VISIBLE (shm.widgets i) new_visibility = true ∧
      (shm.widgets i).version ≠ (st.widget_ldata i).last_version) ∨
    IS_VISIBLE (shm.widgets i) st.cur_header.visibility ≠ IS_VISIBLE (shm.widgets i) new_visibility

/-- What a completed pass over the region `shm` leaves behind: the display is
owned, the bitmap is clear, the cached visibility is the one of `shm`, every
widget visible under it has its version recorded, and the cached header version
is the one of `shm` unless `shm` announces too many widgets. -/
def settled (shm : shm_t) (st : hud_t) : Prop :=
  st.vt_active = st.vt_active_requested ∧ st.vt_active ≠ 0 ∧
    (∀ r, r < 16 → st.dirty_bits r = 0) ∧
    st.cur_header.visibility = shm.hdr.visibility ∧
    (∀ i, i < st.cur_header.numwidgets → IS_VISIBLE (shm.widgets i) shm.hdr.visibility = true →
      (st.widget_ldata i).last_version = (shm.widgets i).version) ∧
    (st.cur_header.version = shm.hdr.version ∨ shm.hdr.numwidgets > MAXWIDGETS)

/-! ## Concrete inputs -/

/-- The globals when `main` reaches its first `load_widgets` call (line 808) on
a screen of `screenw x screenh` pixels: zero-initialised arrays and header, the
VT flags of lines 708-709 and the tile size of lines 771-772. -/
def hud_init (screenw screenh : Int) : hud_t :=
  { cur_header := { version := 0, numwidgets := 0, visibility := 0 }
    widget_ldata := fun _ =>
      { last_version := 0, dirty_mask := 0, ty1 := 0, ty2 := 0, nchar := 0, visible := 0,
        textbuf := 0 }
    dirty_bits := fun _ => 0
    tile_widgets := fun _ => 0
    tile_nwidgets := fun _ => 0
    tilesize_x := (screenw + 15) / 16
    tilesize_y := (screenh + 15) / 16
    screenw := screenw
    screenh := screenh
    vt_active := 1
    vt_active_requested := 1 }

/-- A freshly created shared region: all bytes zero. -/
def shm_zero : shm_t :=
  { hdr := { version := 0, numwidgets := 0, visibility := 0 }
    widgets := fun _ => { } }

/-- A region with two widgets: `(10, 10, 20, 20)` and `(40, 0, 20, 30)`. -/
def shm_two : shm_t :=
  { hdr := { version := 1, numwidgets := 2, visibility := 0 }
    widgets := fun i =>
      if i = 0 then { version := 5, cx := 10, cy := 10, cw := 20, ch := 20 }
      else { version := 7, cx := 40, cy := 0, cw := 20, ch := 30 } }

/-- The state after the initial `load_widgets` and the first frame over
`shm_two` on the 800x480 screen. -/
def hud_two : hud_t :=
  match (load_widgets 1 (stable shm_two) (hud_init 800 480)).bind
      (fun r => draw_widgets 1 (stable shm_two) shm_two r.1) with
  | some r => r.1
  | none => hud_init 800 480

/-! ## Startup: the blit specifications -/

/-- The values of cairo's `cairo_format_t` that the table uses; the sentinel
`{ 0 }` has format 0, `CAIRO_FORMAT_ARGB32`. -/
inductive cairo_format_t where
  | CAIRO_FORMAT_ARGB32
  | CAIRO_FORMAT_RGB24
  | CAIRO_FORMAT_RGB16_565
  deriving DecidableEq

/-- The function pointers stored in the table; `null` for the sentinel. -/
inductive blitfunc where
  | null
  | blit_rgbx_rgb24
  | blit_rgbx_bgr24
  | blit_rgbx_rgbx
  | blit_rgb565_rgb565
  deriving DecidableEq

/-- The record `blitspec_t`. -/
structure blitspec_t where
  bpp : Nat
  rl : Nat
  gl : Nat
  bl : Nat
  ro : Nat
  go : Nat
  bo : Nat
  cairo_fmt : cairo_format_t
  blit : blitfunc
  deriving DecidableEq

/-- The table `blitters[]` of the framebuffer build, lines 246-251, with its
sentinel `{ 0 }`. -/
def blitters : List blitspec_t :=
  [ { bpp := 24, rl := 8, gl := 8, bl := 8, ro := 0, go := 8, bo := 16,
      cairo_fmt := cairo_format_t.CAIRO_FORMAT_RGB24, blit := blitfunc.blit_rgbx_rgb24 },
    { bpp := 24, rl := 8, gl := 8, bl := 8, ro := 16, go := 8, bo := 0,
      cairo_fmt := cairo_format_t.CAIRO_FORMAT_RGB24, blit := blitfunc.blit_rgbx_bgr24 },
    { bpp := 32, rl := 8, gl := 8, bl := 8, ro := 16, go := 8, bo := 0,
      cairo_fmt := cairo_format_t.CAIRO_FORMAT_RGB24, blit := blitfunc.blit_rgbx_rgbx },
    { bpp := 16, rl := 5, gl := 6, bl := 5, ro := 11, go := 5, bo := 0,
      cairo_fmt := cairo_format_t.CAIRO_FORMAT_RGB16_565, blit := blitfunc.blit_rgb565_rgb565 },
    { bpp := 0, rl := 0, gl := 0, bl := 0, ro := 0, go := 0, bo := 0,
      cairo_fmt := cairo_format_t.CAIRO_FORMAT_ARGB32, blit := blitfunc.null } ]

/-- The fields of `struct fb_var_screeninfo` that `main` compares: the bits per
pixel and the length and offset of the red, green and blue bitfields. -/
structure fb_var_screeninfo where
  bits_per_pixel : Nat
  red_length : Nat
  green_length : Nat
  blue_length : Nat
  red_offset : Nat
  green_offset : Nat
  blue_offset : Nat
  deriving DecidableEq

/-- Lines 752-758: the seven comparisons. -/
def blitspec_matches (b : blitspec_t) (vinfo : fb_var_screeninfo) : Prop :=
  b.bpp = vinfo.bits_per_pixel ∧ b.rl = vinfo.red_length ∧ b.gl = vinfo.green_length ∧
    b.bl = vinfo.blue_length ∧ b.ro = vinfo.red_offset ∧ b.go = vinfo.green_offset ∧
    b.bo = vinfo.blue_offset

instance blitspec_matches_decidable (b : blitspec_t) (vinfo : fb_var_screeninfo) :
    Decidable (blitspec_matches b vinfo) := by
  unfold blitspec_matches; infer_instance

/-- Lines 747-761: the selection loop over the table from the entry at its
head.  The result `none` is the fatal error of lines 749-750; the table ends
with the sentinel, so the scan never reaches the end of the list. -/
def find_blitspec (vinfo : fb_var_screeninfo) : List blitspec_t → Option blitspec_t
  | [] => none
  | b :: rest =>
    if b.bpp = 0 then none
    else if blitspec_matches b vinfo then some b
    else find_blitspec vinfo rest

/-! ## More concrete inputs -/

/-- The two-widget region with a header that announces 257 widgets. -/
def shm_big : shm_t :=
  { hdr := { version := 2, numwidgets := 257, visibility := 0 }
    widgets := shm_two.widgets }

/-- A producer that bumps the header version during every pass: pass `k` reads
version `2 * k` before the copy and `2 * k + 1` after it. -/
def obs_torn : Nat → shm_t × Nat := fun k =>
  ({ hdr := { version := 2 * k, numwidgets := 2, visibility := 0 }
     widgets := shm_two.widgets }, 2 * k + 1)

/-- A region with the one widget `(10, 10, 20, 20)`, whose text has 5 bytes. -/
def shm_one : shm_t :=
  { hdr := { version := 1, numwidgets := 1, visibility := 0 }
    widgets := fun _ => { version := 5, cx := 10, cy := 10, cw := 20, ch := 20, cnchar := 5 } }

/-! ## The blit routines -/

/-- The buffers of the blit layer: the bytes of the drawing surface, addressed
relative to `frontsurf_data` (the `-f` flip makes the stride negative), and the
two strides.  The framebuffer bytes are passed explicitly, addressed relative
to `framebuffer`. -/
structure blit_env where
  frontsurf_data : Int → Nat
  src_stride : Int
  dst_stride : Int

/-- The read `((uint32_t*)srcbuf)[0]` on a little-endian host. -/
def load32 (m : Int → Nat) (a : Int) : Nat :=
  m a + m (a + 1) * 256 + m (a + 2) * 65536 + m (a + 3) * 16777216

/-- Lines 155-162 and 175-182: the loop over the pixels of a line, `n` pixels
left.  `bytes v` are the values assigned to `dstbuf[0]`, `dstbuf[1]` and
`dstbuf[2]`, each stored into a `uint8_t`.  The result carries the advanced
`srcbuf` and `dstbuf`. -/
def blit24_cols (src : Int → Nat) (bytes : Nat → Nat × Nat × Nat) :
    Nat → Int → Int → (Int → Nat) → (Int → Nat) × Int × Int
  | 0, srcbuf, dstbuf, fb => (fb, srcbuf, dstbuf)
  | n + 1, srcbuf, dstbuf, fb =>
    let v := load32 src srcbuf
    let fb := Function.update fb dstbuf ((bytes v).1 % 256)
    let fb := Function.update fb (dstbuf + 1) ((bytes v).2.1 % 256)
    let fb := Function.update fb (dstbuf + 2) ((bytes v).2.2 % 256)
    blit24_cols src bytes n (srcbuf + 4) (dstbuf + 3) fb

/-- Lines 154-165 and 174-185: the loop over the lines, `n` lines left. -/
def blit24_lines (src : Int → Nat) (bytes : Nat → Nat × Nat × Nat) (w : Nat)
    (line_inc_src line_inc_dst : Int) : Nat → Int → Int → (Int → Nat) → (Int → Nat)
  | 0, _, _, fb => fb
  | n + 1, srcbuf, dstbuf, fb =>
    let r := blit24_cols src bytes w srcbuf dstbuf fb
    blit24_lines src bytes w line_inc_src line_inc_dst n
      (r.2.1 + line_inc_src) (r.2.2 + line_inc_dst) r.1

/-- The common body of `blit_rgbx_rgb24` and `blit_rgbx_bgr24`, which differ in
the three assignments only. -/
def blit24 (env : blit_env) (bytes : Nat → Nat × Nat × Nat) (x y w h : Int)
    (fb : Int → Nat) : Int → Nat :=
  blit24_lines env.frontsurf_data bytes w.toNat (env.src_stride - w * 4)
    (env.dst_stride - w * 3) h.toNat (x * 4 + y * env.src_stride) (x * 3 + y * env.dst_stride) fb

/-- Function `blit_rgbx_rgb24(x, y, w, h)`. -/
def blit_rgbx_rgb24 (env : blit_env) (x y w h : Int) (fb : Int → Nat) : Int → Nat :=
  blit24 env (fun v => (v >>> 16, v >>> 8, v)) x y w h fb

/-- Function `blit_rgbx_bgr24(x, y, w, h)`. -/
def blit_rgbx_bgr24 (env : blit_env) (x y w h : Int) (fb : Int → Nat) : Int → Nat :=
  blit24 env (fun v => (v, v >>> 8, v >>> 16)) x y w h fb

/-- The libc call `memcpy(dst + d, src + s, n)` on disjoint buffers. -/
def memcpy (dst : Int → Nat) (d : Int) (src : Int → Nat) (s : Int) (n : Nat) : Int → Nat :=
  fun a => if d ≤ a ∧ a < d + n then src (s + (a - d)) else dst a

/-- Lines 193-197 and 205-209: one `memcpy` of `nbytes` per line, `n` lines
left. -/
def copy_lines (src : Int → Nat) (nbytes : Nat) (src_stride dst_stride : Int) :
    Nat → Int → Int → (Int → Nat) → (Int → Nat)
  | 0, _, _, fb => fb
  | n + 1, srcbuf, dstbuf, fb =>
    copy_lines src nbytes src_stride dst_stride n (srcbuf + src_stride) (dstbuf + dst_stride)
      (memcpy fb dstbuf src srcbuf nbytes)

/-- Function `blit_rgbx_rgbx(x, y, w, h)`; the byte count `w * 4` is passed as
a `size_t`, which is meaningful for `w >= 0` only. -/
def blit_rgbx_rgbx (env : blit_env) (x y w h : Int) (fb : Int → Nat) : Int → Nat :=
  copy_lines env.frontsurf_data (w * 4).toNat env.src_stride env.dst_stride h.toNat
    (x * 4 + y * env.src_stride) (x * 4 + y * env.dst_stride) fb

/-- Function `blit_rgb565_rgb565(x, y, w, h)`; see `blit_rgbx_rgbx`. -/
def blit_rgb565_rgb565 (env : blit_env) (x y w h : Int) (fb : Int → Nat) : Int → Nat :=
  copy_lines env.frontsurf_data (w * 2).toNat env.src_stride env.dst_stride h.toNat
    (x * 2 + y * env.src_stride) (x * 2 + y * env.dst_stride) fb

/-- The call `blitter(x, y, w, h)` through the selected function pointer. -/
def run_blit : blitfunc → blit_env → Int → Int → Int → Int → (Int → Nat) → (Int → Nat)
  | blitfunc.null => fun _ _ _ _ _ fb => fb
  | blitfunc.blit_rgbx_rgb24 => blit_rgbx_rgb24
  | blitfunc.blit_rgbx_bgr24 => blit_rgbx_bgr24
  | blitfunc.blit_rgbx_rgbx => blit_rgbx_rgbx
  | blitfunc.blit_rgb565_rgb565 => blit_rgb565_rgb565

/-! ## Pixels -/

/-- The `n` bytes at address `a`, read as a little-endian number. -/
def load_le (m : Int → Nat) (a : Int) : Nat → Nat
  | 0 => 0
  | n + 1 => m a + 256 * load_le m (a + 1) n

/-- The bitfield of `len` bits at bit offset `off` of the pixel value `v`. -/
def channel (v off len : Nat) : Nat := (v >>> off) % 2 ^ len

/-- Bytes per pixel of a cairo image surface of the given format. -/
def cairo_bytes : cairo_format_t → Nat
  | cairo_format_t.CAIRO_FORMAT_ARGB32 => 4
  | cairo_format_t.CAIRO_FORMAT_RGB24 => 4
  | cairo_format_t.CAIRO_FORMAT_RGB16_565 => 2

/-- The red, green and blue values of a pixel of a cairo image surface: a
native-endian word `0x00RRGGBB` for `RGB24`, and 5, 6 and 5 bits from the top
of a 16-bit word for `RGB16_565`. -/
def cairo_channels : cairo_format_t → Nat → Nat × Nat × Nat
  | cairo_format_t.CAIRO_FORMAT_RGB16_565, v => ((v >>> 11) % 32, (v >>> 5) % 64, v % 32)
  | _, v => ((v >>> 16) % 256, (v >>> 8) % 256, v % 256)

/-- Generic form of the line loops: `row srcbuf dstbuf` handles one line, then
both pointers advance by their stride. -/
def row_lines (row : Int → Int → (Int → Nat) → (Int → Nat)) (ss ds : Int) :
    Nat → Int → Int → (Int → Nat) → (Int → Nat)
  | 0, _, _, fb => fb
  | n + 1, s, d, fb => row_lines row ss ds n (s + ss) (d + ds) (row s d fb)

/-- The byte that the 24-bit line loop stores at offset `t` of a line. -/
def val24 (src : Int → Nat) (bytes : Nat → Nat × Nat × Nat) (s t : Int) : Nat :=
  (if t % 3 = 0 then (bytes (load32 src (s + 4 * (t / 3)))).1
    else if t % 3 = 1 then (bytes (load32 src (s + 4 * (t / 3)))).2.1
    else (bytes (load32 src (s + 4 * (t / 3)))).2.2) % 256

/-- The channel values that the declared offsets and lengths of a blit
specification extract from a destination pixel value. -/
def decode (b : blitspec_t) (v : Nat) : Nat × Nat × Nat :=
  (channel v b.ro b.rl, channel v b.go b.gl, channel v b.bo b.bl)

/-- Address of the destination pixel `(px, py)` relative to `framebuffer`, for
`bpp / 8` bytes per pixel. -/
def dst_addr (b : blitspec_t) (env : blit_env) (px py : Int) : Int :=
  px * ((b.bpp / 8 : Nat) : Int) + py * env.dst_stride

/-- Address of the pixel `(px, py)` of the drawing surface relative to
`frontsurf_data`. -/
def src_addr (b : blitspec_t) (env : blit_env) (px py : Int) : Int :=
  px * ((cairo_bytes b.cairo_fmt : Nat) : Int) + py * env.src_stride

/-- A drawing surface of 800 pixels per line whose byte at offset `a` is
`a mod 256`, and a 24-bit framebuffer of the same width. -/
def env_demo : blit_env :=
  { frontsurf_data := fun a => (a % 256).toNat
    src_stride := 3200
    dst_stride := 2400 }

/-- The first entry of `blitters`, 24-bit RGB. -/
def spec_rgb24 : blitspec_t :=
  ⟨24, 8, 8, 8, 0, 8, 16, cairo_format_t.CAIRO_FORMAT_RGB24, blitfunc.blit_rgbx_rgb24⟩

/-! ## The text blob -/

/-- The running `textbuf` pointer of lines 286 and 306-310, as an offset into
the region, when the copy loop reaches widget `i`: it starts behind the `nw`
records and advances by the length of every text that fits. -/
def text_off (shm : shm_t) : Nat → Nat
  | 0 => sizeof_memheader_t + shm.hdr.numwidgets * sizeof_widget_t
  | i + 1 =>
    if text_off shm i + (shm.widgets i).cnchar > SHM_SIZE - 1 then text_off shm i
    else text_off shm i + (shm.widgets i).cnchar

/-- A region with 129 widgets whose texts have 255 bytes each, except for the
32 bytes of widget 100: the text of widget 100 ends with the last byte of the
region. -/
def shm_edge : shm_t :=
  { hdr := { version := 1, numwidgets := 129, visibility := 0 }
    widgets := fun i =>
      if i = 100 then { version := 1, cnchar := 32 } else { version := 1, cnchar := 255 } }

/-! ## A region that changes during a pass -/

/-- The reads of one pass of `load_widgets` in program order, against a region
that a producer changes meanwhile; `mem t` is the content of the region at the
time of read number `t`.  The header is read first (lines 278-279), record `i`
at time `i + 1` (lines 292-312), and the header version again behind the `nw`
records (line 314). -/
def pass_view (mem : Nat → shm_t) : shm_t × Nat :=
  ({ hdr := (mem 0).hdr, widgets := fun i => (mem (i + 1)).widgets i },
    (mem ((mem 0).hdr.numwidgets + 1)).hdr.version)

/-- The two-widget region after a producer write that moves both widgets. -/
def shm_moved : shm_t :=
  { hdr := { version := 2, numwidgets := 2, visibility := 0 }
    widgets := fun i =>
      if i = 0 then { version := 6, cx := 100, cy := 100, cw := 20, ch := 20 }
      else { version := 8, cx := 200, cy := 200, cw := 20, ch := 30 } }

/-- A producer that replaces `shm_two` by `shm_moved` without a lock: the new
header version is stored before the pass starts, the records are stored between
the reads of record 0 and of record 1. -/
def mem_race : Nat → shm_t := fun t =>
  { hdr := shm_moved.hdr
    widgets := if t < 2 then shm_two.widgets else shm_moved.widgets }

/-! ## A reload over a visible widget -/

/-- The two-widget region rewritten by the producer: the same boxes, now in
visibility group 1 under the mask 1, with the header visibility word 0, so
that neither widget is visible. -/
def shm_hidden : shm_t :=
  { hdr := { version := 2, numwidgets := 2, visibility := 0 }
    widgets := fun i =>
      if i = 0 then
        { version := 6, visgroup := 1, vismask := 1, cx := 10, cy := 10, cw := 20, ch := 20 }
      else { version := 8, visgroup := 1, vismask := 1, cx := 40, cy := 0, cw := 20, ch := 30 } }

/-- A 97x64 screen (tiles of 7x4 pixels) whose row 0 has the columns 13 and 15
dirty. -/
def hud_gap : hud_t :=
  { hud_init 97 64 with dirty_bits := fun r => if r = 0 then 40960 else 0 }

/-! ## Rectangles in the trace -/

/-- The rectangle that a run is cleared and painted with (lines 474-478). -/
def event.painted : event → Option (Int × Int × Int × Int)
  | event.paint_run x y w h => some (x, y, w, h)
  | _ => none

/-- The rectangle passed to the blitter (line 520). -/
def event.blitted : event → Option (Int × Int × Int × Int)
  | event.blit x y w h => some (x, y, w, h)
  | _ => none

/-- A region with the one widget `(10, 10, 20, 20)` of type 1, for which no
draw routine is registered, with a background colour. -/
def shm_typed : shm_t :=
  { hdr := { version := 1, numwidgets := 1, visibility := 0 }
    widgets := fun _ =>
      { version := 5, cbg := 255, cx := 10, cy := 10, cw := 20, ch := 20, ctype := 1 } }

/-! ## Widgets in the trace -/

/-- The widget whose box the clip is set to (lines 490-491): the draw loop
does this once for every entry of the update list. -/
def event.clipped : event → Option Nat
  | event.clip_widget i => some i
  | _ => none

/-- The widget that a draw routine is called for (line 498). -/
def event.drawn : event → Option Nat
  | event.draw _ i => some i
  | _ => none

/-! ## More screens -/

/-- A region for the 97x64 screen (tiles of 7x4 pixels): widget 0 lies in tile
column 13, widget 1 lies right of the screen, in tile column 15. -/
def shm_right : shm_t :=
  { hdr := { version := 1, numwidgets := 2, visibility := 0 }
    widgets := fun i =>
      if i = 0 then { version := 5, cx := 92, cy := 0, cw := 2, ch := 2 }
      else { version := 7, cx := 106, cy := 0, cw := 2, ch := 2 } }

/-- The region `shm_right` after the producer has bumped the version of both
widgets. -/
def shm_right_next : shm_t :=
  { hdr := { version := 1, numwidgets := 2, visibility := 0 }
    widgets := fun i =>
      if i = 0 then { version := 6, cx := 92, cy := 0, cw := 2, ch := 2 }
      else { version := 8, cx := 106, cy := 0, cw := 2, ch := 2 } }

/-- The state after the initial `load_widgets` and the first frame over
`shm_right` on the 97x64 screen. -/
def hud_right : hud_t :=
  match (load_widgets 1 (stable shm_right) (hud_init 97 64)).bind
      (fun r => draw_widgets 1 (stable shm_right) shm_right r.1) with
  | some r => r.1
  | none => hud_init 97 64

end Hud

namespace Canlog

/-! # CAN log ring buffer and frame scan (`src/canlog_shmem.c`) -/

/-- Constant `CANLOG_NUMRECORDS`. -/
def CANLOG_NUMRECORDS : Nat := 65536

/-- Constant `BUFLEN`. -/
def BUFLEN : Nat := 2048

/-- The conversion of a `uint32_t` value to `int` (two's complement), as in the
`return` of `get_write_pointer` and `get_read_pointer` and in the assignment
`new_write_pointer = old_write_pointer + 1`. -/
def to_int (v : Nat) : Int :=
  if v % 4294967296 < 2147483648 then ((v % 4294967296 : Nat) : Int)
  else ((v % 4294967296 : Nat) : Int) - 4294967296

/-- The conversion of an `int` to `uint32_t`. -/
def to_uint32 (v : Int) : Nat := (v % 4294967296).toNat

/-- The fields of a `canlog_record` that the source writes.  `data` is indexed
without a bound: a `memcpy` of more than 8 bytes runs into the fields behind
`data`, which the model does not follow. -/
structure canlog_record where
  data : Nat → Nat
  time : Nat
  id : Nat
  bus_len : Nat

/-- The state of the source process: the two pointers of the header, the record
slots, the receive buffer `buf` with `bufpos`, and the two counters.  The
header shares its bytes with slot 0; the model keeps them apart. -/
structure canlog_t where
  read_pointer : Nat
  write_pointer : Nat
  frames : Nat → canlog_record
  buf : Nat → Nat
  bufpos : Int
  frame_count : Int
  drop_count : Int

/-- Function `get_write_pointer()`. -/
def get_write_pointer (s : canlog_t) : Int := to_int s.write_pointer

/-- Function `get_read_pointer()`. -/
def get_read_pointer (s : canlog_t) : Int := to_int s.read_pointer

/-- Function `init_write_pointer()` while no reader writes the header: the
compare-exchange of line 94 succeeds at its first attempt. -/
def init_write_pointer (s : canlog_t) : canlog_t :=
  let new_write_pointer := to_uint32 (get_write_pointer s)
  let s :=
    if new_write_pointer = 0 ∨ new_write_pointer ≥ CANLOG_NUMRECORDS then
      { s with write_pointer := 1 }
    else s
  let old_read_pointer := to_uint32 (get_read_pointer s)
  if old_read_pointer ≠ 0 ∧ old_read_pointer < CANLOG_NUMRECORDS then s
  else { s with read_pointer := 1 }

/-- Function `advance_write_pointer(old_write_pointer)`; the second component
is the value returned. -/
def advance_write_pointer (old_write_pointer : Nat) (s : canlog_t) : canlog_t × Int :=
  let new_write_pointer := to_int (old_write_pointer + 1)
  let new_write_pointer :=
    if new_write_pointer ≥ CANLOG_NUMRECORDS then 1 else new_write_pointer
  if new_write_pointer = get_read_pointer s then (s, 0)
  else ({ s with write_pointer := to_uint32 new_write_pointer }, 1)

/-- Function `process_frame(buf + cpos, nr)`; `millis` is the value that
`gettime()` returns.  The second component is the value returned. -/
def process_frame (millis : Nat) (cpos : Nat) (nr : Int) (s : canlog_t) : canlog_t × Int :=
  if nr < 12 then (s, -1)
  else
    let framelength := s.buf (cpos + 10) &&& 15
    if nr < 12 + (framelength : Int) then (s, -1)
    else
      let write_ptr := to_uint32 (get_write_pointer s)
      let old := s.frames write_ptr
      let cwp : canlog_record :=
        { time := millis
          bus_len := s.buf (cpos + 10)
          id := (s.buf (cpos + 6) ||| (s.buf (cpos + 7) <<< 8) ||| (s.buf (cpos + 8) <<< 16) |||
            (s.buf (cpos + 9) <<< 24)) % 4294967296
          data := fun j => if j < framelength then s.buf (cpos + 11 + j) else old.data j }
      let s :=
        { s with frames := Function.update s.frames write_ptr cwp
                 frame_count := s.frame_count + 1 }
      let r := advance_write_pointer write_ptr s
      let s := if r.2 = 0 then { r.1 with drop_count := r.1.drop_count + 1 } else r.1
      (s, 12 + (framelength : Int))

/-- The call `memmove(&buf[0], &buf[cpos], n)`. -/
def memmove_front (buf : Nat → Nat) (cpos : Nat) (n : Int) : Nat → Nat :=
  fun j => if (j : Int) < n then buf (cpos + j) else buf j

/-- Lines 299-320 of `run_source`: the `do ... while (cpos < nr)` scan of the
buffer, `fuel` rounds at most; `gettime` gives the clock as a function of the
frame count. -/
def scan (gettime : Nat → Nat) : Nat → Nat → Int → canlog_t → Option canlog_t
  | 0, _, _, _ => none
  | fuel + 1, cpos, nr, s =>
    if s.buf cpos = 0xF1 then
      let r := process_frame (gettime s.frame_count.toNat) cpos (nr - cpos) s
      if r.2 = -1 then
        some (if cpos ≠ 0 then
            { r.1 with buf := memmove_front r.1.buf cpos (nr - cpos), bufpos := nr - cpos }
          else r.1)
      else
        let s := { r.1 with bufpos := 0 }
        let cpos := cpos + r.2.toNat
        if (cpos : Int) < nr then scan gettime fuel cpos nr s else some s
    else
      let s := { s with bufpos := 0 }
      let cpos := cpos + 1
      if (cpos : Int) < nr then scan gettime fuel cpos nr s else some s

/-- One round of the `while (1)` of `run_source` in which `read` returns the
bytes `data`, `0 < data.length <= BUFLEN - bufpos`, at `&buf[bufpos]` (lines
282, 297-320). -/
def source_round (gettime : Nat → Nat) (data : List Nat) (s : canlog_t) : Option canlog_t :=
  let s :=
    { s with buf := fun j =>
        if s.bufpos.toNat ≤ j ∧ j < s.bufpos.toNat + data.length then
          data.getD (j - s.bufpos.toNat) 0
        else s.buf j }
  let nr : Int := (data.length : Int) + s.bufpos
  scan gettime nr.toNat 0 nr s

/-- The source right after `init_write_pointer` on a fresh region: empty
buffer, both pointers at slot 1. -/
def canlog_start : canlog_t :=
  { read_pointer := 1
    write_pointer := 1
    frames := fun _ => { data := fun _ => 0, time := 0, id := 0, bus_len := 0 }
    buf := fun _ => 0
    bufpos := 0
    frame_count := 0
    drop_count := 0 }

/-- The writer's side of the ring over a sequence of frames: before each
advance the reader has left the read pointer at the next value of `rps`. -/
def writer_run (rps : List Nat) (s : canlog_t) : canlog_t :=
  rps.foldl
    (fun s rp =>
      (advance_write_pointer (to_uint32 (get_write_pointer s)) { s with read_pointer := rp }).1)
    s

end Canlog

namespace GpioPoll

/-! # Rotor decoding (`src/gpio_poll.c`) -/

/-- Constant `EVT_ROTOR`. -/
def EVT_ROTOR : Nat := 0x80

/-- Constant `EVT_UP`. -/
def EVT_UP : Nat := 0x40

/-- The conversion to `int8_t` (two's complement). -/
def to_int8 (v : Int) : Int := if v % 256 < 128 then v % 256 else v % 256 - 256

/-- Macro `PIN(pinstr, v)`; `bit` tells whether the masked bit of the value of
the input pin is set. -/
def PIN (bit : Bool) (v : Nat) : Nat := if bit then 0 else v

/-- The decoder fields of `rotor_t`. -/
structure rotor_t where
  lastval : Int
  count : Int
  deriving DecidableEq

/-- Lines 531-546 for rotor `i`, given the bits of its two pins.  The second
component lists the bytes passed to `emit_event`. -/
def rotor_sample (i : Nat) (pin1 pin2 : Bool) (rotor : rotor_t) : rotor_t × List Nat :=
  let val := to_int8 ((PIN pin1 0xC0 ^^^ PIN pin2 0x40 : Nat) : Int)
  let ofs := to_int8 (val - rotor.lastval)
  if ofs ≠ 0 then
    let count := to_int8 (rotor.count + (ofs >>> 6))
    if val = 0 then
      let out :=
        if count = 4 then [(EVT_ROTOR ||| EVT_UP ||| i) % 256]
        else if count = -4 then [(EVT_ROTOR ||| i) % 256]
        else []
      ({ lastval := val, count := 0 }, out)
    else ({ lastval := val, count := count }, [])
  else (rotor, [])

/-- The decoder of rotor `i` over successive passes of the main loop, one pair
of pin bits per pass. -/
def rotor_run (i : Nat) : List (Bool × Bool) → rotor_t → rotor_t × List Nat
  | [], rotor => (rotor, [])
  | p :: rest, rotor =>
    let a := rotor_sample i p.1 p.2 rotor
    let b := rotor_run i rest a.1
    (b.1, a.2 ++ b.2)

end GpioPoll

namespace Hud

/-! ## Arithmetic of the tile macros -/

theorem tilepos_eq (val sz : Int) : _TILEPOS val sz = max 0 (min 15 (Int.tdiv val sz)) := by
  unfold _TILEPOS
  simp only
  split_ifs <;> omega

theorem tilepos_nonneg (val sz : Int) : 0 ≤ _TILEPOS val sz := by
  rw [tilepos_eq]; omega

theorem tilepos_le (val sz : Int) : _TILEPOS val sz ≤ 15 := by
  rw [tilepos_eq]; omega

theorem tdiv_mono {a b sz : Int} (hs : 0 < sz) (hab : a ≤ b) : Int.tdiv a sz ≤ Int.tdiv b sz := by
  rcases le_or_lt 0 a with ha | ha
  · rw [Int.tdiv_eq_ediv ha hs.le, Int.tdiv_eq_ediv (ha.trans hab) hs.le]
    exact Int.ediv_le_ediv hs hab
  · rcases le_or_lt 0 b with hb | hb
    · have h1 : Int.tdiv a sz ≤ 0 := by
        have := Int.tdiv_nonneg (a := -a) (b := sz) (by omega) hs.le
        rw [Int.neg_tdiv] at this
        omega
      exact h1.trans (Int.tdiv_nonneg hb hs.le)
    · have h1 : Int.tdiv a sz = -(Int.tdiv (-a) sz) := by rw [Int.neg_tdiv]; omega
      have h2 : Int.tdiv b sz = -(Int.tdiv (-b) sz) := by rw [Int.neg_tdiv]; omega
      rw [h1, h2, Int.tdiv_eq_ediv (by omega) hs.le, Int.tdiv_eq_ediv (by omega) hs.le]
      have := Int.ediv_le_ediv hs (show -b ≤ -a by omega)
      omega

theorem tilepos_mono {a b sz : Int} (hs : 0 < sz) (hab : a ≤ b) :
    _TILEPOS a sz ≤ _TILEPOS b sz := by
  have := tdiv_mono hs hab
  rw [tilepos_eq, tilepos_eq]; omega

theorem col_mask_eq_nat : ∀ a < 16, ∀ b < 16, a ≤ b →
    col_mask (a : Nat) (b : Nat) = 2 ^ (b + 1) - 2 ^ a := by
  decide

theorem col_mask_testBit {tx1 tx2 : Int} (h0 : 0 ≤ tx1) (h12 : tx1 ≤ tx2) (h15 : tx2 ≤ 15)
    (c : Nat) : (col_mask tx1 tx2).testBit c = decide (tx1 ≤ c ∧ (c : Int) ≤ tx2) := by
  obtain ⟨a, rfl⟩ := Int.eq_ofNat_of_zero_le h0
  obtain ⟨b, rfl⟩ := Int.eq_ofNat_of_zero_le (h0.trans h12)
  have hb : b < 16 := by omega
  have hab : a ≤ b := by omega
  rw [col_mask_eq_nat a (by omega) b hb hab]
  have h2 : 2 ^ (b + 1) - 2 ^ a = 2 ^ (b + 1) - ((2 ^ a - 1) + 1) := by
    have : 0 < 2 ^ a := Nat.pos_pow_of_pos a (by decide)
    omega
  rw [h2, Nat.testBit_two_pow_sub_succ, Nat.testBit_two_pow_sub_one]
  · by_cases h1 : c < b + 1 <;> by_cases h3 : c < a <;> simp [h1, h3] <;> omega
  · have : 2 ^ a < 2 ^ (b + 1) := Nat.pow_lt_pow_right (by decide) (by omega)
    omega

theorem or_rows_apply (mask ty1 ty2 : Nat) (bits : Nat → Nat) (r : Nat) :
    or_rows mask ty1 ty2 bits r = if ty1 ≤ r ∧ r ≤ ty2 then bits r ||| mask else bits r := by
  unfold or_rows
  generalize hn : ty2 + 1 - ty1 = n
  induction n generalizing ty1 bits with
  | zero =>
    simp only [List.range'_zero, List.foldl_nil]
    rw [if_neg]; omega
  | succ n ih =>
    rw [List.range'_succ, List.foldl_cons, ih (ty1 + 1) _ (by omega)]
    by_cases h : r = ty1
    · subst h
      rw [if_neg (by omega), Function.update_same, if_pos (by omega)]
    · rw [Function.update_noteq h]
      by_cases h2 : ty1 + 1 ≤ r ∧ r ≤ ty2
      · rw [if_pos h2, if_pos]; omega
      · rw [if_neg h2, if_neg]; omega

/-! ## Change detection -/

theorem detect_widget_cond (shm : shm_t) (nv : Nat) (st : hud_t) (i : Nat) :
    (((IS_VISIBLE (shm.widgets i) nv && (shm.widgets i).version != (st.widget_ldata i).last_version)
      || IS_VISIBLE (shm.widgets i) st.cur_header.visibility != IS_VISIBLE (shm.widgets i) nv) = true)
      ↔ changed shm nv st i := by
  unfold changed
  simp [bne_iff_ne]

theorem detect_fold_inv (shm : shm_t) (nv : Nat) (st : hud_t) (n : Nat) :
    ((List.range n).foldl (detect_widget shm nv) st).cur_header = st.cur_header ∧
    (∀ j, n ≤ j → ((List.range n).foldl (detect_widget shm nv) st).widget_ldata j
        = st.widget_ldata j) ∧
    (∀ r c, (((List.range n).foldl (detect_widget shm nv) st).dirty_bits r).testBit c = true ↔
      (st.dirty_bits r).testBit c = true ∨
      ∃ i, i < n ∧ changed shm nv st i ∧
        (st.widget_ldata i).ty1 ≤ r ∧ r ≤ (st.widget_ldata i).ty2 ∧
        ((st.widget_ldata i).dirty_mask).testBit c = true) := by
  induction n with
  | zero => simp
  | succ n ih =>
    obtain ⟨ih1, ih2, ih3⟩ := ih
    rw [List.range_succ, List.foldl_append, List.foldl_cons, List.foldl_nil]
    generalize (List.range n).foldl (detect_widget shm nv) st = s at ih1 ih2 ih3
    have hc : changed shm nv s n ↔ changed shm nv st n := by
      unfold changed; rw [ih1, ih2 n le_rfl]
    unfold detect_widget
    simp only
    by_cases hch : changed shm nv st n
    · rw [if_pos ((detect_widget_cond shm nv s n).2 (hc.2 hch))]
      refine ⟨ih1, ?_, ?_⟩
      · intro j hj
        simp only
        rw [Function.update_noteq (by omega), ih2 j (by omega)]
      · intro r c
        simp only
        rw [or_rows_apply, ih2 n le_rfl]
        constructor
        · intro h
          split_ifs at h with hr
          · rw [Nat.testBit_lor, Bool.or_eq_true, ih3] at h
            rcases h with (h | ⟨i, hi, h⟩) | h
            · exact Or.inl h
            · exact Or.inr ⟨i, by omega, h⟩
            · exact Or.inr ⟨n, by omega, hch, hr.1, hr.2, h⟩
          · rw [ih3] at h
            rcases h with h | ⟨i, hi, h⟩
            · exact Or.inl h
            · exact Or.inr ⟨i, by omega, h⟩
        · intro h
          have key : (s.dirty_bits r).testBit c = true ∨
              ((st.widget_ldata n).ty1 ≤ r ∧ r ≤ (st.widget_ldata n).ty2 ∧
                ((st.widget_ldata n).dirty_mask).testBit c = true) := by
            rcases h with h | ⟨i, hi, h⟩
            · exact Or.inl ((ih3 r c).2 (Or.inl h))
            · rcases Nat.lt_succ_iff_lt_or_eq.1 hi with hi | rfl
              · exact Or.inl ((ih3 r c).2 (Or.inr ⟨i, hi, h⟩))
              · exact Or.inr h.2
          split_ifs with hr
          · rw [Nat.testBit_lor, Bool.or_eq_true]
            rcases key with k | k
            · exact Or.inl k
            · exact Or.inr k.2.2
          · rcases key with k | k
            · exact k
            · exact absurd ⟨k.1, k.2.1⟩ hr
    · rw [if_neg (fun h => hch (hc.1 ((detect_widget_cond shm nv s n).1 h)))]
      refine ⟨ih1, fun j hj => ih2 j (by omega), ?_⟩
      intro r c
      rw [ih3]
      constructor
      · rintro (h | ⟨i, hi, h⟩)
        · exact Or.inl h
        · exact Or.inr ⟨i, by omega, h⟩
      · rintro (h | ⟨i, hi, h⟩)
        · exact Or.inl h
        · rcases Nat.lt_succ_iff_lt_or_eq.1 hi with hi | rfl
          · exact Or.inr ⟨i, hi, h⟩
          · exact absurd h.1 hch

/-! ## The column scan -/

theorem and_three (m : Nat) : m &&& 3 = m % 4 := Nat.and_pow_two_sub_one_eq_mod m 2

theorem paint_cols_succ (st : hud_t) (cty : Nat) (cy ch : Int) (n mask ctx : Nat) (cx x1 : Int)
    (upd : List Nat) :
    paint_cols st cty cy ch (n + 1) mask ctx cx x1 upd =
      if mask / 2 ≠ 0 then
        (paint_cols st cty cy ch n (mask / 2) (ctx + 1)
          (if mask % 4 = 1 then (if cx + st.tilesize_x > st.screenw then st.screenw
            else cx + st.tilesize_x) else cx + st.tilesize_x)
          (if mask % 4 = 1 then x1 else if mask % 4 = 2 then cx + st.tilesize_x else x1)
          (if mask % 4 = 1 then []
            else if mask % 2 ≠ 0 then collect_tile st ctx cty upd else upd)).map
          (fun rs => (if mask % 4 = 1 then
            [run_t.mk x1 cy ((if cx + st.tilesize_x > st.screenw then st.screenw
              else cx + st.tilesize_x) - x1) ch (collect_tile st ctx cty upd)] else []) ++ rs)
      else some (if mask % 4 = 1 then
            [run_t.mk x1 cy ((if cx + st.tilesize_x > st.screenw then st.screenw
              else cx + st.tilesize_x) - x1) ch (collect_tile st ctx cty upd)] else []) := by
  rw [paint_cols]
  simp only [and_three, Nat.and_one_is_mod, Nat.shiftRight_succ, Nat.shiftRight_zero]
  have h2 : mask % 2 = 0 ∨ mask % 2 = 1 := by omega
  by_cases h1 : mask % 4 = 1
  · have : mask % 2 ≠ 0 := by omega
    simp [h1, this]
  · by_cases h3 : mask % 4 = 2
    · have : mask % 2 = 0 := by omega
      simp [h1, h3, this]
    · simp [h1, h3]

theorem blit_cols_succ (st : hud_t) (cy ch : Int) (n mask : Nat) (cx x1 : Int) :
    blit_cols st cy ch (n + 1) mask cx x1 =
      if mask / 2 ≠ 0 then
        (blit_cols st cy ch n (mask / 2)
          (if mask % 4 = 1 then (if cx + st.tilesize_x > st.screenw then st.screenw
            else cx + st.tilesize_x) else cx + st.tilesize_x)
          (if mask % 4 = 1 then x1 else if mask % 4 = 2 then cx + st.tilesize_x else x1)).map
          (fun rs => (if mask % 4 = 1 then
            [event.blit x1 cy ((if cx + st.tilesize_x > st.screenw then st.screenw
              else cx + st.tilesize_x) - x1) ch] else []) ++ rs)
      else some (if mask % 4 = 1 then
            [event.blit x1 cy ((if cx + st.tilesize_x > st.screenw then st.screenw
              else cx + st.tilesize_x) - x1) ch] else []) := by
  rw [blit_cols]
  simp only [and_three, Nat.shiftRight_succ, Nat.shiftRight_zero]
  by_cases h1 : mask % 4 = 1
  · simp [h1]
  · by_cases h3 : mask % 4 = 2
    · simp [h1, h3]
    · simp [h1, h3]

/-- The blit loop of a row passes to the blitter the rectangles of the runs
that the paint loop of the row closes, in the same order. -/
theorem blit_cols_eq_paint_cols (st : hud_t) (cty : Nat) (cy ch : Int) (n : Nat) :
    ∀ (mask ctx : Nat) (cx x1 : Int) (upd : List Nat),
      blit_cols st cy ch n mask cx x1 =
        (paint_cols st cty cy ch n mask ctx cx x1 upd).map
          (List.map (fun r => event.blit r.x r.y r.w r.h)) := by
  induction n with
  | zero => intro mask ctx cx x1 upd; rfl
  | succ n ih =>
    intro mask ctx cx x1 upd
    rw [blit_cols_succ, paint_cols_succ]
    by_cases h : mask / 2 ≠ 0
    · rw [if_pos h, if_pos h, ih (mask / 2) (ctx + 1) _ _ _, Option.map_map, Option.map_map]
      congr 1
      funext rs
      by_cases h1 : mask % 4 = 1 <;> simp [h1]
    · rw [if_neg h, if_neg h]
      by_cases h1 : mask % 4 = 1 <;> simp [h1]

theorem paint_cols_total (st : hud_t) (cty : Nat) (cy ch : Int) (n : Nat) :
    ∀ (mask ctx : Nat) (cx x1 : Int) (upd : List Nat), mask < 2 ^ n → 0 < n →
      ∃ rs, paint_cols st cty cy ch n mask ctx cx x1 upd = some rs := by
  induction n with
  | zero => intro _ _ _ _ _ _ h; omega
  | succ n ih =>
    intro mask ctx cx x1 upd hm _
    rw [paint_cols_succ]
    by_cases h : mask / 2 ≠ 0
    · rw [if_pos h]
      have hm2 : mask / 2 < 2 ^ n := by rw [Nat.pow_succ] at hm; omega
      have hn : 0 < n := by
        rcases Nat.eq_zero_or_pos n with rfl | hn
        · simp at hm2; omega
        · exact hn
      obtain ⟨rs, hrs⟩ := ih (mask / 2) (ctx + 1) _ _ _ hm2 hn
      rw [hrs]; exact ⟨_, rfl⟩
    · rw [if_neg h]; exact ⟨_, rfl⟩

theorem run_cols_zero (n ctx start : Nat) : run_cols n 0 ctx start = [] := by
  induction n generalizing ctx start with
  | zero => rfl
  | succ n ih => simp [run_cols, ih]

/-! ## The update list -/

theorem insert_update_mem (w : Nat) (u : List Nat) (x : Nat) :
    x ∈ insert_update w u ↔ x = w ∨ x ∈ u := by
  induction u with
  | nil => simp [insert_update]
  | cons a us ih =>
    unfold insert_update
    split_ifs with h1 h2
    · simp
    · subst h2; simp
    · simp only [List.mem_cons, ih]; tauto

theorem insert_update_sorted (w : Nat) (u : List Nat) (h : u.Pairwise (fun i j => i < j)) :
    (insert_update w u).Pairwise (fun i j => i < j) := by
  induction u with
  | nil => simp [insert_update]
  | cons a us ih =>
    rw [List.pairwise_cons] at h
    unfold insert_update
    split_ifs with h1 h2
    · rw [List.pairwise_cons, List.pairwise_cons]
      refine ⟨?_, h⟩
      intro x hx
      rcases List.mem_cons.1 hx with rfl | hx
      · exact h1
      · exact h1.trans (h.1 x hx)
    · rw [List.pairwise_cons]; exact h
    · rw [List.pairwise_cons]
      refine ⟨?_, ih h.2⟩
      intro x hx
      rcases (insert_update_mem w us x).1 hx with rfl | hx
      · omega
      · exact h.1 x hx

theorem collect_fold (st : hud_t) (l : List Nat) :
    ∀ upd : List Nat, upd.Pairwise (fun i j => i < j) →
      (l.foldl (fun u w => if (st.widget_ldata w).visible ≠ 0 then insert_update w u else u)
          upd).Pairwise (fun i j => i < j) ∧
      ∀ x, x ∈ l.foldl
          (fun u w => if (st.widget_ldata w).visible ≠ 0 then insert_update w u else u) upd ↔
        x ∈ upd ∨ (x ∈ l ∧ (st.widget_ldata x).visible ≠ 0) := by
  induction l with
  | nil => intro upd h; simp [h]
  | cons a l ih =>
    intro upd h
    rw [List.foldl_cons]
    by_cases hv : (st.widget_ldata a).visible ≠ 0
    · rw [if_pos hv]
      obtain ⟨h1, h2⟩ := ih _ (insert_update_sorted a upd h)
      refine ⟨h1, fun x => ?_⟩
      rw [h2, insert_update_mem, List.mem_cons]
      constructor
      · rintro ((rfl | h) | h)
        · exact Or.inr ⟨Or.inl rfl, hv⟩
        · exact Or.inl h
        · exact Or.inr ⟨Or.inr h.1, h.2⟩
      · rintro (h | ⟨rfl | h, h'⟩)
        · exact Or.inl (Or.inr h)
        · exact Or.inl (Or.inl rfl)
        · exact Or.inr ⟨h, h'⟩
    · rw [if_neg hv]
      obtain ⟨h1, h2⟩ := ih _ h
      refine ⟨h1, fun x => ?_⟩
      rw [h2, List.mem_cons]
      constructor
      · rintro (h | h)
        · exact Or.inl h
        · exact Or.inr ⟨Or.inr h.1, h.2⟩
      · rintro (h | ⟨rfl | h, h'⟩)
        · exact Or.inl h
        · exact absurd h' hv
        · exact Or.inr ⟨h, h'⟩

theorem collect_tile_eq (st : hud_t) (ctx cty : Nat) (upd : List Nat) :
    collect_tile st ctx cty upd =
      (tile_list st ctx cty).foldl
        (fun u w => if (st.widget_ldata w).visible ≠ 0 then insert_update w u else u) upd := by
  unfold collect_tile tile_list
  rw [List.foldl_map]

theorem collect_tile_spec (st : hud_t) (ctx cty : Nat) (upd : List Nat)
    (h : upd.Pairwise (fun i j => i < j)) :
    (collect_tile st ctx cty upd).Pairwise (fun i j => i < j) ∧
      ∀ x, x ∈ collect_tile st ctx cty upd ↔
        x ∈ upd ∨ (x ∈ tile_list st ctx cty ∧ (st.widget_ldata x).visible ≠ 0) := by
  rw [collect_tile_eq]
  exact collect_fold st _ upd h

/-- The widget lists of the runs closed by the column scan. -/
theorem paint_cols_widgets (st : hud_t) (cty : Nat) (cy ch : Int) (n : Nat) :
    ∀ (mask ctx : Nat) (cx x1 : Int) (upd : List Nat) (s : Nat), mask < 2 ^ n → 0 < n →
      (mask % 2 = 1 → s ≤ ctx) →
      upd.Pairwise (fun i j => i < j) →
      (∀ w, w ∈ upd ↔ (mask % 2 = 1 ∧ (st.widget_ldata w).visible ≠ 0 ∧
        ∃ c, s ≤ c ∧ c < ctx ∧ w ∈ tile_list st c cty)) →
      ∃ rs, paint_cols st cty cy ch n mask ctx cx x1 upd = some rs ∧
        List.Forall₂ (run_widgets_ok st cty) rs (run_cols n mask ctx s) := by
  induction n with
  | zero => intro _ _ _ _ _ _ _ h; omega
  | succ n ih =>
    intro mask ctx cx x1 upd s hm _ hs hsort hupd
    rw [paint_cols_succ, run_cols]
    have hm2 : mask / 2 < 2 ^ n := by rw [Nat.pow_succ] at hm; omega
    -- the run closed at this column, if any
    have hclose : mask % 4 = 1 →
        run_widgets_ok st cty
          (run_t.mk x1 cy ((if cx + st.tilesize_x > st.screenw then st.screenw
              else cx + st.tilesize_x) - x1) ch (collect_tile st ctx cty upd)) (s, ctx) := by
      intro h1
      have hb : mask % 2 = 1 := by omega
      obtain ⟨c1, c2⟩ := collect_tile_spec st ctx cty upd hsort
      refine ⟨c1, fun w => ?_⟩
      simp only
      rw [c2, hupd]
      constructor
      · rintro (⟨_, hv, c, hc1, hc2, hc⟩ | ⟨hc, hv⟩)
        · exact ⟨hv, c, hc1, by omega, hc⟩
        · exact ⟨hv, ctx, hs hb, le_rfl, hc⟩
      · rintro ⟨hv, c, hc1, hc2, hc⟩
        rcases Nat.lt_or_eq_of_le hc2 with hlt | rfl
        · exact Or.inl ⟨hb, hv, c, hc1, hlt, hc⟩
        · exact Or.inr ⟨hc, hv⟩
    by_cases h : mask / 2 ≠ 0
    · rw [if_pos h]
      have hn : 0 < n := by
        rcases Nat.eq_zero_or_pos n with rfl | hn
        · simp at hm2; omega
        · exact hn
      have key := ih (mask / 2) (ctx + 1)
        (if mask % 4 = 1 then (if cx + st.tilesize_x > st.screenw then st.screenw
            else cx + st.tilesize_x) else cx + st.tilesize_x)
        (if mask % 4 = 1 then x1 else if mask % 4 = 2 then cx + st.tilesize_x else x1)
        (if mask % 4 = 1 then []
            else if mask % 2 ≠ 0 then collect_tile st ctx cty upd else upd)
        (if mask % 4 = 2 then ctx + 1 else s) hm2 hn
      have hs' : mask / 2 % 2 = 1 → (if mask % 4 = 2 then ctx + 1 else s) ≤ ctx + 1 := by
        intro hb1
        split_ifs with h2
        · exact le_rfl
        · have : mask % 2 = 1 := by omega
          have := hs this
          omega
      have hsort' : (if mask % 4 = 1 then []
            else if mask % 2 ≠ 0 then collect_tile st ctx cty upd else upd).Pairwise
              (fun i j => i < j) := by
        split_ifs
        · exact List.Pairwise.nil
        · exact (collect_tile_spec st ctx cty upd hsort).1
        · exact hsort
      have hupd' : ∀ w, w ∈ (if mask % 4 = 1 then []
            else if mask % 2 ≠ 0 then collect_tile st ctx cty upd else upd) ↔
          (mask / 2 % 2 = 1 ∧ (st.widget_ldata w).visible ≠ 0 ∧
            ∃ c, (if mask % 4 = 2 then ctx + 1 else s) ≤ c ∧ c < ctx + 1 ∧
              w ∈ tile_list st c cty) := by
        intro w
        by_cases h1 : mask % 4 = 1
        · rw [if_pos h1]
          constructor
          · intro hw; simp at hw
          · rintro ⟨hb, _⟩; omega
        · rw [if_neg h1]
          by_cases h0 : mask % 2 ≠ 0
          · rw [if_pos h0]
            have hb : mask % 2 = 1 := by omega
            have h3 : mask % 4 = 3 := by omega
            have hb1 : mask / 2 % 2 = 1 := by omega
            rw [if_neg (by omega), (collect_tile_spec st ctx cty upd hsort).2, hupd]
            constructor
            · rintro (⟨_, hv, c, hc1, hc2, hc⟩ | ⟨hc, hv⟩)
              · exact ⟨hb1, hv, c, hc1, by omega, hc⟩
              · exact ⟨hb1, hv, ctx, hs hb, by omega, hc⟩
            · rintro ⟨_, hv, c, hc1, hc2, hc⟩
              rcases Nat.lt_or_eq_of_le (Nat.lt_succ_iff.1 hc2) with hlt | rfl
              · exact Or.inl ⟨hb, hv, c, hc1, hlt, hc⟩
              · exact Or.inr ⟨hc, hv⟩
          · rw [if_neg h0]
            have hb : mask % 2 = 0 := by omega
            rw [hupd]
            constructor
            · rintro ⟨hb', _⟩; omega
            · rintro ⟨hb1, hv, c, hc1, hc2, hc⟩
              have : mask % 4 = 2 := by omega
              rw [if_pos this] at hc1
              omega
      obtain ⟨rs, hrs, hall⟩ := key hs' hsort' hupd'
      rw [hrs]
      refine ⟨_, rfl, ?_⟩
      by_cases h1 : mask % 4 = 1
      · simp only [if_pos h1, List.singleton_append]
        exact List.Forall₂.cons (hclose h1) (by simpa [h1] using hall)
      · simp only [if_neg h1, List.nil_append]
        exact hall
    · rw [if_neg h]
      have h0 : mask / 2 = 0 := by omega
      rw [h0, run_cols_zero]
      refine ⟨_, rfl, ?_⟩
      by_cases h1 : mask % 4 = 1
      · simp only [if_pos h1, List.append_nil]
        exact List.Forall₂.cons (hclose h1) List.Forall₂.nil
      · simp only [if_neg h1, List.append_nil]
        exact List.Forall₂.nil

/-! ## Maximal runs of a row mask -/

theorem is_run_zero_zero (m : Nat) : is_run m 0 0 ↔ m % 4 = 1 := by
  unfold is_run
  constructor
  · rintro ⟨_, h1, _, h2⟩
    have := h1 0 le_rfl le_rfl
    rw [Nat.testBit_succ, Nat.testBit_zero] at h2
    rw [Nat.testBit_zero] at this
    simp at h2 this
    omega
  · intro h
    refine ⟨le_rfl, ?_, Or.inl rfl, ?_⟩
    · intro c _ hc
      have : c = 0 := by omega
      subst this
      rw [Nat.testBit_zero]; simp; omega
    · rw [Nat.testBit_succ, Nat.testBit_zero]; simp; omega

theorem is_run_zero_succ (m b : Nat) : is_run m 0 (b + 1) ↔ m % 2 = 1 ∧ is_run (m / 2) 0 b := by
  unfold is_run
  constructor
  · rintro ⟨_, h1, _, h2⟩
    refine ⟨?_, Nat.zero_le _, ?_, Or.inl rfl, ?_⟩
    · have := h1 0 le_rfl (Nat.zero_le _)
      rw [Nat.testBit_zero] at this
      simpa using this
    · intro c _ hc
      rw [Nat.testBit_div_two]
      exact h1 (c + 1) (Nat.zero_le _) (by omega)
    · rw [Nat.testBit_div_two]; exact h2
  · rintro ⟨h0, _, h1, _, h2⟩
    refine ⟨Nat.zero_le _, ?_, Or.inl rfl, ?_⟩
    · intro c _ hc
      rcases c with _ | c
      · rw [Nat.testBit_zero]; simpa using h0
      · rw [Nat.testBit_succ]; exact h1 c (Nat.zero_le _) (by omega)
    · rw [Nat.testBit_div_two] at h2; exact h2

theorem is_run_one_succ (m b : Nat) : is_run m 1 (b + 1) ↔ m % 2 = 0 ∧ is_run (m / 2) 0 b := by
  unfold is_run
  constructor
  · rintro ⟨_, h1, h0, h2⟩
    refine ⟨?_, Nat.zero_le _, ?_, Or.inl rfl, ?_⟩
    · rcases h0 with h0 | h0
      · omega
      · rw [Nat.testBit_zero] at h0
        simp at h0; omega
    · intro c _ hc
      rw [Nat.testBit_div_two]
      exact h1 (c + 1) (by omega) (by omega)
    · rw [Nat.testBit_div_two]; exact h2
  · rintro ⟨h0, _, h1, _, h2⟩
    refine ⟨by omega, ?_, Or.inr ?_, ?_⟩
    · intro c hc1 hc
      rcases c with _ | c
      · omega
      · rw [Nat.testBit_succ]; exact h1 c (Nat.zero_le _) (by omega)
    · rw [Nat.testBit_zero]; simp; omega
    · rw [Nat.testBit_div_two] at h2; exact h2

theorem is_run_succ_succ (m a b : Nat) : is_run m (a + 2) (b + 1) ↔ is_run (m / 2) (a + 1) b := by
  unfold is_run
  constructor
  · rintro ⟨h, h1, h0, h2⟩
    refine ⟨by omega, ?_, Or.inr ?_, ?_⟩
    · intro c hc1 hc
      rw [Nat.testBit_div_two]
      exact h1 (c + 1) (by omega) (by omega)
    · rcases h0 with h0 | h0
      · omega
      · rw [Nat.testBit_div_two]; exact h0
    · rw [Nat.testBit_div_two]; exact h2
  · rintro ⟨h, h1, h0, h2⟩
    refine ⟨by omega, ?_, Or.inr ?_, ?_⟩
    · intro c hc1 hc
      rcases c with _ | c
      · omega
      · rw [Nat.testBit_succ]; exact h1 c (by omega) (by omega)
    · rcases h0 with h0 | h0
      · omega
      · rw [Nat.testBit_div_two] at h0; exact h0
    · rw [Nat.testBit_div_two] at h2; exact h2

theorem is_run_first_bit {m b : Nat} (h : is_run m 0 b) : m % 2 = 1 := by
  have := h.2.1 0 le_rfl (Nat.zero_le _)
  rw [Nat.testBit_zero] at this
  simpa using this

/-- The runs closed by the column scan are the maximal runs of set bits of the
remaining mask; a run that contains the current column began at `s`. -/
theorem run_cols_mem (n : Nat) :
    ∀ (mask ctx s : Nat), mask < 2 ^ n → ∀ a b,
      (a, b) ∈ run_cols n mask ctx s ↔
        ∃ a' b', is_run mask a' b' ∧ b = ctx + b' ∧ a = if a' = 0 then s else ctx + a' := by
  induction n with
  | zero =>
    intro mask ctx s hm a b
    have : mask = 0 := by simpa using hm
    subst this
    simp only [run_cols, List.not_mem_nil, false_iff]
    rintro ⟨a', b', h, _⟩
    have := h.2.1 a' le_rfl h.1
    simp at this
  | succ n ih =>
    intro mask ctx s hm a b
    have hm2 : mask / 2 < 2 ^ n := by rw [Nat.pow_succ] at hm; omega
    rw [run_cols, List.mem_append, ih _ _ _ hm2]
    constructor
    · rintro (h | ⟨a'', b'', hr, hb, ha⟩)
      · by_cases h1 : mask % 4 = 1
        · rw [if_pos h1] at h
          simp only [List.mem_singleton, Prod.mk.injEq] at h
          exact ⟨0, 0, (is_run_zero_zero mask).2 h1, by omega, by simp [h.1]⟩
        · rw [if_neg h1] at h; simp at h
      · rcases a'' with _ | k
        · have hb1 := is_run_first_bit hr
          rcases Nat.mod_two_eq_zero_or_one mask with h0 | h0
          · refine ⟨1, b'' + 1, (is_run_one_succ mask b'').2 ⟨h0, hr⟩, by omega, ?_⟩
            have h2 : mask % 4 = 2 := by omega
            simp [h2] at ha
            simp [ha]
          · refine ⟨0, b'' + 1, (is_run_zero_succ mask b'').2 ⟨h0, hr⟩, by omega, ?_⟩
            have h2 : ¬ mask % 4 = 2 := by omega
            simp [h2] at ha
            simp [ha]
        · refine ⟨k + 2, b'' + 1, (is_run_succ_succ mask k b'').2 hr, by omega, ?_⟩
          simp at ha
          simp [ha]; omega
    · rintro ⟨a', b', hr, hb, ha⟩
      rcases b' with _ | b''
      · have ha0 : a' = 0 := by have := hr.1; omega
        subst ha0
        left
        rw [if_pos ((is_run_zero_zero mask).1 hr)]
        simp at ha
        simp [ha, hb]
      · right
        rcases a' with _ | _ | k
        · obtain ⟨h0, hr'⟩ := (is_run_zero_succ mask b'').1 hr
          have hb1 := is_run_first_bit hr'
          have h2 : ¬ mask % 4 = 2 := by omega
          exact ⟨0, b'', hr', by omega, by simp [h2, ha]⟩
        · obtain ⟨h0, hr'⟩ := (is_run_one_succ mask b'').1 hr
          have hb1 := is_run_first_bit hr'
          have h2 : mask % 4 = 2 := by omega
          refine ⟨0, b'', hr', by omega, ?_⟩
          simp at ha
          simp [h2, ha]
        · refine ⟨k + 1, b'', (is_run_succ_succ mask k b'').1 hr, by omega, ?_⟩
          simp at ha
          simp [ha]; omega

theorem run_cols_sorted (n : Nat) :
    ∀ (mask ctx s : Nat),
      (∀ p ∈ run_cols n mask ctx s, ctx ≤ p.2) ∧
      (run_cols n mask ctx s).Pairwise (fun p q => p.2 < q.2) := by
  induction n with
  | zero => intro mask ctx s; simp [run_cols]
  | succ n ih =>
    intro mask ctx s
    obtain ⟨h1, h2⟩ := ih (mask / 2) (ctx + 1) (if mask % 4 = 2 then ctx + 1 else s)
    rw [run_cols]
    constructor
    · intro p hp
      rcases List.mem_append.1 hp with hp | hp
      · split_ifs at hp
        · simp at hp; simp [hp]
        · simp at hp
      · have := h1 p hp; omega
    · rw [List.pairwise_append]
      refine ⟨?_, h2, ?_⟩
      · split_ifs <;> simp
      · intro p hp q hq
        have := h1 q hq
        split_ifs at hp
        · simp at hp; simp [hp]; omega
        · simp at hp

/-! ## Rectangles of the runs -/

theorem no_early_clamp_step {st : hud_t} {mask ctx : Nat} (h : no_early_clamp st mask ctx) :
    no_early_clamp st (mask / 2) (ctx + 1) := by
  intro j h1 h2 h3
  have := h (j + 1) (by rw [Nat.testBit_succ]; exact h1) (by rw [Nat.testBit_succ]; exact h2)
    (by rw [Nat.shiftRight_succ_inside]; exact h3)
  have e : ctx + (j + 1) + 1 = ctx + 1 + j + 1 := by omega
  rw [e] at this
  exact this

theorem no_early_clamp_here {st : hud_t} {mask ctx : Nat} (h : no_early_clamp st mask ctx)
    (h1 : mask % 4 = 1) (h2 : mask / 2 ≠ 0) :
    ((ctx : Int) + 1) * st.tilesize_x ≤ st.screenw := by
  have := h 0 (by rw [Nat.testBit_zero]; simp; omega)
    (by rw [Nat.testBit_succ, Nat.testBit_zero]; simp; omega)
    (by rw [Nat.shiftRight_succ_inside, Nat.shiftRight_zero]; exact h2)
  simpa using this

theorem paint_cols_rects (st : hud_t) (cty : Nat) (cy ch : Int) (n : Nat) :
    ∀ (mask ctx : Nat) (cx x1 : Int) (upd : List Nat) (s : Nat), mask < 2 ^ n → 0 < n →
      cx = ctx * st.tilesize_x → x1 = s * st.tilesize_x → no_early_clamp st mask ctx →
      ∃ rs, paint_cols st cty cy ch n mask ctx cx x1 upd = some rs ∧
        List.Forall₂ (run_rect_ok st cy ch) rs (run_cols n mask ctx s) := by
  induction n with
  | zero => intro _ _ _ _ _ _ h; omega
  | succ n ih =>
    intro mask ctx cx x1 upd s hm _ hcx hx1 hne
    rw [paint_cols_succ, run_cols]
    have hm2 : mask / 2 < 2 ^ n := by rw [Nat.pow_succ] at hm; omega
    have hnext : cx + st.tilesize_x = ((ctx + 1 : Nat) : Int) * st.tilesize_x := by
      rw [hcx]; push_cast; ring
    have hclose : run_rect_ok st cy ch
        (run_t.mk x1 cy ((if cx + st.tilesize_x > st.screenw then st.screenw
              else cx + st.tilesize_x) - x1) ch (collect_tile st ctx cty upd)) (s, ctx) := by
      refine ⟨hx1, rfl, ?_, rfl⟩
      simp only
      rw [hnext, hx1]
      push_cast
      split_ifs with hgt
      · rw [min_eq_right (by omega)]
      · rw [min_eq_left (by omega)]
    by_cases h : mask / 2 ≠ 0
    · rw [if_pos h]
      have hn : 0 < n := by
        rcases Nat.eq_zero_or_pos n with rfl | hn
        · simp at hm2; omega
        · exact hn
      have hcx' : (if mask % 4 = 1 then (if cx + st.tilesize_x > st.screenw then st.screenw
            else cx + st.tilesize_x) else cx + st.tilesize_x)
            = ((ctx + 1 : Nat) : Int) * st.tilesize_x := by
        by_cases h1 : mask % 4 = 1
        · have := no_early_clamp_here hne h1 h
          rw [if_pos h1, if_neg, hnext]
          rw [hnext]; push_cast; omega
        · rw [if_neg h1, hnext]
      have hx1' : (if mask % 4 = 1 then x1 else if mask % 4 = 2 then cx + st.tilesize_x else x1)
            = ((if mask % 4 = 2 then ctx + 1 else s : Nat) : Int) * st.tilesize_x := by
        by_cases h1 : mask % 4 = 1
        · rw [if_pos h1, if_neg (by omega)]; exact hx1
        · rw [if_neg h1]
          by_cases h2 : mask % 4 = 2
          · rw [if_pos h2, if_pos h2]; exact hnext
          · rw [if_neg h2, if_neg h2]; exact hx1
      obtain ⟨rs, hrs, hall⟩ := ih (mask / 2) (ctx + 1) _ _
        (if mask % 4 = 1 then []
            else if mask % 2 ≠ 0 then collect_tile st ctx cty upd else upd)
        (if mask % 4 = 2 then ctx + 1 else s) hm2 hn hcx' hx1' (no_early_clamp_step hne)
      rw [hrs]
      refine ⟨_, rfl, ?_⟩
      by_cases h1 : mask % 4 = 1
      · simp only [if_pos h1, List.singleton_append]
        exact List.Forall₂.cons hclose (by simpa [h1] using hall)
      · simp only [if_neg h1, List.nil_append]
        exact hall
    · rw [if_neg h]
      have h0 : mask / 2 = 0 := by omega
      rw [h0, run_cols_zero]
      refine ⟨_, rfl, ?_⟩
      by_cases h1 : mask % 4 = 1
      · simp only [if_pos h1, List.append_nil]
        exact List.Forall₂.cons hclose List.Forall₂.nil
      · simp only [if_neg h1, List.append_nil]
        exact List.Forall₂.nil

/-! ## Rows -/

theorem paint_row_total (st : hud_t) (cty : Nat) (cy : Int) :
    ∃ rs, paint_row st cty cy = some rs :=
  paint_cols_total st cty cy _ 16 _ 0 0 0 [] (Nat.mod_lt _ (by decide)) (by decide)

theorem paint_rows_total (st : hud_t) (n : Nat) :
    ∀ (cty : Nat) (cy : Int), ∃ rs, paint_rows st n cty cy = some rs := by
  induction n with
  | zero => intro cty cy; exact ⟨[], rfl⟩
  | succ n ih =>
    intro cty cy
    obtain ⟨r, hr⟩ := paint_row_total st cty cy
    obtain ⟨rs, hrs⟩ := ih (cty + 1) (cy + st.tilesize_y)
    exact ⟨r ++ rs, by rw [paint_rows, hr, hrs]⟩

theorem blit_row_eq_paint_row (st : hud_t) (cty : Nat) (cy : Int) :
    blit_row st cty cy =
      (paint_row st cty cy).map (List.map (fun r => event.blit r.x r.y r.w r.h)) := by
  unfold blit_row paint_row
  exact blit_cols_eq_paint_cols st cty cy _ 16 _ 0 0 0 []

theorem blit_rows_eq_paint_rows (st : hud_t) (n : Nat) :
    ∀ (cty : Nat) (cy : Int), blit_rows st n cty cy =
      (paint_rows st n cty cy).map (List.map (fun r => event.blit r.x r.y r.w r.h)) := by
  induction n with
  | zero => intro cty cy; rfl
  | succ n ih =>
    intro cty cy
    rw [blit_rows, paint_rows, blit_row_eq_paint_row, ih]
    obtain ⟨r, hr⟩ := paint_row_total st cty cy
    obtain ⟨rs, hrs⟩ := paint_rows_total st n (cty + 1) (cy + st.tilesize_y)
    rw [hr, hrs]
    simp

theorem blit_loop_eq_paint_loop (st : hud_t) :
    blit_loop st = (paint_loop st).map (List.map (fun r => event.blit r.x r.y r.w r.h)) :=
  blit_rows_eq_paint_rows st 16 0 0

/-- The paint loop visits row `cty` at `cy = cty * tilesize_y`. -/
theorem paint_rows_eq (st : hud_t) (f : Nat → List run_t) (n : Nat) :
    ∀ cty : Nat, (∀ r, cty ≤ r → r < cty + n →
        paint_row st r (r * st.tilesize_y) = some (f r)) →
      paint_rows st n cty (cty * st.tilesize_y) = some ((List.range' cty n).flatMap f) := by
  induction n with
  | zero => intro cty _; rfl
  | succ n ih =>
    intro cty h
    have e : (cty : Int) * st.tilesize_y + st.tilesize_y = ((cty + 1 : Nat) : Int) * st.tilesize_y := by
      push_cast; ring
    rw [paint_rows, h cty le_rfl (by omega), e, ih (cty + 1) (fun r h1 h2 => h r (by omega) (by omega))]
    simp [List.range'_succ]

/-! ## The tile index -/

theorem tile_widgets_eq : ∀ x < 16, ∀ y < 16, TILE_WIDGETS x y = y * 512 + x * 32 := by
  decide

theorem tile_nwidgets_eq : ∀ x < 16, ∀ y < 16, TILE_NWIDGETS x y = y * 16 + x := by
  decide

theorem tile_list_length (st : hud_t) (x y : Nat) :
    (tile_list st x y).length = st.tile_nwidgets (TILE_NWIDGETS x y) := by
  simp [tile_list]

theorem appended_congr {c c' : Prop} (h : c ↔ c') {new old : List Nat} {v : Nat}
    (ha : appended c new old v) : appended c' new old v := by
  unfold appended at *
  rw [← h]; exact ha

theorem same_screen_refl (st : hud_t) : same_screen st st := ⟨rfl, rfl, rfl, rfl, rfl, rfl⟩

theorem same_screen_trans {a b c : hud_t} (h1 : same_screen a b) (h2 : same_screen b c) :
    same_screen a c :=
  ⟨h1.1.trans h2.1, h1.2.1.trans h2.2.1, h1.2.2.1.trans h2.2.2.1, h1.2.2.2.1.trans h2.2.2.2.1,
    h1.2.2.2.2.1.trans h2.2.2.2.2.1, h1.2.2.2.2.2.trans h2.2.2.2.2.2⟩

theorem tile_add_screen (i xx yy : Nat) (st : hud_t) : same_screen (tile_add i xx yy st) st := by
  unfold tile_add same_screen
  simp only
  split_ifs <;> simp

theorem tile_add_list (i xx yy : Nat) (st : hud_t) (hxx : xx < 16) (hyy : yy < 16)
    (hok : tiles_ok st) (x y : Nat) (hx : x < 16) (hy : y < 16) :
    appended (x = xx ∧ y = yy) (tile_list (tile_add i xx yy st) x y) (tile_list st x y)
      (i % 256) := by
  have hb := tile_widgets_eq x hx y hy
  have hb' := tile_widgets_eq xx hxx yy hyy
  have hn := tile_nwidgets_eq x hx y hy
  have hn' := tile_nwidgets_eq xx hxx yy hyy
  have hc := hok x y hx hy
  unfold appended
  rw [tile_list_length]
  have hother : ¬ (x = xx ∧ y = yy) → tile_list (tile_add i xx yy st) x y = tile_list st x y := by
    intro hxy
    unfold tile_add
    simp only
    split_ifs with hlt
    · unfold tile_list
      simp only
      have hne : TILE_NWIDGETS x y ≠ TILE_NWIDGETS xx yy := by
        rw [hn, hn']; intro h; apply hxy; omega
      rw [Function.update_noteq hne]
      apply List.map_congr_left
      intro k hk
      rw [List.mem_range] at hk
      rw [Function.update_noteq]
      rw [hb, hb']; intro h; apply hxy; omega
    · rfl
  constructor
  · rintro ⟨⟨rfl, rfl⟩, hlt⟩
    unfold tile_add
    simp only
    rw [if_pos hlt]
    unfold tile_list
    simp only [Function.update_same]
    rw [Nat.mod_eq_of_lt (show st.tile_nwidgets (TILE_NWIDGETS x y) + 1 < 256 by omega),
      List.range_succ, List.map_append, List.map_singleton, Function.update_same]
    congr 1
    apply List.map_congr_left
    intro k hk
    rw [List.mem_range] at hk
    rw [Function.update_noteq (by omega)]
  · intro h
    by_cases hxy : x = xx ∧ y = yy
    · obtain ⟨rfl, rfl⟩ := hxy
      unfold tile_add
      simp only
      rw [if_neg (fun hlt => h ⟨⟨rfl, rfl⟩, hlt⟩)]
    · exact hother hxy

theorem tile_add_ok (i xx yy : Nat) (st : hud_t) (hxx : xx < 16) (hyy : yy < 16)
    (hok : tiles_ok st) : tiles_ok (tile_add i xx yy st) := by
  intro x y hx hy
  have := tile_add_list i xx yy st hxx hyy hok x y hx hy
  have hc := hok x y hx hy
  rw [← tile_list_length]
  by_cases h : (x = xx ∧ y = yy) ∧ (tile_list st x y).length < 32
  · rw [this.1 h, List.length_append, List.length_singleton]; omega
  · rw [this.2 h, tile_list_length]; exact hc

/-- A loop whose steps each append `v` to the list of tile `(x, y)` when they
hit it, and of which at most one hits it. -/
theorem fold_tile_list {α : Type} (g : α → hud_t → hud_t) (valid hit : α → Prop) (x y v : Nat)
    (hg : ∀ a st, valid a → tiles_ok st → tiles_ok (g a st) ∧ same_screen (g a st) st ∧
      appended (hit a) (tile_list (g a st) x y) (tile_list st x y) v) :
    ∀ (l : List α) (st : hud_t), (∀ a ∈ l, valid a) →
      l.Pairwise (fun a b => ¬ (hit a ∧ hit b)) → tiles_ok st →
      tiles_ok (l.foldl (fun s a => g a s) st) ∧ same_screen (l.foldl (fun s a => g a s) st) st ∧
      appended (∃ a ∈ l, hit a) (tile_list (l.foldl (fun s a => g a s) st) x y)
        (tile_list st x y) v := by
  intro l
  induction l with
  | nil =>
    intro st _ _ hok
    exact ⟨hok, same_screen_refl st, by unfold appended; simp⟩
  | cons a l ih =>
    intro st hv hp hok
    rw [List.pairwise_cons] at hp
    obtain ⟨g1, g2, g3⟩ := hg a st (hv a (List.mem_cons_self _ _)) hok
    obtain ⟨i1, i2, i3⟩ := ih (g a st) (fun b hb => hv b (List.mem_cons_of_mem _ hb)) hp.2 g1
    rw [List.foldl_cons]
    refine ⟨i1, same_screen_trans i2 g2, ?_⟩
    by_cases ha : hit a
    · have hl : ¬ ∃ b ∈ l, hit b := fun ⟨b, hb, hb'⟩ => hp.1 b hb ⟨ha, hb'⟩
      have e := i3.2 (fun h => hl h.1)
      rw [e]
      exact appended_congr ⟨fun _ => ⟨a, List.mem_cons_self _ _, ha⟩, fun _ => ha⟩ g3
    · have e := g3.2 (fun h => ha h.1)
      rw [e] at i3
      refine appended_congr ⟨fun ⟨b, hb, hb'⟩ => ⟨b, List.mem_cons_of_mem _ hb, hb'⟩, ?_⟩ i3
      rintro ⟨b, hb, hb'⟩
      rcases List.mem_cons.1 hb with rfl | hb
      · exact absurd hb' ha
      · exact ⟨b, hb, hb'⟩

theorem range'_pairwise_not (Q : Nat → Nat → Prop) (s n : Nat)
    (h : ∀ a b, a < b → ¬ Q a b) : (List.range' s n).Pairwise (fun a b => ¬ Q a b) :=
  (List.pairwise_lt_range' s n).imp (fun {a b} hab => h a b hab)

theorem index_tiles_list (i tx1 tx2 ty1 ty2 : Nat) (st : hud_t) (htx : tx2 ≤ 15) (hty : ty2 ≤ 15)
    (hok : tiles_ok st) (x y : Nat) (hx : x < 16) (hy : y < 16) :
    tiles_ok (index_tiles i tx1 tx2 ty1 ty2 st) ∧
    same_screen (index_tiles i tx1 tx2 ty1 ty2 st) st ∧
    appended (tx1 ≤ x ∧ x ≤ tx2 ∧ ty1 ≤ y ∧ y ≤ ty2)
      (tile_list (index_tiles i tx1 tx2 ty1 ty2 st) x y) (tile_list st x y) (i % 256) := by
  -- the inner loop, for a row `yy`
  have inner : ∀ yy s, yy < 16 → tiles_ok s →
      tiles_ok ((List.range' tx1 (tx2 + 1 - tx1)).foldl (fun s xx => tile_add i xx yy s) s) ∧
      same_screen ((List.range' tx1 (tx2 + 1 - tx1)).foldl (fun s xx => tile_add i xx yy s) s) s ∧
      appended (y = yy ∧ tx1 ≤ x ∧ x ≤ tx2)
        (tile_list ((List.range' tx1 (tx2 + 1 - tx1)).foldl (fun s xx => tile_add i xx yy s) s) x y)
        (tile_list s x y) (i % 256) := by
    intro yy s hyy hs
    have := fold_tile_list (fun xx s => tile_add i xx yy s) (fun xx => xx < 16)
      (fun xx => x = xx ∧ y = yy) x y (i % 256)
      (fun a st' ha hst' => ⟨tile_add_ok i a yy st' ha hyy hst', tile_add_screen i a yy st',
        tile_add_list i a yy st' ha hyy hst' x y hx hy⟩)
      (List.range' tx1 (tx2 + 1 - tx1)) s
      (fun a ha => by rw [List.mem_range'_1] at ha; omega)
      (range'_pairwise_not (fun a b => (x = a ∧ y = yy) ∧ (x = b ∧ y = yy)) _ _
        (fun a b hab h => by omega))
      hs
    refine ⟨this.1, this.2.1, appended_congr ?_ this.2.2⟩
    constructor
    · rintro ⟨a, ha, rfl, rfl⟩
      rw [List.mem_range'_1] at ha
      exact ⟨rfl, by omega, by omega⟩
    · rintro ⟨rfl, h1, h2⟩
      exact ⟨x, by rw [List.mem_range'_1]; omega, rfl, rfl⟩
  have := fold_tile_list
    (fun yy s => (List.range' tx1 (tx2 + 1 - tx1)).foldl (fun s xx => tile_add i xx yy s) s)
    (fun yy => yy < 16) (fun yy => y = yy ∧ tx1 ≤ x ∧ x ≤ tx2) x y (i % 256)
    (fun a st' ha hst' => inner a st' ha hst')
    (List.range' ty1 (ty2 + 1 - ty1)) st
    (fun a ha => by rw [List.mem_range'_1] at ha; omega)
    (range'_pairwise_not
      (fun a b => (y = a ∧ tx1 ≤ x ∧ x ≤ tx2) ∧ (y = b ∧ tx1 ≤ x ∧ x ≤ tx2)) _ _
      (fun a b hab h => by omega))
    hok
  unfold index_tiles
  refine ⟨this.1, this.2.1, appended_congr ?_ this.2.2⟩
  constructor
  · rintro ⟨a, ha, rfl, h1, h2⟩
    rw [List.mem_range'_1] at ha
    exact ⟨h1, h2, by omega, by omega⟩
  · rintro ⟨h1, h2, h3, h4⟩
    exact ⟨y, by rw [List.mem_range'_1]; omega, rfl, h1, h2⟩

/-! ## One pass of `load_widgets` -/

theorem covers_congr {a b : hud_t} (h : same_screen a b) (cw : widget_t) (x y : Nat) :
    covers a cw x y ↔ covers b cw x y := by
  unfold covers
  rw [h.1, h.2.1]

theorem load_widget_tiles (shm : shm_t) (s : hud_t × Nat) (i : Nat) (hok : tiles_ok s.1)
    (x y : Nat) (hx : x < 16) (hy : y < 16) :
    tiles_ok (load_widget shm s i).1 ∧ same_screen (load_widget shm s i).1 s.1 ∧
      appended (covers s.1 (shm.widgets i) x y) (tile_list (load_widget shm s i).1 x y)
        (tile_list s.1 x y) (i % 256) := by
  have h1 := tilepos_le ((shm.widgets i).cx + (shm.widgets i).cw) s.1.tilesize_x
  have h2 := tilepos_le ((shm.widgets i).cy + (shm.widgets i).ch) s.1.tilesize_y
  have := index_tiles_list i (_TILEPOS (shm.widgets i).cx s.1.tilesize_x).toNat
    (_TILEPOS ((shm.widgets i).cx + (shm.widgets i).cw) s.1.tilesize_x).toNat
    (_TILEPOS (shm.widgets i).cy s.1.tilesize_y).toNat
    (_TILEPOS ((shm.widgets i).cy + (shm.widgets i).ch) s.1.tilesize_y).toNat s.1
    (by omega) (by omega) hok x y hx hy
  exact this

theorem load_loop_succ (shm : shm_t) (n : Nat) (s : hud_t × Nat) :
    load_loop shm (n + 1) s = load_widget shm (load_loop shm n s) n := by
  unfold load_loop
  rw [List.range_succ, List.foldl_append, List.foldl_cons, List.foldl_nil]

theorem load_loop_tiles (shm : shm_t) (s0 : hud_t × Nat) (hok : tiles_ok s0.1) (x y : Nat)
    (hx : x < 16) (hy : y < 16) (hempty : tile_list s0.1 x y = []) (n : Nat) (hn : n ≤ 256) :
    tiles_ok (load_loop shm n s0).1 ∧ same_screen (load_loop shm n s0).1 s0.1 ∧
      tile_list (load_loop shm n s0).1 x y =
        ((List.range n).filter (fun i => decide (covers s0.1 (shm.widgets i) x y))).take 32 := by
  induction n with
  | zero => exact ⟨hok, same_screen_refl _, by simp [load_loop, hempty]⟩
  | succ n ih =>
    obtain ⟨i1, i2, i3⟩ := ih (by omega)
    obtain ⟨w1, w2, w3⟩ := load_widget_tiles shm (load_loop shm n s0) n i1 x y hx hy
    rw [load_loop_succ]
    refine ⟨w1, same_screen_trans w2 i2, ?_⟩
    have w3' := appended_congr (covers_congr i2 (shm.widgets n) x y) w3
    rw [Nat.mod_eq_of_lt (by omega), i3] at w3'
    rw [List.range_succ, List.filter_append]
    generalize (List.range n).filter (fun i => decide (covers s0.1 (shm.widgets i) x y)) = L
      at w3' ⊢
    by_cases hc : covers s0.1 (shm.widgets n) x y
    · have e : List.filter (fun i => decide (covers s0.1 (shm.widgets i) x y)) [n] = [n] := by
        simp [hc]
      rw [e]
      by_cases hl : L.length < 32
      · rw [w3'.1 ⟨hc, by rw [List.length_take]; omega⟩, List.take_of_length_le (by omega),
          List.take_of_length_le (by rw [List.length_append, List.length_singleton]; omega)]
      · rw [w3'.2 (fun h => by have := h.2; rw [List.length_take] at this; omega),
          List.take_append_of_le_length (by omega)]
    · have e : List.filter (fun i => decide (covers s0.1 (shm.widgets i) x y)) [n] = [] := by
        simp [hc]
      rw [e, List.append_nil]
      exact w3'.2 (fun h => hc h.1)

theorem clear_tile_counts_list (st : hud_t) (x y : Nat) (hx : x < 16) (hy : y < 16) :
    tile_list (clear_tile_counts st) x y = [] := by
  unfold tile_list clear_tile_counts
  simp only
  rw [if_pos (by rw [tile_nwidgets_eq x hx y hy]; omega)]
  rfl

theorem clear_tile_counts_ok (st : hud_t) : tiles_ok (clear_tile_counts st) := by
  intro x y hx hy
  unfold clear_tile_counts
  simp only
  rw [if_pos (by rw [tile_nwidgets_eq x hx y hy]; omega)]
  omega

/-- The tile index after one pass over `nw <= 256` records: every tile lists, in
ascending order, the first 32 of the widgets whose tile range contains it. -/
theorem load_pass_tiles (shm : shm_t) (st : hud_t) (hn : shm.hdr.numwidgets ≤ 256) (x y : Nat)
    (hx : x < 16) (hy : y < 16) :
    same_screen (load_pass shm st) st ∧
      tile_list (load_pass shm st) x y =
        ((List.range shm.hdr.numwidgets).filter
          (fun i => decide (covers st (shm.widgets i) x y))).take 32 := by
  unfold load_pass
  simp only
  have := load_loop_tiles shm
    (clear_tile_counts st, sizeof_memheader_t + shm.hdr.numwidgets * sizeof_widget_t)
    (clear_tile_counts_ok st) x y hx hy (clear_tile_counts_list st x y hx hy) _ hn
  have hs : same_screen (clear_tile_counts st) st := same_screen_refl _
  refine ⟨same_screen_trans this.2.1 hs, ?_⟩
  rw [this.2.2]
  rfl

/-! ## `load_widgets` -/

theorem load_pass_screen (shm : shm_t) (st : hud_t) (hn : shm.hdr.numwidgets ≤ 256) :
    same_screen (load_pass shm st) st :=
  (load_pass_tiles shm st hn 0 0 (by decide) (by decide)).1

/-- A call that clears the drawing surface has committed pass `k`: the earlier
passes were torn, pass `k` read at most `MAXWIDGETS` records and the same header
version before and after, and the state is that of pass `k`, committed. -/
theorem load_widgets_committed (fuel : Nat) :
    ∀ (obs : Nat → shm_t × Nat) (st st' : hud_t) (evs : List event),
      load_widgets fuel obs st = some (st', evs) → event.clear_image ∈ evs →
      ∃ k st0, k < fuel ∧ same_screen st0 st ∧ (obs k).1.hdr.numwidgets ≤ MAXWIDGETS ∧
        (obs k).1.hdr.version = (obs k).2 ∧ evs = [event.clear_image] ∧
        st' = load_commit (obs k).1.hdr.version (obs k).1.hdr.numwidgets
          (load_pass (obs k).1 st0) := by
  induction fuel with
  | zero => intro obs st st' evs h; simp [load_widgets] at h
  | succ fuel ih =>
    intro obs st st' evs h hev
    rw [load_widgets] at h
    simp only at h
    by_cases hnw : (obs 0).1.hdr.numwidgets > MAXWIDGETS
    · rw [if_pos hnw] at h
      simp only [Option.some.injEq, Prod.mk.injEq] at h
      rw [← h.2] at hev
      simp at hev
    · rw [if_neg hnw] at h
      by_cases hv : (obs 0).1.hdr.version = (obs 0).2
      · rw [if_pos hv] at h
        simp only [Option.some.injEq, Prod.mk.injEq] at h
        exact ⟨0, st, by omega, same_screen_refl st, by omega, hv, h.2.symm, h.1.symm⟩
      · rw [if_neg hv] at h
        obtain ⟨k, st0, hk, hs, h1, h2, h3, h4⟩ := ih _ _ _ _ h hev
        refine ⟨k + 1, st0, by omega, ?_, h1, h2, h3, h4⟩
        exact same_screen_trans hs (load_pass_screen _ _ (by unfold MAXWIDGETS at hnw; omega))

theorem load_widgets_stable (fuel : Nat) (shm : shm_t) (st : hud_t) :
    load_widgets (fuel + 1) (stable shm) st =
      if shm.hdr.numwidgets > MAXWIDGETS then some (clear_tile_counts st, [])
      else some (load_commit shm.hdr.version shm.hdr.numwidgets (load_pass shm st),
        [event.clear_image]) := by
  rw [load_widgets]
  simp [stable]

/-! ## Pixels and tiles -/

theorem screen_ok_tilesize {st : hud_t} (h : screen_ok st) :
    0 < st.tilesize_x ∧ 0 < st.tilesize_y ∧ st.screenw ≤ 16 * st.tilesize_x ∧
      st.screenh ≤ 16 * st.tilesize_y := by
  obtain ⟨h1, h2, h3, h4⟩ := h
  rw [h3, h4]
  omega

/-- A tile column that shares a pixel column with `[v, v + w)` lies in the
computed tile range. -/
theorem tilepos_covers {v w ts px : Int} {t : Nat} (hts : 0 < ts) (ht : t ≤ 15)
    (h1 : t * ts ≤ px) (h2 : px < (t + 1) * ts) (h3 : v ≤ px) (h4 : px < v + w) :
    (_TILEPOS v ts).toNat ≤ t ∧ t ≤ (_TILEPOS (v + w) ts).toNat := by
  have hpx : 0 ≤ px := le_trans (mul_nonneg (Int.ofNat_nonneg t) hts.le) h1
  have q1 : Int.tdiv v ts ≤ t := by
    rcases le_or_lt 0 v with hv | hv
    · rw [Int.tdiv_eq_ediv hv hts.le]
      have : v / ts < t + 1 := Int.ediv_lt_of_lt_mul hts (by omega)
      omega
    · have := Int.tdiv_nonneg (a := -v) (b := ts) (by omega) hts.le
      rw [Int.neg_tdiv] at this
      omega
  have q2 : (t : Int) ≤ Int.tdiv (v + w) ts := by
    rw [Int.tdiv_eq_ediv (by omega) hts.le]
    exact Int.le_ediv_of_mul_le hts (by omega)
  rw [tilepos_eq, tilepos_eq]
  omega

theorem collect_tile_mem (st : hud_t) (ctx cty : Nat) (upd : List Nat) (x : Nat) :
    x ∈ collect_tile st ctx cty upd ↔
      x ∈ upd ∨ (x ∈ tile_list st ctx cty ∧ (st.widget_ldata x).visible ≠ 0) := by
  rw [collect_tile_eq]
  generalize tile_list st ctx cty = l
  induction l generalizing upd with
  | nil => simp
  | cons a l ih =>
    rw [List.foldl_cons, ih, List.mem_cons]
    by_cases hv : (st.widget_ldata a).visible ≠ 0
    · rw [if_pos hv, insert_update_mem]
      constructor
      · rintro ((rfl | h) | h)
        · exact Or.inr ⟨Or.inl rfl, hv⟩
        · exact Or.inl h
        · exact Or.inr ⟨Or.inr h.1, h.2⟩
      · rintro (h | ⟨rfl | h, h'⟩)
        · exact Or.inl (Or.inr h)
        · exact Or.inl (Or.inl rfl)
        · exact Or.inr ⟨h, h'⟩
    · rw [if_neg hv]
      constructor
      · rintro (h | h)
        · exact Or.inl h
        · exact Or.inr ⟨Or.inr h.1, h.2⟩
      · rintro (h | ⟨rfl | h, h'⟩)
        · exact Or.inl h
        · exact absurd h' hv
        · exact Or.inr ⟨h, h'⟩

theorem filter_range_sorted (p : Nat → Bool) (n : Nat) :
    ((List.range n).filter p).Pairwise (fun i j => i < j) :=
  List.Pairwise.sublist (List.filter_sublist _) (List.pairwise_lt_range n)

theorem take_lt_drop {F : List Nat} (h : F.Pairwise (fun i j => i < j)) (k : Nat) :
    ∀ a ∈ F.take k, ∀ b ∈ F.drop k, a < b := by
  have := h
  rw [← List.take_append_drop k F, List.pairwise_append] at this
  exact this.2.2

theorem load_commit_tile_list (cvers nw : Nat) (st : hud_t) (x y : Nat) :
    tile_list (load_commit cvers nw st) x y = tile_list st x y := rfl

/-! ## Claims -/

/-- C1: after `load_widgets` commits a snapshot (it clears the drawing surface
exactly then) on a screen of positive size, the committed pass `k` read at most
256 widgets and every widget `i` is in the list of every tile `(tx, ty)`,
`tx, ty <= 15`, whose pixel area shares a pixel `(px, py)` with the bounding
box of the widget, unless the tile already held 32 entries when widget `i` was
processed, i.e. its list is full with 32 widgets of smaller index. -/
theorem load_widgets_indexes_overlapped_tiles (fuel : Nat) (obs : Nat → shm_t × Nat)
    (st st' : hud_t) (evs : List event) (hscreen : screen_ok st)
    (hload : load_widgets fuel obs st = some (st', evs)) (hcommit : event.clear_image ∈ evs) :
    ∃ k, k < fuel ∧ (obs k).1.hdr.version = (obs k).2 ∧ (obs k).1.hdr.numwidgets ≤ 256 ∧
      st'.cur_header.numwidgets = (obs k).1.hdr.numwidgets ∧
      ∀ (i tx ty : Nat) (px py : Int), i < (obs k).1.hdr.numwidgets → tx ≤ 15 → ty ≤ 15 →
        tx * st.tilesize_x ≤ px → px < (tx + 1) * st.tilesize_x →
        ty * st.tilesize_y ≤ py → py < (ty + 1) * st.tilesize_y →
        ((obs k).1.widgets i).cx ≤ px →
        px < ((obs k).1.widgets i).cx + ((obs k).1.widgets i).cw →
        ((obs k).1.widgets i).cy ≤ py →
        py < ((obs k).1.widgets i).cy + ((obs k).1.widgets i).ch →
        i ∈ tile_list st' tx ty ∨
          ((tile_list st' tx ty).length = 32 ∧ ∀ j ∈ tile_list st' tx ty, j < i) := by
  obtain ⟨k, st0, hk, hs, hnw, hv, _, hst'⟩ := load_widgets_committed fuel obs st st' evs hload hcommit
  have hnw' : (obs k).1.hdr.numwidgets ≤ 256 := hnw
  refine ⟨k, hk, hv, hnw', by rw [hst']; rfl, ?_⟩
  intro i tx ty px py hi htx hty x1 x2 y1 y2 c1 c2 c3 c4
  obtain ⟨sx, sy, _, _⟩ := screen_ok_tilesize hscreen
  have hcov : covers st0 ((obs k).1.widgets i) tx ty := by
    rw [covers_congr hs]
    have a := tilepos_covers sx htx x1 x2 c1 c2
    have b := tilepos_covers sy hty y1 y2 c3 c4
    exact ⟨a.1, a.2, b.1, b.2⟩
  rw [hst', load_commit_tile_list,
    (load_pass_tiles (obs k).1 st0 hnw' tx ty (by omega) (by omega)).2]
  have hF := filter_range_sorted (fun i => decide (covers st0 ((obs k).1.widgets i) tx ty))
    (obs k).1.hdr.numwidgets
  have hmem : i ∈ (List.range (obs k).1.hdr.numwidgets).filter
      (fun i => decide (covers st0 ((obs k).1.widgets i) tx ty)) := by
    rw [List.mem_filter, List.mem_range]
    exact ⟨hi, by simpa using hcov⟩
  generalize (List.range (obs k).1.hdr.numwidgets).filter
      (fun i => decide (covers st0 ((obs k).1.widgets i) tx ty)) = F at hF hmem
  by_cases hin : i ∈ F.take 32
  · exact Or.inl hin
  · right
    have hdrop : i ∈ F.drop 32 := by
      rw [← List.take_append_drop 32 F, List.mem_append] at hmem
      exact hmem.resolve_left hin
    have hlen : 32 < F.length := by
      by_contra hle
      rw [List.drop_of_length_le (by omega)] at hdrop
      simp at hdrop
    refine ⟨by rw [List.length_take]; omega, fun j hj => take_lt_drop hF 32 j hj i hdrop⟩

/-- C8: after `load_widgets` commits a snapshot (it clears the drawing surface
exactly then), every tile counter is at most 32, and the list of every tile is
the first `min 32 k` entries of the ascending list of the `k` widgets whose
computed tile range contains the tile; a widget behind the 32nd is not in the
list and is not collected from the tile by the paint loop. -/
theorem load_widgets_tile_lists (fuel : Nat) (obs : Nat → shm_t × Nat)
    (st st' : hud_t) (evs : List event)
    (hload : load_widgets fuel obs st = some (st', evs)) (hcommit : event.clear_image ∈ evs) :
    ∃ k, k < fuel ∧ (obs k).1.hdr.version = (obs k).2 ∧ (obs k).1.hdr.numwidgets ≤ 256 ∧
      ∀ x y, x < 16 → y < 16 →
        st'.tile_nwidgets (TILE_NWIDGETS x y) ≤ 32 ∧
        st'.tile_nwidgets (TILE_NWIDGETS x y) =
          min 32 ((List.range (obs k).1.hdr.numwidgets).filter
            (fun i => decide (covers st ((obs k).1.widgets i) x y))).length ∧
        tile_list st' x y =
          ((List.range (obs k).1.hdr.numwidgets).filter
            (fun i => decide (covers st ((obs k).1.widgets i) x y))).take 32 ∧
        ∀ i, i ∈ ((List.range (obs k).1.hdr.numwidgets).filter
            (fun i => decide (covers st ((obs k).1.widgets i) x y))).drop 32 →
          i ∉ tile_list st' x y ∧ ∀ upd, i ∉ upd → i ∉ collect_tile st' x y upd := by
  obtain ⟨k, st0, hk, hs, hnw, hv, _, hst'⟩ := load_widgets_committed fuel obs st st' evs hload hcommit
  have hnw' : (obs k).1.hdr.numwidgets ≤ 256 := hnw
  refine ⟨k, hk, hv, hnw', ?_⟩
  intro x y hx hy
  have hl : tile_list st' x y = ((List.range (obs k).1.hdr.numwidgets).filter
            (fun i => decide (covers st ((obs k).1.widgets i) x y))).take 32 := by
    rw [hst', load_commit_tile_list, (load_pass_tiles (obs k).1 st0 hnw' x y hx hy).2]
    congr 2
    funext i
    exact decide_eq_decide.2 (covers_congr hs _ _ _)
  have hF := filter_range_sorted (fun i => decide (covers st ((obs k).1.widgets i) x y))
    (obs k).1.hdr.numwidgets
  generalize (List.range (obs k).1.hdr.numwidgets).filter
      (fun i => decide (covers st ((obs k).1.widgets i) x y)) = F at hl hF
  have hc : st'.tile_nwidgets (TILE_NWIDGETS x y) = min 32 F.length := by
    rw [← tile_list_length, hl, List.length_take]
  refine ⟨by rw [hc]; omega, hc, hl, ?_⟩
  intro i hi
  have hnot : i ∉ tile_list st' x y := by
    rw [hl]
    intro h
    exact lt_irrefl i (take_lt_drop hF 32 i h i hi)
  refine ⟨hnot, fun upd hu h => ?_⟩
  rcases (collect_tile_mem st' x y upd i).1 h with h | h
  · exact hu h
  · exact hnot h.1

/-- C3: the change detection ORs into every row `r` of the dirty bitmap the
cached `dirty_mask` of exactly the widgets `i < numwidgets` with
`ty1 <= r <= ty2` that are now visible with a new version, or whose visibility
flipped; no other bit changes. -/
theorem detect_changes_dirty_bits (shm : shm_t) (new_visibility : Nat) (st : hud_t)
    (r c : Nat) :
    ((detect_changes shm new_visibility st).dirty_bits r).testBit c = true ↔
      (st.dirty_bits r).testBit c = true ∨
      ∃ i, i < st.cur_header.numwidgets ∧
        ((IS_VISIBLE (shm.widgets i) new_visibility = true ∧
            (shm.widgets i).version ≠ (st.widget_ldata i).last_version) ∨
          IS_VISIBLE (shm.widgets i) st.cur_header.visibility ≠
            IS_VISIBLE (shm.widgets i) new_visibility) ∧
        (st.widget_ldata i).ty1 ≤ r ∧ r ≤ (st.widget_ldata i).ty2 ∧
        ((st.widget_ldata i).dirty_mask).testBit c = true :=
  (detect_fold_inv shm new_visibility st st.cur_header.numwidgets).2.2 r c

/-- C4: `IS_VISIBLE` holds iff `visgroup == (visibility & vismask)`; a widget
with `visgroup = 0` and `vismask = 0` is visible under every visibility word. -/
theorem is_visible_iff (cw : widget_t) (visibility : Nat) :
    (IS_VISIBLE cw visibility = true ↔ cw.visgroup = visibility &&& cw.vismask) ∧
      IS_VISIBLE { cw with visgroup := 0, vismask := 0 } visibility = true := by
  unfold IS_VISIBLE
  simp

/-- C5: for `w >= 0` (and any `h`, so also `h >= 0`) and a positive tile width,
`mark_dirty` sets in every row `ty1..ty2` the bits of the columns `tx1..tx2` and
nothing else, where the bounds are `x / tilesize_x`, `(x + w) / tilesize_x`,
`y / tilesize_y`, `(y + h) / tilesize_y`, divided as C does and clamped to
`[0, 15]`; bits that were set stay set, the other rows keep their value, and
the mask `(2 << tx2) - (1 << tx1)` has bit `c` set iff `tx1 <= c <= tx2`, also
for `tx2 = 15`. -/
theorem mark_dirty_sets_span (st : hud_t) (x y w h : Int) (hsx : 0 < st.tilesize_x)
    (hw : 0 ≤ w) :
    (∀ r c : Nat, ((mark_dirty x y w h st).dirty_bits r).testBit c = true ↔
      (st.dirty_bits r).testBit c = true ∨
        (max 0 (min 15 (Int.tdiv y st.tilesize_y)) ≤ r ∧
          (r : Int) ≤ max 0 (min 15 (Int.tdiv (y + h) st.tilesize_y)) ∧
          max 0 (min 15 (Int.tdiv x st.tilesize_x)) ≤ c ∧
          (c : Int) ≤ max 0 (min 15 (Int.tdiv (x + w) st.tilesize_x)))) ∧
    (∀ r : Nat, ¬ (max 0 (min 15 (Int.tdiv y st.tilesize_y)) ≤ r ∧
          (r : Int) ≤ max 0 (min 15 (Int.tdiv (y + h) st.tilesize_y))) →
      (mark_dirty x y w h st).dirty_bits r = st.dirty_bits r) ∧
    (∀ c : Nat, (col_mask (max 0 (min 15 (Int.tdiv x st.tilesize_x)))
        (max 0 (min 15 (Int.tdiv (x + w) st.tilesize_x)))).testBit c = true ↔
      (max 0 (min 15 (Int.tdiv x st.tilesize_x)) ≤ c ∧
        (c : Int) ≤ max 0 (min 15 (Int.tdiv (x + w) st.tilesize_x)))) := by
  have hx12 := tilepos_mono hsx (show x ≤ x + w by omega)
  have hx0 := tilepos_nonneg x st.tilesize_x
  have hx15 := tilepos_le (x + w) st.tilesize_x
  have hy0 := tilepos_nonneg y st.tilesize_y
  have hy0' := tilepos_nonneg (y + h) st.tilesize_y
  simp only [← tilepos_eq]
  unfold mark_dirty
  simp only
  refine ⟨?_, ?_, fun c => by rw [col_mask_testBit hx0 hx12 hx15]; simp⟩
  · intro r c
    rw [or_rows_apply]
    split_ifs with hr
    · rw [Nat.testBit_lor, Bool.or_eq_true, col_mask_testBit hx0 hx12 hx15]
      simp only [decide_eq_true_eq]
      constructor
      · rintro (h1 | h1)
        · exact Or.inl h1
        · exact Or.inr ⟨by omega, by omega, h1⟩
      · rintro (h1 | h1)
        · exact Or.inl h1
        · exact Or.inr h1.2.2
    · constructor
      · intro h1; exact Or.inl h1
      · rintro (h1 | h1)
        · exact h1
        · exact absurd (show _ ∧ _ from ⟨by omega, by omega⟩) hr
  · intro r hr
    rw [or_rows_apply, if_neg]
    intro h1
    apply hr
    omega

/-! ## `draw_widgets` -/

theorem paint_loop_eq (st : hud_t) : paint_loop st = some (paint_runs st) := by
  obtain ⟨rs, h⟩ := paint_rows_total st 16 0 0
  unfold paint_runs paint_loop
  rw [h]; rfl

theorem blit_loop_eq (st : hud_t) : blit_loop st = some ((paint_runs st).map run_t.blit) := by
  rw [blit_loop_eq_paint_loop, paint_loop_eq]; rfl

theorem paint_cols_zero (st : hud_t) (cty : Nat) (cy ch : Int) (n ctx : Nat) (cx x1 : Int)
    (upd : List Nat) : paint_cols st cty cy ch (n + 1) 0 ctx cx x1 upd = some [] := by
  rw [paint_cols_succ]; simp

theorem paint_rows_zero (st : hud_t) (n : Nat) :
    ∀ (cty : Nat) (cy : Int), (∀ r, cty ≤ r → r < cty + n → st.dirty_bits r % 65536 = 0) →
      paint_rows st n cty cy = some [] := by
  induction n with
  | zero => intro _ _ _; rfl
  | succ n ih =>
    intro cty cy h
    rw [paint_rows, ih (cty + 1) _ (fun r h1 h2 => h r (by omega) (by omega))]
    unfold paint_row
    rw [h cty le_rfl (by omega), paint_cols_zero]
    rfl

theorem paint_runs_zero (st : hud_t) (h : ∀ r, r < 16 → st.dirty_bits r = 0) :
    paint_runs st = [] := by
  unfold paint_runs paint_loop
  rw [paint_rows_zero st 16 0 0 (fun r _ hr => by rw [h r (by omega)])]
  rfl

theorem draw_owned_eq (fuel : Nat) (obs : Nat → shm_t × Nat) (shm : shm_t) (st : hud_t) :
    draw_owned fuel obs shm st =
      match (if st.cur_header.version ≠ shm.hdr.version then load_widgets fuel obs st
             else some (st, [])) with
      | none => none
      | some (sA, ev1) =>
        some (finish_pass shm.hdr.visibility (detect_changes shm shm.hdr.visibility sA),
          ev1 ++ (paint_runs (detect_changes shm shm.hdr.visibility sA)).flatMap (run_events shm)
            ++ (paint_runs (detect_changes shm shm.hdr.visibility sA)).map run_t.blit) := by
  unfold draw_owned
  split
  · rfl
  · simp only [paint_loop_eq, blit_loop_eq]

theorem vt_switch_active (st : hud_t) :
    (vt_switch st).1.vt_active = st.vt_active_requested ∧
      (vt_switch st).1.vt_active_requested = st.vt_active_requested := by
  unfold vt_switch
  by_cases h1 : st.vt_active = st.vt_active_requested
  · simp [h1]
  · by_cases h2 : st.vt_active_requested = 0
    · have h3 : ¬ st.vt_active = 0 := fun h => h1 (h.trans h2.symm)
      simp [h2, h3]
    · simp [h1, h2, mark_screen_dirty]

theorem vt_switch_same (st : hud_t) (h : st.vt_active = st.vt_active_requested) :
    vt_switch st = (st, []) := by
  unfold vt_switch
  rw [if_neg (by simpa using h)]

theorem detect_widget_quiet (shm : shm_t) (nv : Nat) (st : hud_t) (i : Nat)
    (h : ¬ changed shm nv st i) : detect_widget shm nv st i = st := by
  unfold detect_widget
  simp only
  rw [if_neg (fun hc => h ((detect_widget_cond shm nv st i).1 hc))]

theorem detect_changes_quiet (shm : shm_t) (nv : Nat) (st : hud_t)
    (h : ∀ i, i < st.cur_header.numwidgets → ¬ changed shm nv st i) :
    detect_changes shm nv st = st := by
  unfold detect_changes
  generalize st.cur_header.numwidgets = n at h
  induction n with
  | zero => rfl
  | succ n ih =>
    rw [List.range_succ, List.foldl_append, ih (fun i hi => h i (by omega)), List.foldl_cons,
      List.foldl_nil, detect_widget_quiet shm nv st n (h n (by omega))]

/-- One frame in which the display stays owned, the header version is the
cached one and no widget changed: only the paint loop, the blit loop and the
final clearing run. -/
theorem draw_widgets_quiet (fuel : Nat) (obs : Nat → shm_t × Nat) (shm : shm_t) (st : hud_t)
    (hvt : st.vt_active = st.vt_active_requested) (hact : st.vt_active ≠ 0)
    (hver : st.cur_header.version = shm.hdr.version)
    (hq : ∀ i, i < st.cur_header.numwidgets → ¬ changed shm shm.hdr.visibility st i) :
    draw_widgets fuel obs shm st =
      some (finish_pass shm.hdr.visibility st,
        (paint_runs st).flatMap (run_events shm) ++ (paint_runs st).map run_t.blit) := by
  unfold draw_widgets
  simp only
  rw [vt_switch_same st hvt]
  simp only
  rw [if_neg hact, draw_owned_eq, if_neg (by simpa using hver)]
  simp only
  rw [detect_changes_quiet shm _ st hq]
  simp

/-- What the change detection leaves in the fields that the next frame
compares. -/
theorem detect_fold_post (shm : shm_t) (nv : Nat) (st : hud_t) (n : Nat) :
    ((List.range n).foldl (detect_widget shm nv) st).vt_active = st.vt_active ∧
    ((List.range n).foldl (detect_widget shm nv) st).vt_active_requested
      = st.vt_active_requested ∧
    (∀ i, i < n → IS_VISIBLE (shm.widgets i) nv = true →
      (((List.range n).foldl (detect_widget shm nv) st).widget_ldata i).last_version
        = (shm.widgets i).version) := by
  induction n with
  | zero => simp
  | succ n ih =>
    obtain ⟨ih1, ih2, ih3⟩ := ih
    obtain ⟨_, inv2, _⟩ := detect_fold_inv shm nv st n
    rw [List.range_succ, List.foldl_append, List.foldl_cons, List.foldl_nil]
    generalize (List.range n).foldl (detect_widget shm nv) st = s at ih1 ih2 ih3 inv2
    unfold detect_widget
    simp only
    by_cases hch : changed shm nv s n
    · rw [if_pos ((detect_widget_cond shm nv s n).2 hch)]
      refine ⟨ih1, ih2, fun i hi hv => ?_⟩
      simp only
      rcases Nat.lt_succ_iff_lt_or_eq.1 hi with hi | rfl
      · rw [Function.update_noteq (by omega)]; exact ih3 i hi hv
      · rw [Function.update_same]
    · rw [if_neg (fun h => hch ((detect_widget_cond shm nv s n).1 h))]
      refine ⟨ih1, ih2, fun i hi hv => ?_⟩
      rcases Nat.lt_succ_iff_lt_or_eq.1 hi with hi | rfl
      · exact ih3 i hi hv
      · by_contra hne
        exact hch (Or.inl ⟨hv, fun h => hne h.symm⟩)

theorem draw_widgets_owned (fuel : Nat) (obs : Nat → shm_t × Nat) (shm : shm_t) (st : hud_t)
    (hreq : st.vt_active_requested ≠ 0) :
    draw_widgets fuel obs shm st =
      (draw_owned fuel obs shm (vt_switch st).1).map (fun q => (q.1, (vt_switch st).2 ++ q.2)) := by
  unfold draw_widgets
  simp only
  rw [if_neg (by rw [(vt_switch_active st).1]; exact hreq)]

/-- The state after the reload step of a pass over a region that no producer
writes. -/
theorem load_step_stable (fuel : Nat) (shm : shm_t) (s0 : hud_t) :
    ∃ sA ev1,
      (if s0.cur_header.version ≠ shm.hdr.version then load_widgets (fuel + 1) (stable shm) s0
        else some (s0, [])) = some (sA, ev1) ∧
      sA.vt_active = s0.vt_active ∧ sA.vt_active_requested = s0.vt_active_requested ∧
      (sA.cur_header.version = shm.hdr.version ∨ shm.hdr.numwidgets > MAXWIDGETS) := by
  by_cases hv : s0.cur_header.version ≠ shm.hdr.version
  · rw [if_pos hv, load_widgets_stable]
    by_cases hn : shm.hdr.numwidgets > MAXWIDGETS
    · rw [if_pos hn]
      exact ⟨_, _, rfl, rfl, rfl, Or.inr hn⟩
    · rw [if_neg hn]
      have hs := load_pass_screen shm s0 (by unfold MAXWIDGETS at hn; omega)
      exact ⟨_, _, rfl, hs.2.2.2.2.1, hs.2.2.2.2.2, Or.inl rfl⟩
  · rw [if_neg hv]
    exact ⟨_, _, rfl, rfl, rfl, Or.inl (not_not.1 hv)⟩

theorem draw_widgets_settles (fuel : Nat) (shm : shm_t) (st : hud_t)
    (hreq : st.vt_active_requested ≠ 0) :
    ∃ st1 ev1, draw_widgets (fuel + 1) (stable shm) shm st = some (st1, ev1) ∧
      settled shm st1 ∧ st1.vt_active_requested = st.vt_active_requested := by
  obtain ⟨a1, a2⟩ := vt_switch_active st
  obtain ⟨sA, ev1, hL, v1, v2, hver⟩ := load_step_stable fuel shm (vt_switch st).1
  obtain ⟨d1, d2, d3⟩ := detect_fold_post shm shm.hdr.visibility sA sA.cur_header.numwidgets
  obtain ⟨e1, _, _⟩ := detect_fold_inv shm shm.hdr.visibility sA sA.cur_header.numwidgets
  rw [draw_widgets_owned _ _ _ _ hreq, draw_owned_eq, hL]
  refine ⟨_, _, rfl, ?_, ?_⟩
  · refine ⟨?_, ?_, ?_, rfl, ?_, ?_⟩
    · show (detect_changes shm shm.hdr.visibility sA).vt_active
        = (detect_changes shm shm.hdr.visibility sA).vt_active_requested
      unfold detect_changes
      rw [d1, d2, v1, v2, a1, a2]
    · show (detect_changes shm shm.hdr.visibility sA).vt_active ≠ 0
      unfold detect_changes
      rw [d1, v1, a1]; exact hreq
    · intro r hr
      show (if r < 16 then 0 else _) = 0
      rw [if_pos hr]
    · intro i hi hv
      show ((detect_changes shm shm.hdr.visibility sA).widget_ldata i).last_version = _
      have hi' : i < sA.cur_header.numwidgets := by
        have : (detect_changes shm shm.hdr.visibility sA).cur_header.numwidgets
            = sA.cur_header.numwidgets := by unfold detect_changes; rw [e1]
        rw [← this]; exact hi
      exact d3 i hi' hv
    · have : (detect_changes shm shm.hdr.visibility sA).cur_header.version
          = sA.cur_header.version := by unfold detect_changes; rw [e1]
      rcases hver with h | h
      · left
        show (detect_changes shm shm.hdr.visibility sA).cur_header.version = _
        rw [this, h]
      · exact Or.inr h
  · show (detect_changes shm shm.hdr.visibility sA).vt_active_requested = _
    unfold detect_changes
    rw [d2, v2, a2]

theorem draw_widgets_of_settled (fuel : Nat) (shm : shm_t) (st1 : hud_t) (h : settled shm st1) :
    ∃ st2, draw_widgets (fuel + 1) (stable shm) shm st1 = some (st2, []) := by
  obtain ⟨h1, h2, h3, h4, h5, h6⟩ := h
  have hq : ∀ i, i < st1.cur_header.numwidgets → ¬ changed shm shm.hdr.visibility st1 i := by
    intro i hi hc
    rcases hc with ⟨hv, hne⟩ | hne
    · exact hne (h5 i hi hv).symm
    · rw [h4] at hne; exact hne rfl
  by_cases hv : st1.cur_header.version = shm.hdr.version
  · rw [draw_widgets_quiet _ _ shm st1 h1 h2 hv hq, paint_runs_zero st1 h3]
    exact ⟨_, rfl⟩
  · have hn : shm.hdr.numwidgets > MAXWIDGETS := h6.resolve_left hv
    rw [draw_widgets_owned _ _ _ _ (by rw [← h1]; exact h2), vt_switch_same st1 h1, draw_owned_eq]
    simp only
    rw [if_pos hv, load_widgets_stable, if_pos hn]
    simp only
    rw [detect_changes_quiet shm _ (clear_tile_counts st1) hq,
      paint_runs_zero (clear_tile_counts st1) h3]
    exact ⟨_, rfl⟩

/-- C6: when `draw_widgets` runs twice while the display is owned, over a
shared region that is not written between or during the calls and with no
dirty mark in between, the second call makes no call at all into cairo or the
blitter: it emits no paint rectangle, draws no widget and blits nothing. -/
theorem draw_widgets_idempotent (fuel : Nat) (shm : shm_t) (st : hud_t)
    (hreq : st.vt_active_requested ≠ 0) :
    ∃ st1 ev1 st2, draw_widgets (fuel + 1) (stable shm) shm st = some (st1, ev1) ∧
      st1.vt_active_requested = st.vt_active_requested ∧
      draw_widgets (fuel + 1) (stable shm) shm st1 = some (st2, []) := by
  obtain ⟨st1, ev1, h1, hs, hr⟩ := draw_widgets_settles fuel shm st hreq
  obtain ⟨st2, h2⟩ := draw_widgets_of_settled fuel shm st1 hs
  exact ⟨st1, ev1, st2, h1, hr, h2⟩

/-- C7: whenever `draw_widgets` runs with the display owned and returns, the
16 words of the dirty bitmap are 0 and the cached visibility is the visibility
word of the shared header; over a region that no producer writes it does
return. -/
theorem draw_widgets_clears_bitmap (fuel : Nat) (obs : Nat → shm_t × Nat) (shm : shm_t)
    (st : hud_t) (hreq : st.vt_active_requested ≠ 0) :
    (∀ st' evs, draw_widgets fuel obs shm st = some (st', evs) →
      (∀ r, r < 16 → st'.dirty_bits r = 0) ∧ st'.cur_header.visibility = shm.hdr.visibility) ∧
    ∃ st' evs, draw_widgets (fuel + 1) (stable shm) shm st = some (st', evs) := by
  constructor
  · intro st' evs h
    rw [draw_widgets_owned _ _ _ _ hreq, draw_owned_eq] at h
    generalize (if (vt_switch st).1.cur_header.version ≠ shm.hdr.version
      then load_widgets fuel obs (vt_switch st).1 else some ((vt_switch st).1, [])) = L at h
    rcases L with _ | ⟨sA, e⟩
    · simp at h
    · simp only [Option.map_some', Option.some.injEq, Prod.mk.injEq] at h
      rw [← h.1]
      exact ⟨fun r hr => by show (if r < 16 then 0 else _) = 0; rw [if_pos hr], rfl⟩
  · obtain ⟨st1, ev1, h1, _⟩ := draw_widgets_settles fuel shm st hreq
    exact ⟨st1, ev1, h1⟩

/-! ## A row with one run -/

theorem col_mask_lt (tx1 tx2 : Int) : col_mask tx1 tx2 < 65536 := by
  unfold col_mask
  have := Int.emod_lt_of_pos (((2 <<< tx2.toNat : Nat) : Int) - ((1 <<< tx1.toNat : Nat) : Int))
    (show (0 : Int) < 65536 by decide)
  have := Int.emod_nonneg (((2 <<< tx2.toNat : Nat) : Int) - ((1 <<< tx1.toNat : Nat) : Int))
    (show (65536 : Int) ≠ 0 by decide)
  omega

theorem is_run_interval {m lo hi : Nat} (hm : ∀ c, m.testBit c = true ↔ lo ≤ c ∧ c ≤ hi)
    (hlh : lo ≤ hi) (a b : Nat) : is_run m a b ↔ a = lo ∧ b = hi := by
  unfold is_run
  constructor
  · rintro ⟨hab, hall, hpre, hpost⟩
    have ha := (hm a).1 (hall a le_rfl hab)
    have hb := (hm b).1 (hall b hab le_rfl)
    have hb1 : ¬ (lo ≤ b + 1 ∧ b + 1 ≤ hi) := by
      rw [← hm]; simp [hpost]
    constructor
    · rcases hpre with rfl | hpre
      · omega
      · have : ¬ (lo ≤ a - 1 ∧ a - 1 ≤ hi) := by rw [← hm]; simp [hpre]
        omega
    · omega
  · rintro ⟨rfl, rfl⟩
    refine ⟨hlh, fun c h1 h2 => (hm c).2 ⟨h1, h2⟩, ?_, ?_⟩
    · rcases Nat.eq_zero_or_pos a with h | h
      · exact Or.inl h
      · right
        have : ¬ (a ≤ a - 1 ∧ a - 1 ≤ b) := by omega
        rw [← hm] at this
        simpa using this
    · have : ¬ (a ≤ b + 1 ∧ b + 1 ≤ b) := by omega
      rw [← hm] at this
      simpa using this

theorem no_early_clamp_interval (st : hud_t) {m lo hi : Nat}
    (hm : ∀ c, m.testBit c = true ↔ lo ≤ c ∧ c ≤ hi) (ctx : Nat) : no_early_clamp st m ctx := by
  intro j h1 h2 h3
  exfalso
  apply h3
  have hj := (hm j).1 h1
  have hj1 : ¬ (lo ≤ j + 1 ∧ j + 1 ≤ hi) := by rw [← hm]; simp [h2]
  apply Nat.eq_of_testBit_eq
  intro i
  rw [Nat.testBit_shiftRight, Nat.zero_testBit]
  have : ¬ (lo ≤ j + 1 + i ∧ j + 1 + i ≤ hi) := by omega
  rw [← hm] at this
  simpa using this

theorem runs_singleton {l : List (Nat × Nat)} {lo hi : Nat}
    (hs : l.Pairwise (fun p q => p.2 < q.2)) (hm : ∀ a b, (a, b) ∈ l ↔ a = lo ∧ b = hi) :
    l = [(lo, hi)] := by
  have hall : ∀ p ∈ l, p = (lo, hi) := by
    rintro ⟨a, b⟩ hp
    obtain ⟨rfl, rfl⟩ := (hm a b).1 hp
    rfl
  rcases l with _ | ⟨p, t⟩
  · exact absurd ((hm lo hi).2 ⟨rfl, rfl⟩) (List.not_mem_nil _)
  · rw [List.pairwise_cons] at hs
    have hp := hall p (List.mem_cons_self _ _)
    rcases t with _ | ⟨q, t⟩
    · rw [hp]
    · have hq := hall q (List.mem_cons_of_mem _ (List.mem_cons_self _ _))
      have := hs.1 q (List.mem_cons_self _ _)
      rw [hp, hq] at this
      exact absurd this (lt_irrefl _)

/-- A row whose mask is one interval of columns `lo..hi` is painted as one
rectangle over these columns, cut at the right screen edge. -/
theorem paint_row_interval (st : hud_t) (cty : Nat) (cy : Int) {lo hi : Nat}
    (hm : ∀ c, (st.dirty_bits cty % 65536).testBit c = true ↔ lo ≤ c ∧ c ≤ hi) (hlh : lo ≤ hi) :
    ∃ p, paint_row st cty cy = some [p] ∧
      p.rect = (lo * st.tilesize_x, cy,
        min ((hi + 1) * st.tilesize_x) st.screenw - lo * st.tilesize_x,
        if cty = 15 then st.screenh - cy else st.tilesize_y) := by
  have hlt : st.dirty_bits cty % 65536 < 2 ^ 16 := Nat.mod_lt _ (by decide)
  obtain ⟨rs, h1, h2⟩ := paint_cols_rects st cty cy
    (if cty = 15 then st.screenh - cy else st.tilesize_y) 16 (st.dirty_bits cty % 65536) 0 0 0 []
    0 hlt (by decide) (by simp) (by simp) (no_early_clamp_interval st hm 0)
  have hruns : run_cols 16 (st.dirty_bits cty % 65536) 0 0 = [(lo, hi)] := by
    apply runs_singleton (run_cols_sorted 16 _ 0 0).2
    intro a b
    rw [run_cols_mem 16 _ 0 0 hlt, ← is_run_interval hm hlh a b]
    constructor
    · rintro ⟨a', b', hr, rfl, rfl⟩
      rcases a' with _ | a'
      · simpa using hr
      · simpa using hr
    · intro hr
      refine ⟨a, b, hr, by omega, ?_⟩
      split_ifs with h
      · exact h
      · omega
  rw [hruns] at h2
  rcases h2 with _ | ⟨hp, ht⟩
  cases ht
  rename_i p
  refine ⟨p, h1, ?_⟩
  obtain ⟨e1, e2, e3, e4⟩ := hp
  unfold run_t.rect
  rw [e1, e2, e3, e4]

theorem paint_row_clean (st : hud_t) (cty : Nat) (cy : Int) (h : st.dirty_bits cty % 65536 = 0) :
    paint_row st cty cy = some [] := by
  unfold paint_row
  rw [h, paint_cols_zero]

/-- The runs of the paint loop, row by row. -/
theorem paint_runs_rows (st : hud_t) :
    paint_runs st =
      (List.range 16).flatMap (fun r => (paint_row st r (r * st.tilesize_y)).getD []) := by
  have h := paint_rows_eq st (fun r => (paint_row st r (r * st.tilesize_y)).getD []) 16 0
    (fun r _ _ => by
      obtain ⟨rs, hrs⟩ := paint_row_total st r (r * st.tilesize_y)
      simp only [hrs, Option.getD_some])
  simp only [Nat.cast_zero, zero_mul] at h
  unfold paint_runs paint_loop
  rw [h, List.range_eq_range']
  rfl

theorem tilepos_of_nonneg {v ts : Int} (hv : 0 ≤ v) (hts : 0 < ts) :
    _TILEPOS v ts = min 15 (v / ts) := by
  rw [tilepos_eq, Int.tdiv_eq_ediv hv hts.le]
  have := Int.ediv_nonneg hv hts.le
  omega

/-- C10, as the code has it: from an all-zero bitmap and for a rectangle inside
the screen with `w, h > 0`, `mark_dirty` dirties exactly the tiles whose pixel
area meets the rectangle with its far edges `x + w` and `y + h` included (a
superset of the minimal covering set); a following `draw_widgets` in which no
widget changed paints and blits, for each dirty row, one rectangle over the
dirty columns, cut at the right screen edge, nothing in the other rows, and
leaves the bitmap clear. -/
theorem mark_dirty_then_paint (st : hud_t) (x y w h : Int) (fuel : Nat)
    (obs : Nat → shm_t × Nat) (shm : shm_t) (hscreen : screen_ok st)
    (hzero : ∀ r, r < 16 → st.dirty_bits r = 0)
    (hx : 0 ≤ x) (hy : 0 ≤ y) (hw : 0 < w) (hh : 0 < h)
    (hxw : x + w ≤ st.screenw) (hyh : y + h ≤ st.screenh)
    (hvt : st.vt_active = st.vt_active_requested) (hact : st.vt_active ≠ 0)
    (hver : st.cur_header.version = shm.hdr.version)
    (hquiet : ∀ i, i < st.cur_header.numwidgets → ¬ changed shm shm.hdr.visibility st i) :
    (∀ r c : Nat, r < 16 → c < 16 →
      (((mark_dirty x y w h st).dirty_bits r).testBit c = true ↔
        (c * st.tilesize_x ≤ x + w ∧ x < (c + 1) * st.tilesize_x ∧
          r * st.tilesize_y ≤ y + h ∧ y < (r + 1) * st.tilesize_y))) ∧
    ∃ runs, paint_loop (mark_dirty x y w h st) = some runs ∧
      runs.map run_t.rect =
        (List.range 16).flatMap (fun r =>
          if y / st.tilesize_y ≤ r ∧ (r : Int) ≤ min 15 ((y + h) / st.tilesize_y) then
            [(x / st.tilesize_x * st.tilesize_x, r * st.tilesize_y,
              min ((min 15 ((x + w) / st.tilesize_x) + 1) * st.tilesize_x) st.screenw
                - x / st.tilesize_x * st.tilesize_x,
              if r = 15 then st.screenh - 15 * st.tilesize_y else st.tilesize_y)]
          else []) ∧
      draw_widgets fuel obs shm (mark_dirty x y w h st) =
        some (finish_pass shm.hdr.visibility (mark_dirty x y w h st),
          runs.flatMap (run_events shm) ++ runs.map run_t.blit) ∧
      ∀ r, r < 16 → (finish_pass shm.hdr.visibility (mark_dirty x y w h st)).dirty_bits r = 0 := by
  obtain ⟨sx, sy, fx, fy⟩ := screen_ok_tilesize hscreen
  -- the tile range
  have ex1 : _TILEPOS x st.tilesize_x = x / st.tilesize_x := by
    rw [tilepos_of_nonneg hx sx]
    have : x / st.tilesize_x < 16 := Int.ediv_lt_of_lt_mul sx (by omega)
    omega
  have ey1 : _TILEPOS y st.tilesize_y = y / st.tilesize_y := by
    rw [tilepos_of_nonneg hy sy]
    have : y / st.tilesize_y < 16 := Int.ediv_lt_of_lt_mul sy (by omega)
    omega
  have ex2 : _TILEPOS (x + w) st.tilesize_x = min 15 ((x + w) / st.tilesize_x) :=
    tilepos_of_nonneg (by omega) sx
  have ey2 : _TILEPOS (y + h) st.tilesize_y = min 15 ((y + h) / st.tilesize_y) :=
    tilepos_of_nonneg (by omega) sy
  have nx1 : 0 ≤ x / st.tilesize_x := Int.ediv_nonneg hx sx.le
  have ny1 : 0 ≤ y / st.tilesize_y := Int.ediv_nonneg hy sy.le
  have mx : x / st.tilesize_x ≤ (x + w) / st.tilesize_x := Int.ediv_le_ediv sx (by omega)
  have my : y / st.tilesize_y ≤ (y + h) / st.tilesize_y := Int.ediv_le_ediv sy (by omega)
  have lx : x / st.tilesize_x < 16 := Int.ediv_lt_of_lt_mul sx (by omega)
  have ly : y / st.tilesize_y < 16 := Int.ediv_lt_of_lt_mul sy (by omega)
  -- the bitmap after `mark_dirty`
  have hbits : ∀ r, r < 16 → (mark_dirty x y w h st).dirty_bits r =
      if ((y / st.tilesize_y).toNat ≤ r ∧ r ≤ (min 15 ((y + h) / st.tilesize_y)).toNat) then
        col_mask (x / st.tilesize_x) (min 15 ((x + w) / st.tilesize_x)) else 0 := by
    intro r hr
    unfold mark_dirty
    simp only
    rw [or_rows_apply, hzero r hr, ex1, ex2, ey1, ey2, Nat.zero_or]
  have hmask : ∀ c : Nat,
      (col_mask (x / st.tilesize_x) (min 15 ((x + w) / st.tilesize_x))).testBit c = true ↔
        (x / st.tilesize_x).toNat ≤ c ∧ c ≤ (min 15 ((x + w) / st.tilesize_x)).toNat := by
    intro c
    rw [col_mask_testBit nx1 (by omega) (by omega)]
    simp only [decide_eq_true_eq]
    omega
  have hlohi : (x / st.tilesize_x).toNat ≤ (min 15 ((x + w) / st.tilesize_x)).toNat := by omega
  refine ⟨?_, paint_runs (mark_dirty x y w h st), paint_loop_eq _, ?_, ?_, ?_⟩
  · intro r c hr hc
    rw [hbits r hr]
    have a1 : x / st.tilesize_x ≤ c ↔ x < (c + 1) * st.tilesize_x := by
      rw [← Int.ediv_lt_iff_lt_mul sx]; omega
    have a2 : (c : Int) ≤ (x + w) / st.tilesize_x ↔ c * st.tilesize_x ≤ x + w :=
      Int.le_ediv_iff_mul_le sx
    have b1 : y / st.tilesize_y ≤ r ↔ y < (r + 1) * st.tilesize_y := by
      rw [← Int.ediv_lt_iff_lt_mul sy]; omega
    have b2 : (r : Int) ≤ (y + h) / st.tilesize_y ↔ r * st.tilesize_y ≤ y + h :=
      Int.le_ediv_iff_mul_le sy
    split_ifs with hin
    · rw [hmask c, ← a1, ← a2, ← b1, ← b2]
      omega
    · rw [Nat.zero_testBit, ← a1, ← a2, ← b1, ← b2]
      simp only [Bool.false_eq_true, false_iff]
      omega
  · rw [paint_runs_rows, List.map_flatMap]
    apply List.flatMap_congr
    intro r hr
    rw [List.mem_range] at hr
    have hst : (mark_dirty x y w h st).tilesize_y = st.tilesize_y := rfl
    by_cases hin : y / st.tilesize_y ≤ r ∧ (r : Int) ≤ min 15 ((y + h) / st.tilesize_y)
    · rw [if_pos hin]
      have hm : ∀ c, ((mark_dirty x y w h st).dirty_bits r % 65536).testBit c = true ↔
          (x / st.tilesize_x).toNat ≤ c ∧ c ≤ (min 15 ((x + w) / st.tilesize_x)).toNat := by
        intro c
        rw [hbits r hr, if_pos (by omega), Nat.mod_eq_of_lt (col_mask_lt _ _)]
        exact hmask c
      obtain ⟨p, hp, hrect⟩ := paint_row_interval (mark_dirty x y w h st) r
        (r * (mark_dirty x y w h st).tilesize_y) hm hlohi
      rw [hp]
      simp only [Option.getD_some, List.map_cons, List.map_nil, hrect]
      have e1 : (((x / st.tilesize_x).toNat : Nat) : Int) = x / st.tilesize_x :=
        Int.toNat_of_nonneg nx1
      have e2 : (((min 15 ((x + w) / st.tilesize_x)).toNat : Nat) : Int)
          = min 15 ((x + w) / st.tilesize_x) := Int.toNat_of_nonneg (by omega)
      rw [e1, e2]
      by_cases h15 : r = 15
      · subst h15
        simp only [if_true]
        rfl
      · simp only [if_neg h15]
        rfl
    · rw [if_neg hin, paint_row_clean _ _ _ (by rw [hbits r hr, if_neg (by omega)])]
      rfl
  · exact draw_widgets_quiet fuel obs shm (mark_dirty x y w h st) hvt hact hver hquiet
  · intro r hr
    show (if r < 16 then 0 else _) = 0
    rw [if_pos hr]

/-- C10, counterexample: on the 800x480 screen (tiles of 50x30 pixels) and from
an all-zero bitmap, `mark_dirty(0, 0, 50, 30)` dirties tile `(1, 0)`, whose
pixel area `[50, 100) x [0, 30)` shares no pixel with `[0, 50) x [0, 30)`. -/
theorem mark_dirty_not_minimal :
    screen_ok (hud_init 800 480) ∧ (∀ r, r < 16 → (hud_init 800 480).dirty_bits r = 0) ∧
      (0 : Int) + 50 ≤ (hud_init 800 480).screenw ∧ (0 : Int) + 30 ≤ (hud_init 800 480).screenh ∧
      ((mark_dirty 0 0 50 30 (hud_init 800 480)).dirty_bits 0).testBit 1 = true ∧
      ¬ ∃ px py : Int,
        (1 * (hud_init 800 480).tilesize_x ≤ px ∧ px < (1 + 1) * (hud_init 800 480).tilesize_x ∧
          0 * (hud_init 800 480).tilesize_y ≤ py ∧ py < (0 + 1) * (hud_init 800 480).tilesize_y) ∧
        (0 ≤ px ∧ px < 0 + 50 ∧ 0 ≤ py ∧ py < 0 + 30) := by
  refine ⟨⟨by decide, by decide, by decide, by decide⟩, fun r _ => rfl, by decide, by decide,
    by decide, ?_⟩
  rintro ⟨px, py, ⟨h1, _, _, _⟩, ⟨_, h2, _, _⟩⟩
  have e : (hud_init 800 480).tilesize_x = 50 := by decide
  rw [e] at h1
  omega

/-- C9, the failing input: on a 176x132 framebuffer (tiles of 11x9 pixels) the
first frame after the initial `load_widgets` paints and blits row 14 as
`(0, 126, 176, 9)`, three lines below the bottom of the screen, and row 15 with
the negative height `-3`. -/
theorem draw_widgets_leaves_screen :
    screen_ok (hud_init 176 132) ∧
    ((load_widgets 1 (stable shm_zero) (hud_init 176 132)).bind
        (fun r => draw_widgets 1 (stable shm_zero) shm_zero r.1)).map (fun r => r.2) =
      some [event.paint_run 0 0 176 9, event.paint_run 0 9 176 9, event.paint_run 0 18 176 9,
        event.paint_run 0 27 176 9, event.paint_run 0 36 176 9, event.paint_run 0 45 176 9,
        event.paint_run 0 54 176 9, event.paint_run 0 63 176 9, event.paint_run 0 72 176 9,
        event.paint_run 0 81 176 9, event.paint_run 0 90 176 9, event.paint_run 0 99 176 9,
        event.paint_run 0 108 176 9, event.paint_run 0 117 176 9, event.paint_run 0 126 176 9,
        event.paint_run 0 135 176 (-3),
        event.blit 0 0 176 9, event.blit 0 9 176 9, event.blit 0 18 176 9,
        event.blit 0 27 176 9, event.blit 0 36 176 9, event.blit 0 45 176 9,
        event.blit 0 54 176 9, event.blit 0 63 176 9, event.blit 0 72 176 9,
        event.blit 0 81 176 9, event.blit 0 90 176 9, event.blit 0 99 176 9,
        event.blit 0 108 176 9, event.blit 0 117 176 9, event.blit 0 126 176 9,
        event.blit 0 135 176 (-3)] ∧
    ¬ ((126 : Int) + 9 ≤ (hud_init 176 132).screenh) :=
  ⟨⟨by decide, by decide, by decide, by decide⟩, rfl, by decide⟩

/-! ## Instances on concrete inputs -/

/-- Witness for C1: the two-widget region on the 800x480 screen. -/
theorem load_widgets_indexes_overlapped_tiles_witness :
    screen_ok (hud_init 800 480) ∧
    ∃ k, k < 1 ∧ (stable shm_two k).1.hdr.version = (stable shm_two k).2 ∧
      (stable shm_two k).1.hdr.numwidgets ≤ 256 ∧
      (load_commit 1 2 (load_pass shm_two (hud_init 800 480))).cur_header.numwidgets =
        (stable shm_two k).1.hdr.numwidgets ∧
      ∀ (i tx ty : Nat) (px py : Int), i < (stable shm_two k).1.hdr.numwidgets → tx ≤ 15 →
        ty ≤ 15 →
        tx * (hud_init 800 480).tilesize_x ≤ px → px < (tx + 1) * (hud_init 800 480).tilesize_x →
        ty * (hud_init 800 480).tilesize_y ≤ py → py < (ty + 1) * (hud_init 800 480).tilesize_y →
        ((stable shm_two k).1.widgets i).cx ≤ px →
        px < ((stable shm_two k).1.widgets i).cx + ((stable shm_two k).1.widgets i).cw →
        ((stable shm_two k).1.widgets i).cy ≤ py →
        py < ((stable shm_two k).1.widgets i).cy + ((stable shm_two k).1.widgets i).ch →
        i ∈ tile_list (load_commit 1 2 (load_pass shm_two (hud_init 800 480))) tx ty ∨
          ((tile_list (load_commit 1 2 (load_pass shm_two (hud_init 800 480))) tx ty).length = 32 ∧
            ∀ j ∈ tile_list (load_commit 1 2 (load_pass shm_two (hud_init 800 480))) tx ty, j < i) :=
  ⟨⟨by decide, by decide, by decide, by decide⟩,
    load_widgets_indexes_overlapped_tiles 1 (stable shm_two) (hud_init 800 480)
      (load_commit 1 2 (load_pass shm_two (hud_init 800 480))) [event.clear_image]
      ⟨by decide, by decide, by decide, by decide⟩ rfl (List.mem_singleton.2 rfl)⟩

/-- Witness for C5: `mark_dirty(60, 40, 100, 50)` on the 800x480 screen. -/
theorem mark_dirty_sets_span_witness :
    (0 : Int) < (hud_init 800 480).tilesize_x ∧ (0 : Int) ≤ 100 ∧
    ((∀ r c : Nat, ((mark_dirty 60 40 100 50 (hud_init 800 480)).dirty_bits r).testBit c = true ↔
      ((hud_init 800 480).dirty_bits r).testBit c = true ∨
        (max 0 (min 15 (Int.tdiv 40 (hud_init 800 480).tilesize_y)) ≤ r ∧
          (r : Int) ≤ max 0 (min 15 (Int.tdiv (40 + 50) (hud_init 800 480).tilesize_y)) ∧
          max 0 (min 15 (Int.tdiv 60 (hud_init 800 480).tilesize_x)) ≤ c ∧
          (c : Int) ≤ max 0 (min 15 (Int.tdiv (60 + 100) (hud_init 800 480).tilesize_x)))) ∧
    (∀ r : Nat, ¬ (max 0 (min 15 (Int.tdiv 40 (hud_init 800 480).tilesize_y)) ≤ r ∧
          (r : Int) ≤ max 0 (min 15 (Int.tdiv (40 + 50) (hud_init 800 480).tilesize_y))) →
      (mark_dirty 60 40 100 50 (hud_init 800 480)).dirty_bits r
        = (hud_init 800 480).dirty_bits r) ∧
    (∀ c : Nat, (col_mask (max 0 (min 15 (Int.tdiv 60 (hud_init 800 480).tilesize_x)))
        (max 0 (min 15 (Int.tdiv (60 + 100) (hud_init 800 480).tilesize_x)))).testBit c = true ↔
      (max 0 (min 15 (Int.tdiv 60 (hud_init 800 480).tilesize_x)) ≤ c ∧
        (c : Int) ≤ max 0 (min 15 (Int.tdiv (60 + 100) (hud_init 800 480).tilesize_x))))) :=
  ⟨by decide, by decide,
    mark_dirty_sets_span (hud_init 800 480) 60 40 100 50 (by decide) (by decide)⟩

/-- Witness for C6: two frames over the two-widget region from the startup
state. -/
theorem draw_widgets_idempotent_witness :
    (hud_init 800 480).vt_active_requested ≠ 0 ∧
    ∃ st1 ev1 st2, draw_widgets (0 + 1) (stable shm_two) shm_two (hud_init 800 480)
        = some (st1, ev1) ∧
      st1.vt_active_requested = (hud_init 800 480).vt_active_requested ∧
      draw_widgets (0 + 1) (stable shm_two) shm_two st1 = some (st2, []) :=
  ⟨by decide, draw_widgets_idempotent 0 shm_two (hud_init 800 480) (by decide)⟩

/-- Witness for C7: one frame over the two-widget region from the startup
state. -/
theorem draw_widgets_clears_bitmap_witness :
    (hud_init 800 480).vt_active_requested ≠ 0 ∧
    ((∀ st' evs, draw_widgets 1 (stable shm_two) shm_two (hud_init 800 480) = some (st', evs) →
      (∀ r, r < 16 → st'.dirty_bits r = 0) ∧
        st'.cur_header.visibility = shm_two.hdr.visibility) ∧
    ∃ st' evs, draw_widgets (1 + 1) (stable shm_two) shm_two (hud_init 800 480)
      = some (st', evs)) :=
  ⟨by decide,
    draw_widgets_clears_bitmap 1 (stable shm_two) shm_two (hud_init 800 480) (by decide)⟩

/-- Witness for C8: the two-widget region on the 800x480 screen. -/
theorem load_widgets_tile_lists_witness :
    ∃ k, k < 1 ∧ (stable shm_two k).1.hdr.version = (stable shm_two k).2 ∧
      (stable shm_two k).1.hdr.numwidgets ≤ 256 ∧
      ∀ x y, x < 16 → y < 16 →
        (load_commit 1 2 (load_pass shm_two (hud_init 800 480))).tile_nwidgets
            (TILE_NWIDGETS x y) ≤ 32 ∧
        (load_commit 1 2 (load_pass shm_two (hud_init 800 480))).tile_nwidgets
            (TILE_NWIDGETS x y) =
          min 32 ((List.range (stable shm_two k).1.hdr.numwidgets).filter
            (fun i => decide (covers (hud_init 800 480)
              ((stable shm_two k).1.widgets i) x y))).length ∧
        tile_list (load_commit 1 2 (load_pass shm_two (hud_init 800 480))) x y =
          ((List.range (stable shm_two k).1.hdr.numwidgets).filter
            (fun i => decide (covers (hud_init 800 480)
              ((stable shm_two k).1.widgets i) x y))).take 32 ∧
        ∀ i, i ∈ ((List.range (stable shm_two k).1.hdr.numwidgets).filter
            (fun i => decide (covers (hud_init 800 480)
              ((stable shm_two k).1.widgets i) x y))).drop 32 →
          i ∉ tile_list (load_commit 1 2 (load_pass shm_two (hud_init 800 480))) x y ∧
            ∀ upd, i ∉ upd →
              i ∉ collect_tile (load_commit 1 2 (load_pass shm_two (hud_init 800 480))) x y upd :=
  load_widgets_tile_lists 1 (stable shm_two) (hud_init 800 480)
    (load_commit 1 2 (load_pass shm_two (hud_init 800 480))) [event.clear_image] rfl
    (List.mem_singleton.2 rfl)

/-- Witness for C10: `mark_dirty(60, 40, 100, 50)` on the 800x480 screen after
a completed frame over the two-widget region; the dirty tiles are columns 1..3
of rows 1..3. -/
theorem mark_dirty_then_paint_witness :
    screen_ok hud_two ∧ hud_two.cur_header.numwidgets = 2 ∧
    (∀ r c : Nat, r < 16 → c < 16 →
      (((mark_dirty 60 40 100 50 hud_two).dirty_bits r).testBit c = true ↔
        (c * hud_two.tilesize_x ≤ 60 + 100 ∧ 60 < (c + 1) * hud_two.tilesize_x ∧
          r * hud_two.tilesize_y ≤ 40 + 50 ∧ 40 < (r + 1) * hud_two.tilesize_y))) ∧
    ∃ runs, paint_loop (mark_dirty 60 40 100 50 hud_two) = some runs ∧
      runs.map run_t.rect =
        (List.range 16).flatMap (fun r =>
          if 40 / hud_two.tilesize_y ≤ r ∧ (r : Int) ≤ min 15 ((40 + 50) / hud_two.tilesize_y) then
            [(60 / hud_two.tilesize_x * hud_two.tilesize_x, r * hud_two.tilesize_y,
              min ((min 15 ((60 + 100) / hud_two.tilesize_x) + 1) * hud_two.tilesize_x)
                  hud_two.screenw
                - 60 / hud_two.tilesize_x * hud_two.tilesize_x,
              if r = 15 then hud_two.screenh - 15 * hud_two.tilesize_y
              else hud_two.tilesize_y)]
          else []) ∧
      draw_widgets 1 (stable shm_two) shm_two (mark_dirty 60 40 100 50 hud_two) =
        some (finish_pass shm_two.hdr.visibility (mark_dirty 60 40 100 50 hud_two),
          runs.flatMap (run_events shm_two) ++ runs.map run_t.blit) ∧
      ∀ r, r < 16 →
        (finish_pass shm_two.hdr.visibility (mark_dirty 60 40 100 50 hud_two)).dirty_bits r = 0 :=
  ⟨⟨by decide, by decide, by decide, by decide⟩, by decide,
    mark_dirty_then_paint hud_two 60 40 100 50 1 (stable shm_two) shm_two
      ⟨by decide, by decide, by decide, by decide⟩
      (fun r hr => by interval_cases r <;> rfl)
      (by decide) (by decide) (by decide) (by decide) (by decide) (by decide)
      (by decide) (by decide) (by decide)
      (fun i hi => by
        have h2 : hud_two.cur_header.numwidgets = 2 := by decide
        rw [h2] at hi
        unfold changed
        interval_cases i <;> decide)⟩

/-! ## When the tile grid fits the screen -/

theorem forall₂_mem_left {α β : Type} {R : α → β → Prop} {l1 : List α} {l2 : List β}
    (h : List.Forall₂ R l1 l2) : ∀ x ∈ l1, ∃ y ∈ l2, R x y := by
  induction h with
  | nil => intro x hx; simp at hx
  | cons hr _ ih =>
    intro x hx
    rcases List.mem_cons.1 hx with rfl | hx
    · exact ⟨_, List.mem_cons_self _ _, hr⟩
    · obtain ⟨y, hy, hxy⟩ := ih x hx
      exact ⟨y, List.mem_cons_of_mem _ hy, hxy⟩

theorem no_early_clamp_of_fit (st : hud_t) (hsx : 0 < st.tilesize_x)
    (hfx : 15 * st.tilesize_x ≤ st.screenw) {m : Nat} (hm : m < 2 ^ 16) :
    no_early_clamp st m 0 := by
  intro j _ _ h3
  have hj : j + 1 < 16 := by
    by_contra hge
    apply h3
    rw [Nat.shiftRight_eq_div_pow]
    apply Nat.div_eq_of_lt
    exact lt_of_lt_of_le hm (Nat.pow_le_pow_right (by decide) (by omega))
  have h1 : ((0 + j + 1 : Nat) : Int) ≤ 15 := by omega
  exact le_trans (mul_le_mul_of_nonneg_right h1 hsx.le) hfx

/-- When the last tile column and the last tile row begin inside the screen
(`15 * tilesize <= screen size` in both directions), every rectangle that the
paint loop clips to, and so every rectangle passed to the blitter, lies inside
the screen. -/
theorem paint_runs_inside_of_fit (st : hud_t) (hscreen : screen_ok st)
    (hfx : 15 * st.tilesize_x ≤ st.screenw) (hfy : 15 * st.tilesize_y ≤ st.screenh) :
    ∀ p ∈ paint_runs st, 0 ≤ p.x ∧ 0 ≤ p.y ∧ 0 ≤ p.w ∧ 0 ≤ p.h ∧
      p.x + p.w ≤ st.screenw ∧ p.y + p.h ≤ st.screenh := by
  obtain ⟨sx, sy, _, _⟩ := screen_ok_tilesize hscreen
  intro p hp
  rw [paint_runs_rows, List.mem_flatMap] at hp
  obtain ⟨r, hr, hp⟩ := hp
  rw [List.mem_range] at hr
  have hlt : st.dirty_bits r % 65536 < 2 ^ 16 := Nat.mod_lt _ (by decide)
  obtain ⟨rs, h1, h2⟩ := paint_cols_rects st r (r * st.tilesize_y)
    (if r = 15 then st.screenh - r * st.tilesize_y else st.tilesize_y) 16
    (st.dirty_bits r % 65536) 0 0 0 [] 0 hlt (by decide) (by simp) (by simp)
    (no_early_clamp_of_fit st sx hfx hlt)
  have hrow : paint_row st r (r * st.tilesize_y) = some rs := h1
  rw [hrow, Option.getD_some] at hp
  obtain ⟨⟨a, b⟩, hab, e1, e2, e3, e4⟩ := forall₂_mem_left h2 p hp
  rw [run_cols_mem 16 _ 0 0 hlt] at hab
  obtain ⟨a', b', hrun, hb, ha⟩ := hab
  have hab' : a ≤ b := by
    have := hrun.1
    split_ifs at ha <;> omega
  have hb15 : b < 16 := by
    have hbit := hrun.2.1 b' hrun.1 le_rfl
    by_contra hge
    have : (st.dirty_bits r % 65536).testBit b' = false :=
      Nat.testBit_lt_two_pow (lt_of_lt_of_le hlt (Nat.pow_le_pow_right (by decide) (by omega)))
    rw [this] at hbit
    exact Bool.false_ne_true hbit
  simp only at e1 e2 e3 e4
  have ha0 : (0 : Int) ≤ (a : Int) * st.tilesize_x := mul_nonneg (Int.ofNat_nonneg a) sx.le
  have hab1 : (a : Int) * st.tilesize_x ≤ ((b : Int) + 1) * st.tilesize_x :=
    mul_le_mul_of_nonneg_right (by omega) sx.le
  have ha15 : (a : Int) * st.tilesize_x ≤ 15 * st.tilesize_x :=
    mul_le_mul_of_nonneg_right (by omega) sx.le
  have hr0 : (0 : Int) ≤ (r : Int) * st.tilesize_y := mul_nonneg (Int.ofNat_nonneg r) sy.le
  refine ⟨by rw [e1]; exact ha0, by rw [e2]; exact hr0, ?_, ?_, ?_, ?_⟩
  · rw [e3]
    have : (a : Int) * st.tilesize_x ≤ min (((b : Int) + 1) * st.tilesize_x) st.screenw :=
      le_min hab1 (ha15.trans hfx)
    omega
  · rw [e4]
    split_ifs with h15
    · subst h15; push_cast; omega
    · exact sy.le
  · rw [e1, e3]
    have := min_le_right (((b : Int) + 1) * st.tilesize_x) st.screenw
    omega
  · rw [e2, e4]
    split_ifs with h15
    · omega
    · have : ((r : Int) + 1) * st.tilesize_y ≤ 15 * st.tilesize_y :=
        mul_le_mul_of_nonneg_right (by omega) sy.le
      have e : (r : Int) * st.tilesize_y + st.tilesize_y = ((r : Int) + 1) * st.tilesize_y := by
        ring
      rw [e]
      exact this.trans hfy

/-! ## Outcomes of `load_widgets` -/

/-- The call is still retrying after `fuel` passes exactly when every one of
them read at most `MAXWIDGETS` records and two different header versions. -/
theorem load_widgets_none_iff (fuel : Nat) :
    ∀ (obs : Nat → shm_t × Nat) (st : hud_t),
      load_widgets fuel obs st = none ↔
        ∀ j, j < fuel → (obs j).1.hdr.numwidgets ≤ MAXWIDGETS ∧
          (obs j).1.hdr.version ≠ (obs j).2 := by
  induction fuel with
  | zero => intro obs st; simp [load_widgets]
  | succ fuel ih =>
    intro obs st
    rw [load_widgets]
    simp only
    by_cases hnw : (obs 0).1.hdr.numwidgets > MAXWIDGETS
    · rw [if_pos hnw]
      constructor
      · intro h; simp at h
      · intro h
        have := (h 0 (Nat.succ_pos _)).1
        omega
    · rw [if_neg hnw]
      by_cases hv : (obs 0).1.hdr.version = (obs 0).2
      · rw [if_pos hv]
        constructor
        · intro h; simp at h
        · intro h
          exact absurd hv (h 0 (Nat.succ_pos _)).2
      · rw [if_neg hv, ih]
        constructor
        · intro h j hj
          rcases j with _ | j
          · exact ⟨by omega, hv⟩
          · exact h j (by omega)
        · intro h j hj
          exact h (j + 1) (by omega)

/-- After `k` torn passes, a pass that reads at most `MAXWIDGETS` records and
the same header version before and after is committed. -/
theorem load_widgets_commits_at (k : Nat) :
    ∀ (fuel : Nat) (obs : Nat → shm_t × Nat) (st : hud_t), k < fuel →
      (∀ j, j < k → (obs j).1.hdr.numwidgets ≤ MAXWIDGETS ∧
        (obs j).1.hdr.version ≠ (obs j).2) →
      (obs k).1.hdr.numwidgets ≤ MAXWIDGETS → (obs k).1.hdr.version = (obs k).2 →
      ∃ st0, same_screen st0 st ∧
        load_widgets fuel obs st =
          some (load_commit (obs k).1.hdr.version (obs k).1.hdr.numwidgets
            (load_pass (obs k).1 st0), [event.clear_image]) := by
  induction k with
  | zero =>
    intro fuel obs st hk _ hnw hv
    obtain ⟨f, rfl⟩ : ∃ f, fuel = f + 1 := ⟨fuel - 1, by omega⟩
    refine ⟨st, same_screen_refl st, ?_⟩
    rw [load_widgets]
    simp only
    rw [if_neg (by omega), if_pos hv]
  | succ k ih =>
    intro fuel obs st hk htorn hnw hv
    obtain ⟨f, rfl⟩ : ∃ f, fuel = f + 1 := ⟨fuel - 1, by omega⟩
    have h0 := htorn 0 (Nat.succ_pos _)
    obtain ⟨st0, hs, hl⟩ := ih f (fun j => obs (j + 1)) (load_pass (obs 0).1 st) (by omega)
      (fun j hj => htorn (j + 1) (by omega)) hnw hv
    refine ⟨st0, same_screen_trans hs
      (load_pass_screen _ _ (by have := h0.1; unfold MAXWIDGETS at this; omega)), ?_⟩
    rw [load_widgets]
    simp only
    rw [if_neg (by have := h0.1; omega), if_neg h0.2]
    exact hl

/-- C11, the failing input: with a tile index that lists two widgets in tile
`(0, 0)` and a header that announces 257 widgets, `load_widgets` returns at
line 285 with every tile counter zeroed by line 282, so that the tile list is
empty; the cached header, the dirty bitmap and the list cells are the old
ones. -/
theorem load_widgets_too_many_clears_counts :
    shm_big.hdr.numwidgets > MAXWIDGETS ∧
    tile_list hud_two 0 0 = [0, 1] ∧
    ∃ st', load_widgets 1 (stable shm_big) hud_two = some (st', []) ∧
      st'.tile_nwidgets (TILE_NWIDGETS 0 0) = 0 ∧
      hud_two.tile_nwidgets (TILE_NWIDGETS 0 0) = 2 ∧
      tile_list st' 0 0 = [] ∧
      st'.cur_header = hud_two.cur_header ∧ st'.dirty_bits = hud_two.dirty_bits ∧
      st'.tile_widgets = hud_two.tile_widgets ∧ st'.widget_ldata = hud_two.widget_ldata :=
  ⟨by decide, rfl, clear_tile_counts hud_two, rfl, rfl, rfl, rfl, rfl, rfl, rfl, rfl⟩

/-- C12: when `load_widgets` commits a snapshot, i.e. after `k` torn passes it
reads `numwidgets <= 256` and the same header version `v` before and after the
copy, it returns (having cleared the drawing surface) with the cached header
`version = v`, `numwidgets` the count read and `visibility = 0`, and with every
one of the 16 rows of the dirty bitmap equal to `0xFFFF`. -/
theorem load_widgets_commit_state (fuel k : Nat) (obs : Nat → shm_t × Nat) (st : hud_t)
    (hk : k < fuel)
    (htorn : ∀ j, j < k → (obs j).1.hdr.numwidgets ≤ MAXWIDGETS ∧
      (obs j).1.hdr.version ≠ (obs j).2)
    (hnw : (obs k).1.hdr.numwidgets ≤ 256) (hv : (obs k).1.hdr.version = (obs k).2) :
    ∃ st', load_widgets fuel obs st = some (st', [event.clear_image]) ∧
      st'.cur_header.version = (obs k).1.hdr.version ∧
      st'.cur_header.numwidgets = (obs k).1.hdr.numwidgets ∧
      st'.cur_header.visibility = 0 ∧
      ∀ r, r < 16 → st'.dirty_bits r = 65535 := by
  obtain ⟨st0, _, hl⟩ := load_widgets_commits_at k fuel obs st hk htorn hnw hv
  refine ⟨_, hl, rfl, rfl, rfl, fun r hr => ?_⟩
  show (if r < 16 then 65535 else _) = 65535
  rw [if_pos hr]

/-- Witness for C12: one stable pass over the two-widget region. -/
theorem load_widgets_commit_state_witness :
    ∃ st', load_widgets 1 (stable shm_two) (hud_init 800 480) = some (st', [event.clear_image]) ∧
      st'.cur_header.version = (stable shm_two 0).1.hdr.version ∧
      st'.cur_header.numwidgets = (stable shm_two 0).1.hdr.numwidgets ∧
      st'.cur_header.visibility = 0 ∧
      ∀ r, r < 16 → st'.dirty_bits r = 65535 :=
  load_widgets_commit_state 1 0 (stable shm_two) (hud_init 800 480) (by decide)
    (fun j hj => absurd hj (Nat.not_lt_zero j)) (by decide) rfl

/-- C18, counterexample: against a producer that bumps the header version during
every pass, no number of attempts makes `load_widgets` return. -/
theorem load_widgets_never_returns :
    ¬ ∃ (n : Nat) (r : hud_t × List event), load_widgets n obs_torn (hud_init 800 480) = some r := by
  rintro ⟨n, r, h⟩
  have hn : load_widgets n obs_torn (hud_init 800 480) = none := by
    rw [load_widgets_none_iff]
    intro j _
    refine ⟨(by decide : (2 : Nat) ≤ 256), ?_⟩
    show 2 * j ≠ 2 * j + 1
    omega
  rw [hn] at h
  exact Option.noConfusion h

/-- C18, as the code has it: `load_widgets` has no retry ceiling and no
staleness error.  It is still retrying after `n` attempts, for every `n`,
exactly when each of the `n` passes read at most `MAXWIDGETS` records and a
header version that changed during the copy; it returns only from a pass that
reads more than `MAXWIDGETS` records (line 285) or an unchanged version (the
commit). -/
theorem load_widgets_retries_unbounded (n : Nat) (obs : Nat → shm_t × Nat) (st : hud_t) :
    (load_widgets n obs st = none ↔
      ∀ j, j < n → (obs j).1.hdr.numwidgets ≤ MAXWIDGETS ∧
        (obs j).1.hdr.version ≠ (obs j).2) ∧
    (∀ r, load_widgets n obs st = some r →
      ∃ k, k < n ∧ ((obs k).1.hdr.numwidgets > MAXWIDGETS ∨
        (obs k).1.hdr.version = (obs k).2)) := by
  refine ⟨load_widgets_none_iff n obs st, fun r hr => ?_⟩
  by_contra hno
  have : load_widgets n obs st = none := by
    rw [load_widgets_none_iff]
    intro j hj
    constructor
    · by_contra h
      exact hno ⟨j, hj, Or.inl (by omega)⟩
    · intro h
      exact hno ⟨j, hj, Or.inr h⟩
  rw [this] at hr
  exact Option.noConfusion hr

/-! ## The blit specification table -/

theorem find_blitspec_some (vinfo : fb_var_screeninfo) (b : blitspec_t) :
    find_blitspec vinfo blitters = some b ↔
      (b ∈ blitters ∧ b.bpp ≠ 0 ∧ blitspec_matches b vinfo) := by
  obtain ⟨bpp, rl, gl, bl, ro, go, bo⟩ := vinfo
  constructor
  · intro h
    simp only [blitters, find_blitspec] at h
    split_ifs at h with h0 h1 h2 h3 h4 h5 h6 h7
    all_goals first
      | exact absurd h0 (by decide)
      | (simp only [Option.some.injEq] at h
         subst h
         refine ⟨by simp [blitters], by decide, ?_⟩
         assumption)
  · rintro ⟨hmem, hbpp, hm⟩
    simp only [blitters, List.mem_cons, List.mem_singleton, List.not_mem_nil, or_false] at hmem
    rcases hmem with rfl | rfl | rfl | rfl | rfl
    all_goals first
      | exact absurd rfl hbpp
      | (obtain ⟨h1, h2, h3, h4, h5, h6, h7⟩ := hm
         simp only at h1 h2 h3 h4 h5 h6 h7
         subst h1 h2 h3 h4 h5 h6 h7
         rfl)

theorem find_blitspec_none (vinfo : fb_var_screeninfo) :
    find_blitspec vinfo blitters = none ↔
      ∀ b, b ∈ blitters → b.bpp ≠ 0 → ¬ blitspec_matches b vinfo := by
  constructor
  · intro h b hb hbpp hm
    have := (find_blitspec_some vinfo b).2 ⟨hb, hbpp, hm⟩
    rw [h] at this
    exact Option.noConfusion this
  · intro h
    cases hf : find_blitspec vinfo blitters with
    | none => rfl
    | some b =>
      obtain ⟨hb, hbpp, hm⟩ := (find_blitspec_some vinfo b).1 hf
      exact absurd hm (h b hb hbpp)

/-- C14: for every reported pixel layout the selection loop of `main` stops at
the table entry `b` iff `b` is an entry of the table (not the sentinel) all
seven fields of which equal the reported ones, and ends in the fatal error iff
no entry matches; the four entries differ pairwise in these seven fields, so
that at most one matches. -/
theorem find_blitspec_selects (vinfo : fb_var_screeninfo) :
    (∀ b, find_blitspec vinfo blitters = some b ↔
      (b ∈ blitters ∧ b.bpp ≠ 0 ∧ b.bpp = vinfo.bits_per_pixel ∧ b.rl = vinfo.red_length ∧
        b.gl = vinfo.green_length ∧ b.bl = vinfo.blue_length ∧ b.ro = vinfo.red_offset ∧
        b.go = vinfo.green_offset ∧ b.bo = vinfo.blue_offset)) ∧
    (find_blitspec vinfo blitters = none ↔
      ∀ b, b ∈ blitters → b.bpp ≠ 0 →
        ¬ (b.bpp = vinfo.bits_per_pixel ∧ b.rl = vinfo.red_length ∧
          b.gl = vinfo.green_length ∧ b.bl = vinfo.blue_length ∧ b.ro = vinfo.red_offset ∧
          b.go = vinfo.green_offset ∧ b.bo = vinfo.blue_offset)) ∧
    (blitters.filter (fun b => decide (b.bpp ≠ 0))).length = 4 ∧
    (blitters.filter (fun b => decide (b.bpp ≠ 0))).Pairwise
      (fun a b => ¬ (a.bpp = b.bpp ∧ a.rl = b.rl ∧ a.gl = b.gl ∧ a.bl = b.bl ∧
        a.ro = b.ro ∧ a.go = b.go ∧ a.bo = b.bo)) :=
  ⟨fun b => find_blitspec_some vinfo b, find_blitspec_none vinfo, by decide, by decide⟩

/-! ## The blit routines write the rectangle and nothing else -/

theorem row_lines_frame (row : Int → Int → (Int → Nat) → (Int → Nat)) (ss ds L : Int)
    (hR1 : ∀ s d fb a, (a < d ∨ d + L ≤ a) → row s d fb a = fb a) (n : Nat) :
    ∀ (s d : Int) (fb : Int → Nat) (a : Int),
      (∀ j : Nat, j < n → a < d + ds * j ∨ d + ds * j + L ≤ a) →
      row_lines row ss ds n s d fb a = fb a := by
  induction n with
  | zero => intro s d fb a _; rfl
  | succ n ih =>
    intro s d fb a h
    rw [row_lines, ih]
    · apply hR1
      have := h 0 (Nat.succ_pos _)
      simpa using this
    · intro j hj
      have := h (j + 1) (by omega)
      have e : d + ds * ((j + 1 : Nat) : Int) = d + ds + ds * j := by push_cast; ring
      rw [e] at this
      exact this

theorem row_lines_value (row : Int → Int → (Int → Nat) → (Int → Nat)) (ss ds L : Int)
    (val : Int → Int → Nat)
    (hR1 : ∀ s d fb a, (a < d ∨ d + L ≤ a) → row s d fb a = fb a)
    (hR2 : ∀ s d fb t, 0 ≤ t → t < L → row s d fb (d + t) = val s t)
    (hL : L ≤ ds) (n : Nat) :
    ∀ (s d : Int) (fb : Int → Nat) (j : Nat) (t : Int), j < n → 0 ≤ t → t < L →
      row_lines row ss ds n s d fb (d + ds * j + t) = val (s + ss * j) t := by
  induction n with
  | zero => intro s d fb j t hj; omega
  | succ n ih =>
    intro s d fb j t hj h0 hL'
    rw [row_lines]
    rcases j with _ | j
    · rw [row_lines_frame row ss ds L hR1]
      · simp only [Nat.cast_zero, mul_zero, add_zero]
        exact hR2 s d fb t h0 hL'
      · intro i _
        left
        have : 0 ≤ ds * (i : Int) := mul_nonneg (by omega) (Int.ofNat_nonneg i)
        simp only [Nat.cast_zero, mul_zero, add_zero]
        omega
    · have e : d + ds * ((j + 1 : Nat) : Int) + t = d + ds + ds * j + t := by push_cast; ring
      have e' : s + ss * ((j + 1 : Nat) : Int) = s + ss + ss * j := by push_cast; ring
      rw [e, e']
      exact ih (s + ss) (d + ds) _ j t (by omega) h0 hL'

theorem blit24_cols_spec (src : Int → Nat) (bytes : Nat → Nat × Nat × Nat) (w : Nat) :
    ∀ (s d : Int) (fb : Int → Nat),
      (blit24_cols src bytes w s d fb).2.1 = s + 4 * w ∧
      (blit24_cols src bytes w s d fb).2.2 = d + 3 * w ∧
      (∀ a, (a < d ∨ d + 3 * w ≤ a) → (blit24_cols src bytes w s d fb).1 a = fb a) ∧
      (∀ t : Int, 0 ≤ t → t < 3 * w →
        (blit24_cols src bytes w s d fb).1 (d + t) = val24 src bytes s t) := by
  induction w with
  | zero =>
    intro s d fb
    refine ⟨by simp [blit24_cols], by simp [blit24_cols], fun a _ => rfl, fun t h0 h1 => ?_⟩
    simp at h1; omega
  | succ w ih =>
    intro s d fb
    rw [blit24_cols]
    obtain ⟨i1, i2, i3, i4⟩ := ih (s + 4) (d + 3)
      (Function.update (Function.update (Function.update fb d
        ((bytes (load32 src s)).1 % 256)) (d + 1) ((bytes (load32 src s)).2.1 % 256)) (d + 2)
        ((bytes (load32 src s)).2.2 % 256))
    refine ⟨by rw [i1]; push_cast; ring, by rw [i2]; push_cast; ring, ?_, ?_⟩
    · intro a ha
      rw [i3 a (by push_cast at ha; omega)]
      push_cast at ha
      rw [Function.update_noteq (by omega), Function.update_noteq (by omega),
        Function.update_noteq (by omega)]
    · intro t h0 h1
      push_cast at h1
      by_cases ht : t < 3
      · rw [i3 (d + t) (by omega)]
        unfold val24
        have hq : t / 3 = 0 := by omega
        rw [hq]
        simp only [mul_zero, add_zero]
        have : t = 0 ∨ t = 1 ∨ t = 2 := by omega
        rcases this with rfl | rfl | rfl
        · rw [add_zero, Function.update_noteq (by omega), Function.update_noteq (by omega),
            Function.update_same]
          rfl
        · rw [Function.update_noteq (by omega), Function.update_same]
          rfl
        · rw [Function.update_same]
          rfl
      · have e : d + t = d + 3 + (t - 3) := by ring
        rw [e, i4 (t - 3) (by omega) (by omega)]
        unfold val24
        have hq : (t - 3) / 3 = t / 3 - 1 := by omega
        have hr : (t - 3) % 3 = t % 3 := by omega
        have ha : s + 4 + 4 * ((t - 3) / 3) = s + 4 * (t / 3) := by rw [hq]; ring
        rw [hr, ha]

theorem blit24_lines_eq (src : Int → Nat) (bytes : Nat → Nat × Nat × Nat) (w : Nat)
    (line_inc_src line_inc_dst : Int) (n : Nat) :
    ∀ (s d : Int) (fb : Int → Nat),
      blit24_lines src bytes w line_inc_src line_inc_dst n s d fb =
        row_lines (fun s d fb => (blit24_cols src bytes w s d fb).1)
          (4 * w + line_inc_src) (3 * w + line_inc_dst) n s d fb := by
  induction n with
  | zero => intro s d fb; rfl
  | succ n ih =>
    intro s d fb
    rw [blit24_lines, row_lines]
    obtain ⟨h1, h2, _, _⟩ := blit24_cols_spec src bytes w s d fb
    rw [h1, h2, ih]
    ring_nf

theorem copy_lines_eq (src : Int → Nat) (nbytes : Nat) (ss ds : Int) (n : Nat) :
    ∀ (s d : Int) (fb : Int → Nat),
      copy_lines src nbytes ss ds n s d fb =
        row_lines (fun s d fb => memcpy fb d src s nbytes) ss ds n s d fb := by
  induction n with
  | zero => intro s d fb; rfl
  | succ n ih => intro s d fb; rw [copy_lines, row_lines, ih]


theorem memcpy_outside (dst src : Int → Nat) (d s : Int) (n : Nat) (a : Int)
    (h : a < d ∨ d + n ≤ a) : memcpy dst d src s n a = dst a := by
  unfold memcpy
  rw [if_neg]
  omega

theorem memcpy_inside (dst src : Int → Nat) (d s : Int) (n : Nat) (t : Int)
    (h0 : 0 ≤ t) (h1 : t < n) : memcpy dst d src s n (d + t) = src (s + t) := by
  unfold memcpy
  rw [if_pos (by omega)]
  congr 1
  omega

/-- Bytes outside the pixels of the rectangle are outside every line segment
`[d + ds * j, d + ds * j + B * w)` that the line loop writes. -/
theorem rect_rows_frame (row : Int → Int → (Int → Nat) → (Int → Nat)) (ss ds B : Int)
    (hB : 0 < B) (x y w : Int) (n : Nat)
    (hR1 : ∀ s d fb a, (a < d ∨ d + B * w ≤ a) → row s d fb a = fb a)
    (s0 : Int) (fb : Int → Nat) (a : Int)
    (hout : ∀ px py : Int, x ≤ px → px < x + w → y ≤ py → py < y + n →
      ¬ (px * B + py * ds ≤ a ∧ a < px * B + py * ds + B)) :
    row_lines row ss ds n s0 (x * B + y * ds) fb a = fb a := by
  apply row_lines_frame row ss ds (B * w) hR1
  intro j hj
  by_contra hc
  push_neg at hc
  obtain ⟨h1, h2⟩ := hc
  have ht0 : 0 ≤ a - (x * B + y * ds + ds * j) := by linarith
  have ht1 : a - (x * B + y * ds + ds * j) < w * B := by linarith
  have hq0 : 0 ≤ (a - (x * B + y * ds + ds * j)) / B := Int.ediv_nonneg ht0 (le_of_lt hB)
  have hq1 : (a - (x * B + y * ds + ds * j)) / B < w := Int.ediv_lt_of_lt_mul hB ht1
  have hdm := Int.ediv_add_emod (a - (x * B + y * ds + ds * j)) B
  have hr0 := Int.emod_nonneg (a - (x * B + y * ds + ds * j)) (ne_of_gt hB)
  have hr1 := Int.emod_lt_of_pos (a - (x * B + y * ds + ds * j)) hB
  refine hout (x + (a - (x * B + y * ds + ds * j)) / B) (y + j) (by omega) (by omega)
    (by omega) (by omega) ⟨?_, ?_⟩
  · have e : (x + (a - (x * B + y * ds + ds * j)) / B) * B + (y + j) * ds =
        x * B + y * ds + ds * j + B * ((a - (x * B + y * ds + ds * j)) / B) := by ring
    rw [e]
    linarith
  · have e : (x + (a - (x * B + y * ds + ds * j)) / B) * B + (y + j) * ds =
        x * B + y * ds + ds * j + B * ((a - (x * B + y * ds + ds * j)) / B) := by ring
    rw [e]
    linarith

/-- The byte `k` of the pixel `(px, py)` of the rectangle is byte
`B * (px - x) + k` of line `py - y`. -/
theorem rect_rows_value (row : Int → Int → (Int → Nat) → (Int → Nat)) (ss ds B : Int)
    (hB : 0 ≤ B) (x y w : Int) (n : Nat) (val : Int → Int → Nat)
    (hR1 : ∀ s d fb a, (a < d ∨ d + B * w ≤ a) → row s d fb a = fb a)
    (hR2 : ∀ s d fb t, 0 ≤ t → t < B * w → row s d fb (d + t) = val s t)
    (hL : B * w ≤ ds) (s0 : Int) (fb : Int → Nat) (px py k : Int)
    (hx : x ≤ px) (hx1 : px < x + w) (hy : y ≤ py) (hy1 : py < y + n)
    (hk : 0 ≤ k) (hk1 : k < B) :
    row_lines row ss ds n s0 (x * B + y * ds) fb (px * B + py * ds + k) =
      val (s0 + ss * (py - y)) (B * (px - x) + k) := by
  have hj : (((py - y).toNat : Nat) : Int) = py - y := Int.toNat_of_nonneg (by omega)
  have e : px * B + py * ds + k =
      x * B + y * ds + ds * ((py - y).toNat : Nat) + (B * (px - x) + k) := by
    rw [hj]; ring
  have hp : 0 ≤ B * (px - x) := mul_nonneg hB (by omega)
  have hp1 : B * (px - x) ≤ B * (w - 1) := mul_le_mul_of_nonneg_left (by omega) hB
  rw [e, row_lines_value row ss ds (B * w) val hR1 hR2 hL n s0 (x * B + y * ds) fb
    (py - y).toNat (B * (px - x) + k) (by omega) (by linarith) (by linarith), hj]

theorem load32_eq (m : Int → Nat) (a : Int) : load32 m a = load_le m a 4 := by
  simp only [load32, load_le]
  have e1 : a + 1 + 1 = a + 2 := by ring
  have e2 : a + 2 + 1 = a + 3 := by ring
  rw [e1, e2]
  ring

/-- The bytes that a 24-bit routine stores for a pixel of the rectangle. -/
theorem blit24_pixel (env : blit_env) (bytes : Nat → Nat × Nat × Nat) (x y w h : Int)
    (fb : Int → Nat) (px py : Int) (hL : 3 * w ≤ env.dst_stride)
    (hx : x ≤ px) (hx1 : px < x + w) (hy : y ≤ py) (hy1 : py < y + h) :
    blit24 env bytes x y w h fb (px * 3 + py * env.dst_stride) =
        (bytes (load32 env.frontsurf_data (px * 4 + py * env.src_stride))).1 % 256 ∧
    blit24 env bytes x y w h fb (px * 3 + py * env.dst_stride + 1) =
        (bytes (load32 env.frontsurf_data (px * 4 + py * env.src_stride))).2.1 % 256 ∧
    blit24 env bytes x y w h fb (px * 3 + py * env.dst_stride + 2) =
        (bytes (load32 env.frontsurf_data (px * 4 + py * env.src_stride))).2.2 % 256 := by
  have hw : ((w.toNat : Nat) : Int) = w := Int.toNat_of_nonneg (by omega)
  have key : ∀ k : Int, 0 ≤ k → k < 3 →
      blit24 env bytes x y w h fb (px * 3 + py * env.dst_stride + k) =
        val24 env.frontsurf_data bytes (px * 4 + py * env.src_stride) k := by
    intro k hk hk1
    unfold blit24
    rw [blit24_lines_eq]
    have es : 4 * ((w.toNat : Nat) : Int) + (env.src_stride - w * 4) = env.src_stride := by
      rw [hw]; ring
    have ed : 3 * ((w.toNat : Nat) : Int) + (env.dst_stride - w * 3) = env.dst_stride := by
      rw [hw]; ring
    rw [es, ed]
    rw [rect_rows_value _ env.src_stride env.dst_stride 3 (by omega) x y w h.toNat
      (val24 env.frontsurf_data bytes)
      (fun s d fb a ha => (blit24_cols_spec env.frontsurf_data bytes w.toNat s d fb).2.2.1 a
        (by rw [hw]; exact ha))
      (fun s d fb t h0 h1 => (blit24_cols_spec env.frontsurf_data bytes w.toNat s d fb).2.2.2 t
        h0 (by rw [hw]; exact h1))
      hL _ fb px py k hx hx1 hy (by omega) hk hk1]
    unfold val24
    have hq : (3 * (px - x) + k) / 3 = px - x := by omega
    have hr : (3 * (px - x) + k) % 3 = k % 3 := by omega
    have hr0 : (0 : Int) / 3 = 0 := by decide
    have ha : x * 4 + y * env.src_stride + env.src_stride * (py - y) + 4 * ((3 * (px - x) + k) / 3)
        = px * 4 + py * env.src_stride + 4 * (k / 3) := by
      have : k / 3 = 0 := by omega
      rw [hq, this]; ring
    rw [hr, ha]
  have k0 := key 0 (by omega) (by omega)
  have k1 := key 1 (by omega) (by omega)
  have k2 := key 2 (by omega) (by omega)
  rw [add_zero] at k0
  refine ⟨?_, ?_, ?_⟩
  · rw [k0]; simp [val24]
  · rw [k1]; simp [val24]
  · rw [k2]; simp [val24]

/-- The bytes that a copying routine stores for a pixel of the rectangle. -/
theorem copy_lines_pixel (src : Int → Nat) (ss ds : Int) (B : Int) (hB : 0 ≤ B)
    (x y w h : Int) (fb : Int → Nat) (px py k : Int) (hL : B * w ≤ ds)
    (hx : x ≤ px) (hx1 : px < x + w) (hy : y ≤ py) (hy1 : py < y + h)
    (hk : 0 ≤ k) (hk1 : k < B) :
    copy_lines src (w * B).toNat ss ds h.toNat (x * B + y * ss) (x * B + y * ds) fb
        (px * B + py * ds + k) = src (px * B + py * ss + k) := by
  have hw : (((w * B).toNat : Nat) : Int) = B * w := by
    rw [Int.toNat_of_nonneg (mul_nonneg (by omega) hB)]; ring
  rw [copy_lines_eq]
  rw [rect_rows_value _ ss ds B hB x y w h.toNat (fun s t => src (s + t))
    (fun s d fb a ha => memcpy_outside fb src d s _ a (by rw [hw]; exact ha))
    (fun s d fb t h0 h1 => memcpy_inside fb src d s _ t h0 (by rw [hw]; exact h1))
    hL _ fb px py k hx hx1 hy (by omega) hk hk1]
  congr 1
  ring


theorem blit24_frame (env : blit_env) (bytes : Nat → Nat × Nat × Nat) (x y w h : Int)
    (fb : Int → Nat) (a : Int) (hw : 0 ≤ w)
    (hout : ∀ px py : Int, x ≤ px → px < x + w → y ≤ py → py < y + h →
      ¬ (px * 3 + py * env.dst_stride ≤ a ∧ a < px * 3 + py * env.dst_stride + 3)) :
    blit24 env bytes x y w h fb a = fb a := by
  have hw' : ((w.toNat : Nat) : Int) = w := Int.toNat_of_nonneg hw
  unfold blit24
  rw [blit24_lines_eq]
  have ed : 3 * ((w.toNat : Nat) : Int) + (env.dst_stride - w * 3) = env.dst_stride := by
    rw [hw']; ring
  rw [ed]
  exact rect_rows_frame _ _ env.dst_stride 3 (by omega) x y w h.toNat
    (fun s d fb a ha => (blit24_cols_spec env.frontsurf_data bytes w.toNat s d fb).2.2.1 a
      (by rw [hw']; exact ha))
    _ fb a (fun px py h1 h2 h3 h4 => hout px py h1 h2 h3 (by omega))

theorem copy_lines_frame (src : Int → Nat) (ss ds : Int) (B : Int) (hB : 0 < B)
    (x y w h : Int) (fb : Int → Nat) (a : Int) (hw : 0 ≤ w)
    (hout : ∀ px py : Int, x ≤ px → px < x + w → y ≤ py → py < y + h →
      ¬ (px * B + py * ds ≤ a ∧ a < px * B + py * ds + B)) :
    copy_lines src (w * B).toNat ss ds h.toNat (x * B + y * ss) (x * B + y * ds) fb a = fb a := by
  have hw' : (((w * B).toNat : Nat) : Int) = B * w := by
    rw [Int.toNat_of_nonneg (mul_nonneg hw (le_of_lt hB))]; ring
  rw [copy_lines_eq]
  exact rect_rows_frame _ ss ds B hB x y w h.toNat
    (fun s d fb a ha => memcpy_outside fb src d s _ a (by rw [hw']; exact ha))
    _ fb a (fun px py h1 h2 h3 h4 => hout px py h1 h2 h3 (by omega))

/-- C16: for each of the four blit specifications of the table, with
`bpp / 8` bytes per destination pixel, and every rectangle `(x, y, w, h)` with
`w >= 0`, a framebuffer byte that belongs to no pixel `(px, py)` with
`x <= px < x + w` and `y <= py < y + h` keeps its value across the call of the
specification's blit routine. -/
theorem blit_writes_only_rect (b : blitspec_t) (env : blit_env) (x y w h : Int)
    (fb : Int → Nat) (a : Int) (hb : b ∈ blitters) (hbpp : b.bpp ≠ 0) (hw : 0 ≤ w)
    (hout : ∀ px py : Int, x ≤ px → px < x + w → y ≤ py → py < y + h →
      ¬ (dst_addr b env px py ≤ a ∧ a < dst_addr b env px py + ((b.bpp / 8 : Nat) : Int))) :
    run_blit b.blit env x y w h fb a = fb a := by
  simp only [blitters, List.mem_cons, List.mem_singleton, List.not_mem_nil, or_false] at hb
  rcases hb with rfl | rfl | rfl | rfl | rfl
  · exact blit24_frame env _ x y w h fb a hw hout
  · exact blit24_frame env _ x y w h fb a hw hout
  · exact copy_lines_frame env.frontsurf_data env.src_stride env.dst_stride 4 (by omega)
      x y w h fb a hw hout
  · exact copy_lines_frame env.frontsurf_data env.src_stride env.dst_stride 2 (by omega)
      x y w h fb a hw hout
  · exact absurd rfl hbpp


/-- C16, at a concrete input: the 24-bit RGB routine on the 2x2 rectangle at
`(1, 1)` leaves the byte after the first line of the rectangle alone. -/
theorem blit_writes_only_rect_witness :
    run_blit spec_rgb24.blit env_demo 1 1 2 2 (fun _ => 7) 2409 = 7 :=
  blit_writes_only_rect spec_rgb24 env_demo 1 1 2 2 (fun _ => 7) 2409
    (by simp [blitters, spec_rgb24]) (by decide) (by decide)
    (fun px py h1 h2 h3 h4 => by
      simp only [dst_addr, env_demo, spec_rgb24]
      omega)

theorem load_le_three (m : Int → Nat) (a : Int) :
    load_le m a 3 = m a + 256 * (m (a + 1) + 256 * (m (a + 2) + 256 * 0)) := by
  have e : a + 1 + 1 = a + 2 := by ring
  simp only [load_le, e]

theorem load_le_congr (m m' : Int → Nat) (n : Nat) :
    ∀ a a' : Int, (∀ k : Nat, k < n → m (a + k) = m' (a' + k)) →
      load_le m a n = load_le m' a' n := by
  induction n with
  | zero => intro a a' _; rfl
  | succ n ih =>
    intro a a' h
    have h0 := h 0 (Nat.succ_pos n)
    simp only [Nat.cast_zero, add_zero] at h0
    rw [load_le, load_le, h0, ih (a + 1) (a' + 1)]
    intro k hk
    have := h (k + 1) (by omega)
    have e : a + ((k + 1 : Nat) : Int) = a + 1 + k := by push_cast; ring
    have e' : a' + ((k + 1 : Nat) : Int) = a' + 1 + k := by push_cast; ring
    rw [e, e'] at this
    exact this

theorem channels_of_three (b0 b1 b2 : Nat) (h0 : b0 < 256) (h1 : b1 < 256) (h2 : b2 < 256) :
    channel (b0 + 256 * (b1 + 256 * (b2 + 256 * 0))) 0 8 = b0 ∧
    channel (b0 + 256 * (b1 + 256 * (b2 + 256 * 0))) 8 8 = b1 ∧
    channel (b0 + 256 * (b1 + 256 * (b2 + 256 * 0))) 16 8 = b2 := by
  simp only [channel, Nat.shiftRight_eq_div_pow]
  omega

/-- C15: for each of the four blit specifications of the table and every
rectangle between the left edge and `screenw`, with lines of the destination
at least `bpp / 8 * screenw` bytes apart, after the specification's blit
routine every pixel `(px, py)` of the rectangle, read from the destination as a
little-endian value of `bpp / 8` bytes and decoded with the declared offsets
and lengths, has the red, green and blue values of the pixel `(px, py)` of the
drawing surface.  The 24-bit routines store the bytes R, G, B (red offset 0)
or B, G, R (red offset 16); the other two store the source bytes. -/
theorem blit_round_trip (b : blitspec_t) (env : blit_env) (screenw x y w h : Int)
    (fb : Int → Nat) (px py : Int) (hb : b ∈ blitters) (hbpp : b.bpp ≠ 0)
    (hx0 : 0 ≤ x) (hxw : x + w ≤ screenw)
    (hstride : ((b.bpp / 8 : Nat) : Int) * screenw ≤ env.dst_stride)
    (hx : x ≤ px) (hx1 : px < x + w) (hy : y ≤ py) (hy1 : py < y + h) :
    decode b (load_le (run_blit b.blit env x y w h fb) (dst_addr b env px py) (b.bpp / 8)) =
      cairo_channels b.cairo_fmt
        (load_le env.frontsurf_data (src_addr b env px py) (cairo_bytes b.cairo_fmt)) ∧
    (b.bpp = 24 → b.ro = 0 →
      (run_blit b.blit env x y w h fb (dst_addr b env px py),
        run_blit b.blit env x y w h fb (dst_addr b env px py + 1),
        run_blit b.blit env x y w h fb (dst_addr b env px py + 2)) =
      cairo_channels b.cairo_fmt
        (load_le env.frontsurf_data (src_addr b env px py) (cairo_bytes b.cairo_fmt))) ∧
    (b.bpp = 24 → b.ro = 16 →
      (run_blit b.blit env x y w h fb (dst_addr b env px py + 2),
        run_blit b.blit env x y w h fb (dst_addr b env px py + 1),
        run_blit b.blit env x y w h fb (dst_addr b env px py)) =
      cairo_channels b.cairo_fmt
        (load_le env.frontsurf_data (src_addr b env px py) (cairo_bytes b.cairo_fmt))) ∧
    (b.bpp ≠ 24 → ∀ k : Nat, k < b.bpp / 8 →
      run_blit b.blit env x y w h fb (dst_addr b env px py + k) =
        env.frontsurf_data (src_addr b env px py + k)) := by
  simp only [blitters, List.mem_cons, List.mem_singleton, List.not_mem_nil, or_false] at hb
  rcases hb with rfl | rfl | rfl | rfl | rfl
  · have hL : 3 * w ≤ env.dst_stride := by
      have : (3 : Int) * screenw ≤ env.dst_stride := hstride
      omega
    obtain ⟨p0, p1, p2⟩ := blit24_pixel env (fun v => (v >>> 16, v >>> 8, v)) x y w h fb px py
      hL hx hx1 hy hy1
    rw [load32_eq] at p0 p1 p2
    have q0 : run_blit blitfunc.blit_rgbx_rgb24 env x y w h fb
        (px * 3 + py * env.dst_stride) = _ := p0
    have q1 : run_blit blitfunc.blit_rgbx_rgb24 env x y w h fb
        (px * 3 + py * env.dst_stride + 1) = _ := p1
    have q2 : run_blit blitfunc.blit_rgbx_rgb24 env x y w h fb
        (px * 3 + py * env.dst_stride + 2) = _ := p2
    have ed : dst_addr ⟨24, 8, 8, 8, 0, 8, 16, cairo_format_t.CAIRO_FORMAT_RGB24,
        blitfunc.blit_rgbx_rgb24⟩ env px py = px * 3 + py * env.dst_stride := rfl
    have es : src_addr ⟨24, 8, 8, 8, 0, 8, 16, cairo_format_t.CAIRO_FORMAT_RGB24,
        blitfunc.blit_rgbx_rgb24⟩ env px py = px * 4 + py * env.src_stride := rfl
    rw [ed, es]
    simp only [cairo_bytes, cairo_channels]
    generalize load_le env.frontsurf_data (px * 4 + py * env.src_stride) 4 = S at q0 q1 q2 ⊢
    obtain ⟨c0, c1, c2⟩ := channels_of_three (S >>> 16 % 256) (S >>> 8 % 256) (S % 256)
      (Nat.mod_lt _ (by decide)) (Nat.mod_lt _ (by decide)) (Nat.mod_lt _ (by decide))
    refine ⟨?_, ?_, ?_, ?_⟩
    · show decode _ (load_le _ _ 3) = _
      rw [load_le_three, q0, q1, q2]
      simp only [decode]
      rw [c0, c1, c2]
    · intro _ _
      rw [q0, q1, q2]
    · intro _ h16
      exact absurd h16 (by decide)
    · intro h24
      exact absurd rfl h24
  · have hL : 3 * w ≤ env.dst_stride := by
      have : (3 : Int) * screenw ≤ env.dst_stride := hstride
      omega
    obtain ⟨p0, p1, p2⟩ := blit24_pixel env (fun v => (v, v >>> 8, v >>> 16)) x y w h fb px py
      hL hx hx1 hy hy1
    rw [load32_eq] at p0 p1 p2
    have q0 : run_blit blitfunc.blit_rgbx_bgr24 env x y w h fb
        (px * 3 + py * env.dst_stride) = _ := p0
    have q1 : run_blit blitfunc.blit_rgbx_bgr24 env x y w h fb
        (px * 3 + py * env.dst_stride + 1) = _ := p1
    have q2 : run_blit blitfunc.blit_rgbx_bgr24 env x y w h fb
        (px * 3 + py * env.dst_stride + 2) = _ := p2
    have ed : dst_addr ⟨24, 8, 8, 8, 16, 8, 0, cairo_format_t.CAIRO_FORMAT_RGB24,
        blitfunc.blit_rgbx_bgr24⟩ env px py = px * 3 + py * env.dst_stride := rfl
    have es : src_addr ⟨24, 8, 8, 8, 16, 8, 0, cairo_format_t.CAIRO_FORMAT_RGB24,
        blitfunc.blit_rgbx_bgr24⟩ env px py = px * 4 + py * env.src_stride := rfl
    rw [ed, es]
    simp only [cairo_bytes, cairo_channels]
    generalize load_le env.frontsurf_data (px * 4 + py * env.src_stride) 4 = S at q0 q1 q2 ⊢
    obtain ⟨c0, c1, c2⟩ := channels_of_three (S % 256) (S >>> 8 % 256) (S >>> 16 % 256)
      (Nat.mod_lt _ (by decide)) (Nat.mod_lt _ (by decide)) (Nat.mod_lt _ (by decide))
    refine ⟨?_, ?_, ?_, ?_⟩
    · show decode _ (load_le _ _ 3) = _
      rw [load_le_three, q0, q1, q2]
      simp only [decode]
      rw [c0, c1, c2]
    · intro _ h0
      exact absurd h0 (by decide)
    · intro _ _
      rw [q0, q1, q2]
    · intro h24
      exact absurd rfl h24
  · have hL : 4 * w ≤ env.dst_stride := by
      have : (4 : Int) * screenw ≤ env.dst_stride := hstride
      omega
    have key : ∀ k : Nat, k < 4 →
        run_blit blitfunc.blit_rgbx_rgbx env x y w h fb (px * 4 + py * env.dst_stride + k) =
          env.frontsurf_data (px * 4 + py * env.src_stride + k) := fun k hk =>
      copy_lines_pixel env.frontsurf_data env.src_stride env.dst_stride 4 (by omega) x y w h fb
        px py k hL hx hx1 hy hy1 (by omega) (by omega)
    refine ⟨?_, fun h24 => absurd h24 (by decide), fun h24 => absurd h24 (by decide),
      fun _ k hk => key k hk⟩
    have e := load_le_congr _ _ 4 _ _ key
    show decode _ (load_le _ (px * 4 + py * env.dst_stride) 4) =
      cairo_channels _ (load_le _ (px * 4 + py * env.src_stride) 4)
    rw [e]
    rfl
  · have hL : 2 * w ≤ env.dst_stride := by
      have : (2 : Int) * screenw ≤ env.dst_stride := hstride
      omega
    have key : ∀ k : Nat, k < 2 →
        run_blit blitfunc.blit_rgb565_rgb565 env x y w h fb (px * 2 + py * env.dst_stride + k) =
          env.frontsurf_data (px * 2 + py * env.src_stride + k) := fun k hk =>
      copy_lines_pixel env.frontsurf_data env.src_stride env.dst_stride 2 (by omega) x y w h fb
        px py k hL hx hx1 hy hy1 (by omega) (by omega)
    refine ⟨?_, fun h24 => absurd h24 (by decide), fun h24 => absurd h24 (by decide),
      fun _ k hk => key k hk⟩
    have e := load_le_congr _ _ 2 _ _ key
    show decode _ (load_le _ (px * 2 + py * env.dst_stride) 2) =
      cairo_channels _ (load_le _ (px * 2 + py * env.src_stride) 2)
    rw [e]
    rfl
  · exact absurd rfl hbpp


/-- C15, at a concrete input: the 24-bit RGB routine on the 2x2 rectangle at
`(1, 1)` of the demo surface; the source pixel `(2, 2)` holds the bytes 8, 9,
10, 11, so red is 10, green 9 and blue 8. -/
theorem blit_round_trip_witness :
    decode spec_rgb24 (load_le (run_blit spec_rgb24.blit env_demo 1 1 2 2 (fun _ => 7))
      (dst_addr spec_rgb24 env_demo 2 2) (spec_rgb24.bpp / 8)) = (10, 9, 8) :=
  (blit_round_trip spec_rgb24 env_demo 800 1 1 2 2 (fun _ => 7) 2 2
    (by simp [blitters, spec_rgb24]) (by decide) (by decide) (by decide) (by decide)
    (by decide) (by decide) (by decide) (by decide)).1.trans (by decide)

/-! ## The text slices -/

theorem foldl_preserve {α β γ : Type} (f : β → α → β) (p : β → γ)
    (h : ∀ b a, p (f b a) = p b) : ∀ (l : List α) (b : β), p (l.foldl f b) = p b := by
  intro l
  induction l with
  | nil => intro b; rfl
  | cons a l ih => intro b; rw [List.foldl_cons, ih, h]

theorem tile_add_ldata (i xx yy : Nat) (st : hud_t) :
    (tile_add i xx yy st).widget_ldata = st.widget_ldata := by
  unfold tile_add
  simp only
  by_cases h : st.tile_nwidgets (TILE_NWIDGETS xx yy) < 32
  · rw [if_pos h]
  · rw [if_neg h]

theorem index_tiles_ldata (i tx1 tx2 ty1 ty2 : Nat) (st : hud_t) :
    (index_tiles i tx1 tx2 ty1 ty2 st).widget_ldata = st.widget_ldata := by
  unfold index_tiles
  apply foldl_preserve
  intro b yy
  apply foldl_preserve
  intro b xx
  exact tile_add_ldata i xx yy b

/-- The text part of one round of the copy loop. -/
theorem load_widget_text (shm : shm_t) (s : hud_t × Nat) (i : Nat) :
    (load_widget shm s i).2 =
      (if s.2 + (shm.widgets i).cnchar > SHM_SIZE - 1 then s.2
        else s.2 + (shm.widgets i).cnchar) ∧
    (∀ j, j ≠ i → (load_widget shm s i).1.widget_ldata j = s.1.widget_ldata j) ∧
    ((load_widget shm s i).1.widget_ldata i).nchar =
      (if s.2 + (shm.widgets i).cnchar > SHM_SIZE - 1 then 0 else (shm.widgets i).cnchar) ∧
    (s.2 + (shm.widgets i).cnchar ≤ SHM_SIZE - 1 →
      ((load_widget shm s i).1.widget_ldata i).textbuf = s.2) := by
  unfold load_widget
  simp only
  refine ⟨?_, ?_, ?_, ?_⟩
  · by_cases h : s.2 + (shm.widgets i).cnchar > SHM_SIZE - 1
    · rw [if_pos h, if_pos h]
    · rw [if_neg h, if_neg h]
  · intro j hj
    rw [Function.update_noteq hj, index_tiles_ldata]
  · rw [Function.update_same]
    by_cases h : s.2 + (shm.widgets i).cnchar > SHM_SIZE - 1
    · rw [if_pos h, if_pos h]
    · rw [if_neg h, if_neg h]
  · intro h
    rw [Function.update_same, if_neg (by omega)]

/-- The running pointer of the copy loop is `text_off`, and the text fields of
the widgets copied so far are those that `text_off` dictates. -/
theorem load_loop_text (shm : shm_t) (st0 : hud_t) (n : Nat) :
    (load_loop shm n (st0, text_off shm 0)).2 = text_off shm n ∧
    ∀ i, i < n →
      ((load_loop shm n (st0, text_off shm 0)).1.widget_ldata i).nchar =
        (if text_off shm i + (shm.widgets i).cnchar > SHM_SIZE - 1 then 0
          else (shm.widgets i).cnchar) ∧
      (text_off shm i + (shm.widgets i).cnchar ≤ SHM_SIZE - 1 →
        ((load_loop shm n (st0, text_off shm 0)).1.widget_ldata i).textbuf = text_off shm i) := by
  induction n with
  | zero => exact ⟨rfl, fun i hi => absurd hi (Nat.not_lt_zero i)⟩
  | succ n ih =>
    obtain ⟨ih1, ih2⟩ := ih
    obtain ⟨h1, h2, h3, h4⟩ := load_widget_text shm (load_loop shm n (st0, text_off shm 0)) n
    rw [load_loop_succ]
    rw [ih1] at h1 h3 h4
    refine ⟨by rw [h1]; rfl, ?_⟩
    intro i hi
    by_cases hin : i = n
    · subst hin
      exact ⟨h3, h4⟩
    · rw [h2 i hin]
      exact ih2 i (by omega)

theorem load_pass_text (shm : shm_t) (st : hud_t) (i : Nat) (hi : i < shm.hdr.numwidgets) :
    ((load_pass shm st).widget_ldata i).nchar =
      (if text_off shm i + (shm.widgets i).cnchar > SHM_SIZE - 1 then 0
        else (shm.widgets i).cnchar) ∧
    (text_off shm i + (shm.widgets i).cnchar ≤ SHM_SIZE - 1 →
      ((load_pass shm st).widget_ldata i).textbuf = text_off shm i) :=
  (load_loop_text shm (clear_tile_counts st) shm.hdr.numwidgets).2 i hi

theorem text_off_sum (shm : shm_t) (nchar : Nat → Nat) (n : Nat)
    (h : ∀ j, j < n → nchar j =
      (if text_off shm j + (shm.widgets j).cnchar > SHM_SIZE - 1 then 0
        else (shm.widgets j).cnchar)) :
    ∀ i, i ≤ n → text_off shm i = text_off shm 0 + ((List.range i).map nchar).sum := by
  intro i
  induction i with
  | zero => intro _; simp
  | succ i ih =>
    intro hi
    have e := ih (by omega)
    have hstep : text_off shm (i + 1) =
        (if text_off shm i + (shm.widgets i).cnchar > SHM_SIZE - 1 then text_off shm i
          else text_off shm i + (shm.widgets i).cnchar) := rfl
    rw [List.range_succ, List.map_append, List.sum_append, List.map_singleton,
      List.sum_singleton, h i (by omega), hstep]
    by_cases hc : text_off shm i + (shm.widgets i).cnchar > SHM_SIZE - 1
    · rw [if_pos hc, if_pos hc]; omega
    · rw [if_neg hc, if_neg hc]; omega

theorem text_off_edge : ∀ i, i ≤ 100 → text_off shm_edge i = 7236 + 255 * i := by
  intro i
  induction i with
  | zero => intro _; rfl
  | succ i ih =>
    intro hi
    have e := ih (by omega)
    have hc : (shm_edge.widgets i).cnchar = 255 := by
      show (if i = 100 then ({ version := 1, cnchar := 32 } : widget_t)
        else { version := 1, cnchar := 255 }).cnchar = 255
      rw [if_neg (by omega)]
    have hstep : text_off shm_edge (i + 1) =
        (if text_off shm_edge i + (shm_edge.widgets i).cnchar > SHM_SIZE - 1
          then text_off shm_edge i
          else text_off shm_edge i + (shm_edge.widgets i).cnchar) := rfl
    rw [hstep, hc, e, if_neg (by unfold SHM_SIZE; omega)]
    omega

/-- C13, counterexample: with 129 widgets the texts start at offset 7236; the
texts of widgets 0..99, 255 bytes each, are accepted, so that of widget 99 is
the slice from 32481 to 32736.  The 32 bytes of widget 100 would be the slice
from 32736 to 32768, which ends with the last byte of the region and does not
extend past it; its length is forced to 0 all the same. -/
theorem load_widgets_drops_text_at_region_end :
    ∃ st', load_widgets 1 (stable shm_edge) (hud_init 800 480) =
        some (st', [event.clear_image]) ∧
      (st'.widget_ldata 99).nchar = 255 ∧ (st'.widget_ldata 99).textbuf = 32481 ∧
      text_off shm_edge 100 = 32736 ∧ (shm_edge.widgets 100).cnchar = 32 ∧
      32736 + 32 ≤ SHM_SIZE ∧ (st'.widget_ldata 100).nchar = 0 := by
  have h99 := load_pass_text shm_edge (hud_init 800 480) 99 (by decide)
  have h100 := load_pass_text shm_edge (hud_init 800 480) 100 (by decide)
  rw [text_off_edge 99 (by omega)] at h99
  rw [text_off_edge 100 (by omega)] at h100
  refine ⟨load_commit 1 129 (load_pass shm_edge (hud_init 800 480)), rfl, ?_, ?_,
    text_off_edge 100 (by omega), rfl, by decide, ?_⟩
  · exact h99.1
  · exact h99.2 (by decide)
  · exact h100.1

/-- C13, amended: when `load_widgets` commits pass `k`, the texts start at
`text_off 0`, right behind the `numwidgets` records, and for every widget `i`
in order, with `off = text_off i` the end of the texts accepted before it: if
`off + cnchar > SHM_SIZE - 1`, i.e. the slice would reach the last byte of the
region or beyond, the length is forced to 0 and the next slice starts at `off`
again; otherwise the widget keeps its length, its slice starts at `off` and
ends before the last byte of the region, and the next slice starts at
`off + cnchar`. -/
theorem load_widgets_text_slices (fuel k : Nat) (obs : Nat → shm_t × Nat) (st : hud_t)
    (hk : k < fuel)
    (htorn : ∀ j, j < k → (obs j).1.hdr.numwidgets ≤ MAXWIDGETS ∧
      (obs j).1.hdr.version ≠ (obs j).2)
    (hnw : (obs k).1.hdr.numwidgets ≤ MAXWIDGETS) (hv : (obs k).1.hdr.version = (obs k).2) :
    ∃ st', load_widgets fuel obs st = some (st', [event.clear_image]) ∧
      text_off (obs k).1 0 = sizeof_memheader_t + (obs k).1.hdr.numwidgets * sizeof_widget_t ∧
      ∀ i, i < (obs k).1.hdr.numwidgets →
        (text_off (obs k).1 i + ((obs k).1.widgets i).cnchar > SHM_SIZE - 1 →
          (st'.widget_ldata i).nchar = 0 ∧
          text_off (obs k).1 (i + 1) = text_off (obs k).1 i) ∧
        (text_off (obs k).1 i + ((obs k).1.widgets i).cnchar ≤ SHM_SIZE - 1 →
          (st'.widget_ldata i).nchar = ((obs k).1.widgets i).cnchar ∧
          (st'.widget_ldata i).textbuf = text_off (obs k).1 i ∧
          text_off (obs k).1 i + ((obs k).1.widgets i).cnchar < SHM_SIZE ∧
          text_off (obs k).1 (i + 1) =
            text_off (obs k).1 i + ((obs k).1.widgets i).cnchar) := by
  obtain ⟨st0, _, hl⟩ := load_widgets_commits_at k fuel obs st hk htorn hnw hv
  refine ⟨_, hl, rfl, fun i hi => ?_⟩
  obtain ⟨h1, h2⟩ := load_pass_text (obs k).1 st0 i hi
  have hstep : text_off (obs k).1 (i + 1) =
      (if text_off (obs k).1 i + ((obs k).1.widgets i).cnchar > SHM_SIZE - 1
        then text_off (obs k).1 i
        else text_off (obs k).1 i + ((obs k).1.widgets i).cnchar) := rfl
  constructor
  · intro hc
    rw [if_pos hc] at h1 hstep
    exact ⟨h1, hstep⟩
  · intro hc
    rw [if_neg (by omega)] at h1 hstep
    exact ⟨h1, h2 hc, by unfold SHM_SIZE at hc ⊢; omega, hstep⟩

/-- C13, amended, at a concrete input: one stable pass over the region with
one widget. -/
theorem load_widgets_text_slices_witness :
    ∃ st', load_widgets 1 (stable shm_one) (hud_init 800 480) =
        some (st', [event.clear_image]) ∧
      text_off (stable shm_one 0).1 0 =
        sizeof_memheader_t + (stable shm_one 0).1.hdr.numwidgets * sizeof_widget_t ∧
      ∀ i, i < (stable shm_one 0).1.hdr.numwidgets →
        (text_off (stable shm_one 0).1 i + ((stable shm_one 0).1.widgets i).cnchar >
            SHM_SIZE - 1 →
          (st'.widget_ldata i).nchar = 0 ∧
          text_off (stable shm_one 0).1 (i + 1) = text_off (stable shm_one 0).1 i) ∧
        (text_off (stable shm_one 0).1 i + ((stable shm_one 0).1.widgets i).cnchar ≤
            SHM_SIZE - 1 →
          (st'.widget_ldata i).nchar = ((stable shm_one 0).1.widgets i).cnchar ∧
          (st'.widget_ldata i).textbuf = text_off (stable shm_one 0).1 i ∧
          text_off (stable shm_one 0).1 i + ((stable shm_one 0).1.widgets i).cnchar <
            SHM_SIZE ∧
          text_off (stable shm_one 0).1 (i + 1) =
            text_off (stable shm_one 0).1 i + ((stable shm_one 0).1.widgets i).cnchar) :=
  load_widgets_text_slices 1 0 (stable shm_one) (hud_init 800 480) (by decide)
    (fun j hj => absurd hj (Nat.not_lt_zero j)) (by decide) rfl

/-- C20, counterexample: with one widget, whose text has 5 bytes, the text is
read at offset 68, behind the header of 12 bytes and one record of 56 bytes,
and not at offset `12 + 12 * 1`. -/
theorem load_widgets_text_not_behind_short_records :
    ∃ st', load_widgets 1 (stable shm_one) (hud_init 800 480) =
        some (st', [event.clear_image]) ∧
      shm_one.hdr.numwidgets = 1 ∧ (st'.widget_ldata 0).nchar = 5 ∧
      (st'.widget_ldata 0).textbuf = 68 ∧
      68 = sizeof_memheader_t + shm_one.hdr.numwidgets * sizeof_widget_t ∧
      68 ≠ 12 + 12 * shm_one.hdr.numwidgets := by
  have h0 := load_pass_text shm_one (hud_init 800 480) 0 (by decide)
  refine ⟨load_commit 1 1 (load_pass shm_one (hud_init 800 480)), rfl, rfl, ?_, ?_, rfl,
    by decide⟩
  · exact h0.1
  · exact h0.2 (by decide)

/-- C20, amended: when `load_widgets` commits pass `k`, which read
`nw <= 256` widgets, the texts are read from byte offset `12 + 56 * nw` on, the
header of 12 bytes being followed by `nw` records of 56 bytes, in widget order:
the text of widget `i` is read at `12 + 56 * nw` plus the committed lengths of
the widgets before it, provided that it ends before the last byte of the
region. -/
theorem load_widgets_text_blob_offset (fuel k : Nat) (obs : Nat → shm_t × Nat) (st : hud_t)
    (hk : k < fuel)
    (htorn : ∀ j, j < k → (obs j).1.hdr.numwidgets ≤ MAXWIDGETS ∧
      (obs j).1.hdr.version ≠ (obs j).2)
    (hnw : (obs k).1.hdr.numwidgets ≤ 256) (hv : (obs k).1.hdr.version = (obs k).2) :
    ∃ st', load_widgets fuel obs st = some (st', [event.clear_image]) ∧
      ∀ i, i < (obs k).1.hdr.numwidgets →
        12 + 56 * (obs k).1.hdr.numwidgets +
            ((List.range i).map (fun j => (st'.widget_ldata j).nchar)).sum +
            ((obs k).1.widgets i).cnchar ≤ SHM_SIZE - 1 →
        (st'.widget_ldata i).textbuf = 12 + 56 * (obs k).1.hdr.numwidgets +
          ((List.range i).map (fun j => (st'.widget_ldata j).nchar)).sum := by
  obtain ⟨st0, _, hl⟩ := load_widgets_commits_at k fuel obs st hk htorn hnw hv
  refine ⟨_, hl, fun i hi hfit => ?_⟩
  have hsum := text_off_sum (obs k).1
    (fun j => ((load_pass (obs k).1 st0).widget_ldata j).nchar) (obs k).1.hdr.numwidgets
    (fun j hj => (load_pass_text (obs k).1 st0 j hj).1) i (by omega)
  have h0 : text_off (obs k).1 0 = 12 + 56 * (obs k).1.hdr.numwidgets := by
    show sizeof_memheader_t + (obs k).1.hdr.numwidgets * sizeof_widget_t = _
    unfold sizeof_memheader_t sizeof_widget_t
    omega
  rw [h0] at hsum
  have hfit' : 12 + 56 * (obs k).1.hdr.numwidgets +
      ((List.range i).map (fun j => ((load_pass (obs k).1 st0).widget_ldata j).nchar)).sum +
      ((obs k).1.widgets i).cnchar ≤ SHM_SIZE - 1 := hfit
  rw [← hsum] at hfit'
  show ((load_pass (obs k).1 st0).widget_ldata i).textbuf = 12 + 56 * (obs k).1.hdr.numwidgets +
      ((List.range i).map (fun j => ((load_pass (obs k).1 st0).widget_ldata j).nchar)).sum
  rw [← hsum]
  exact (load_pass_text (obs k).1 st0 i hi).2 hfit'

/-- C20, amended, at a concrete input: one stable pass over the region with
one widget. -/
theorem load_widgets_text_blob_offset_witness :
    ∃ st', load_widgets 1 (stable shm_one) (hud_init 800 480) =
        some (st', [event.clear_image]) ∧
      ∀ i, i < (stable shm_one 0).1.hdr.numwidgets →
        12 + 56 * (stable shm_one 0).1.hdr.numwidgets +
            ((List.range i).map (fun j => (st'.widget_ldata j).nchar)).sum +
            ((stable shm_one 0).1.widgets i).cnchar ≤ SHM_SIZE - 1 →
        (st'.widget_ldata i).textbuf = 12 + 56 * (stable shm_one 0).1.hdr.numwidgets +
          ((List.range i).map (fun j => (st'.widget_ldata j).nchar)).sum :=
  load_widgets_text_blob_offset 1 0 (stable shm_one) (hud_init 800 480) (by decide)
    (fun j hj => absurd hj (Nat.not_lt_zero j)) (by decide) rfl

/-! ## A widget inside one tile -/

theorem sorted_bounded_length {l : List Nat} {n : Nat} (h : l.Pairwise (fun i j => i < j))
    (hb : ∀ w ∈ l, w < n) : l.length ≤ n := by
  have hnd : l.Nodup := h.imp (fun hij => ne_of_lt hij)
  have hsub : l.toFinset ⊆ Finset.range n := by
    intro w hw
    rw [List.mem_toFinset] at hw
    exact Finset.mem_range.2 (hb w hw)
  have := Finset.card_le_card hsub
  rw [List.toFinset_card_of_nodup hnd, Finset.card_range] at this
  exact this

/-- With the tile size that `main` derives for a 300x200 screen, 19x13 pixels,
the widget `(10, 10, 20, 20)` gets the tile range `tx = 0..1`, `ty = 0..2`, and
after `load_widgets` it is listed in tile `(0, 0)` and also in the tiles
`(1, 0)` and `(1, 2)`: the one-tile scenario needs the tiles of 50 pixels that
it names. -/
theorem load_widgets_small_screen_spans_tiles :
    (hud_init 300 200).tilesize_x = 19 ∧ (hud_init 300 200).tilesize_y = 13 ∧
    _TILEPOS (10 + 20) (hud_init 300 200).tilesize_x = 1 ∧
    _TILEPOS (10 + 20) (hud_init 300 200).tilesize_y = 2 ∧
    ∃ st', load_widgets 1 (stable shm_one) (hud_init 300 200) =
        some (st', [event.clear_image]) ∧
      tile_list st' 0 0 = [0] ∧ tile_list st' 1 0 = [0] ∧ tile_list st' 1 2 = [0] := by
  refine ⟨by decide, by decide, by decide, by decide,
    load_commit 1 1 (load_pass shm_one (hud_init 300 200)), rfl, ?_, ?_, ?_⟩
  · rw [load_commit_tile_list,
      (load_pass_tiles shm_one (hud_init 300 200) (by decide) 0 0 (by decide) (by decide)).2]
    decide
  · rw [load_commit_tile_list,
      (load_pass_tiles shm_one (hud_init 300 200) (by decide) 1 0 (by decide) (by decide)).2]
    decide
  · rw [load_commit_tile_list,
      (load_pass_tiles shm_one (hud_init 300 200) (by decide) 1 2 (by decide) (by decide)).2]
    decide

/-- C17, the failing input: against the producer `mem_race`, which stores the
records of its write while the pass runs, the pass reads record 0 of the old
write and record 1 of the new one and the same header version before and after,
and `load_widgets` commits: tile `(0, 0)` lists widget 0 as for the old write
alone, tile `(4, 6)` lists widget 1 as for the new write alone, and neither
write alone gives both. -/
theorem load_widgets_commits_mixed_table :
    (pass_view mem_race).1.widgets 0 = shm_two.widgets 0 ∧
    (pass_view mem_race).1.widgets 1 = shm_moved.widgets 1 ∧
    shm_two.widgets 0 ≠ shm_moved.widgets 0 ∧ shm_two.widgets 1 ≠ shm_moved.widgets 1 ∧
    (pass_view mem_race).1.hdr.version = (pass_view mem_race).2 ∧
    ∃ st' stA stB,
      load_widgets 1 (fun _ => pass_view mem_race) (hud_init 800 480) =
        some (st', [event.clear_image]) ∧
      load_widgets 1 (stable shm_two) (hud_init 800 480) = some (stA, [event.clear_image]) ∧
      load_widgets 1 (stable shm_moved) (hud_init 800 480) = some (stB, [event.clear_image]) ∧
      tile_list st' 0 0 = [0] ∧ tile_list st' 4 6 = [1] ∧
      tile_list stA 0 0 = [0, 1] ∧ tile_list stA 4 6 = [] ∧
      tile_list stB 0 0 = [] ∧ tile_list stB 4 6 = [1] := by
  refine ⟨rfl, rfl, by decide, by decide, rfl,
    load_commit 2 2 (load_pass (pass_view mem_race).1 (hud_init 800 480)),
    load_commit 1 2 (load_pass shm_two (hud_init 800 480)),
    load_commit 2 2 (load_pass shm_moved (hud_init 800 480)), rfl, rfl, rfl, ?_, ?_, ?_, ?_, ?_, ?_⟩
  · rw [load_commit_tile_list, (load_pass_tiles _ _ (by decide) 0 0 (by decide) (by decide)).2]
    decide
  · rw [load_commit_tile_list, (load_pass_tiles _ _ (by decide) 4 6 (by decide) (by decide)).2]
    decide
  · rw [load_commit_tile_list, (load_pass_tiles _ _ (by decide) 0 0 (by decide) (by decide)).2]
    decide
  · rw [load_commit_tile_list, (load_pass_tiles _ _ (by decide) 4 6 (by decide) (by decide)).2]
    decide
  · rw [load_commit_tile_list, (load_pass_tiles _ _ (by decide) 0 0 (by decide) (by decide)).2]
    decide
  · rw [load_commit_tile_list, (load_pass_tiles _ _ (by decide) 4 6 (by decide) (by decide)).2]
    decide

/-! ## Visibility flags across a reload -/

/-- C21, the failing input: the consumer has drawn the two-widget region, so
both `visible` flags are 1; the producer then writes two widgets of visibility
group 1 under the visibility word 0, which are not visible.  The frame reloads
the snapshot, leaves the flag of widget 0 at 1 (neither visibility test of line
422 holds, since the cached word was reset to 0), and draws both widgets in the
first rectangle. -/
theorem draw_widgets_draws_hidden_widget :
    IS_VISIBLE (shm_hidden.widgets 0) shm_hidden.hdr.visibility = false ∧
    IS_VISIBLE (shm_hidden.widgets 1) shm_hidden.hdr.visibility = false ∧
    (hud_two.widget_ldata 0).visible = 1 ∧
    (draw_widgets 1 (stable shm_hidden) shm_hidden hud_two).map
        (fun r => (r.1.cur_header.version, (r.1.widget_ldata 0).visible,
          (r.1.widget_ldata 1).visible, r.2.take 7)) =
      some (2, 1, 1, [event.clear_image, event.paint_run 0 0 800 30, event.clip_widget 0,
        event.draw 0 0, event.reclip_run 0 0 800 30, event.clip_widget 1, event.draw 0 1]) :=
  ⟨rfl, rfl, rfl, rfl⟩

/-! ## Run rectangles -/

theorem run_cols_mem_row (m : Nat) (hm : m < 2 ^ 16) (a b : Nat) :
    (a, b) ∈ run_cols 16 m 0 0 ↔ is_run m a b := by
  rw [run_cols_mem 16 _ 0 0 hm]
  constructor
  · rintro ⟨a', b', hr, rfl, rfl⟩
    rcases a' with _ | a'
    · simpa using hr
    · simpa using hr
  · intro hr
    refine ⟨a, b, hr, by omega, ?_⟩
    split_ifs with h
    · exact h
    · omega

/-- The paint loop on the 97x64 screen (tiles of 7x4 pixels) with the mask
`0xA000` in row 0: the run of column 13 is cut at the screen edge
(`cx = 97`), and the scan goes on from the cut `cx`: the run of column 15 is
painted as `(104, 0, -7, 4)`, whereas `15 * tilesize_x = 105` and
`min(16 * tilesize_x, screenw) - 105 = -8`. -/
theorem paint_row_shifted_after_clamp :
    screen_ok hud_gap ∧ hud_gap.tilesize_x = 7 ∧ hud_gap.dirty_bits 0 = 40960 ∧
    is_run 40960 13 13 ∧ is_run 40960 15 15 ∧
    paint_row hud_gap 0 (0 * hud_gap.tilesize_y) =
      some [⟨91, 0, 6, 4, []⟩, ⟨104, 0, -7, 4, []⟩] ∧
    (104 : Int) ≠ 15 * hud_gap.tilesize_x ∧
    (-7 : Int) ≠ min (((15 : Nat) + 1) * hud_gap.tilesize_x) hud_gap.screenw -
      15 * hud_gap.tilesize_x := by
  refine ⟨⟨by decide, by decide, by decide, by decide⟩, by decide, rfl, ?_, ?_, rfl, by decide,
    by decide⟩
  · refine ⟨le_rfl, fun c h1 h2 => ?_, Or.inr (by decide), by decide⟩
    obtain rfl : c = 13 := by omega
    decide
  · refine ⟨le_rfl, fun c h1 h2 => ?_, Or.inr (by decide), by decide⟩
    obtain rfl : c = 15 := by omega
    decide

/-- The run records of a row without an early cut: for every screen size, every
row `r` and every dirty mask `m` of the row in which no run that is followed by another dirty column ends right
of the screen edge (every mask, when `15 * tilesize_x <= screenw`), the paint
loop emits no rectangle when `m = 0` and otherwise one rectangle per maximal
run `[a, b]` of set bits of `m`, left to right, with `x = a * tilesize_x`,
`width = min((b + 1) * tilesize_x, screenw) - x`, `y = r * tilesize_y` and
height `tilesize_y`, for row 15 `screenh - 15 * tilesize_y`; the rectangles of
the pass are those of the rows 0..15 in order. -/
theorem paint_row_rectangles (st : hud_t) (r : Nat)
    (hclamp : no_early_clamp st (st.dirty_bits r % 65536) 0) :
    (∃ rs runs, paint_row st r (r * st.tilesize_y) = some rs ∧
      (∀ a b, (a, b) ∈ runs ↔ is_run (st.dirty_bits r % 65536) a b) ∧
      runs.Pairwise (fun p q => p.2 < q.2) ∧
      List.Forall₂
        (fun (p : run_t) (ab : Nat × Nat) =>
          p.x = ab.1 * st.tilesize_x ∧ p.y = r * st.tilesize_y ∧
          p.w = min ((ab.2 + 1) * st.tilesize_x) st.screenw - ab.1 * st.tilesize_x ∧
          p.h = if r = 15 then st.screenh - 15 * st.tilesize_y else st.tilesize_y)
        rs runs ∧
      (st.dirty_bits r % 65536 = 0 → rs = [])) ∧
    paint_runs st =
      (List.range 16).flatMap (fun r => (paint_row st r (r * st.tilesize_y)).getD []) := by
  refine ⟨?_, paint_runs_rows st⟩
  have hm : st.dirty_bits r % 65536 < 2 ^ 16 := Nat.mod_lt _ (by decide)
  obtain ⟨rs, h1, h2⟩ := paint_cols_rects st r (r * st.tilesize_y)
    (if r = 15 then st.screenh - r * st.tilesize_y else st.tilesize_y) 16
    (st.dirty_bits r % 65536) 0 0 0 [] 0 hm (by decide) (by simp) (by simp) hclamp
  refine ⟨rs, run_cols 16 (st.dirty_bits r % 65536) 0 0, h1, run_cols_mem_row _ hm,
    (run_cols_sorted 16 _ 0 0).2, ?_, ?_⟩
  · refine List.Forall₂.imp ?_ h2
    rintro p ab ⟨e1, e2, e3, e4⟩
    refine ⟨e1, e2, e3, ?_⟩
    rw [e4]
    by_cases h15 : r = 15
    · rw [if_pos h15, if_pos h15, h15]
      norm_num
    · rw [if_neg h15, if_neg h15]
  · intro h0
    rw [h0, run_cols_zero] at h2
    cases h2
    rfl

/-- The run records of row 0 of the 800x480 screen with every tile dirty. -/
theorem paint_row_rectangles_witness :
    (∃ rs runs, paint_row (mark_screen_dirty (hud_init 800 480)) 0
        (0 * (mark_screen_dirty (hud_init 800 480)).tilesize_y) = some rs ∧
      (∀ a b, (a, b) ∈ runs ↔
        is_run ((mark_screen_dirty (hud_init 800 480)).dirty_bits 0 % 65536) a b) ∧
      runs.Pairwise (fun p q => p.2 < q.2) ∧
      List.Forall₂
        (fun (p : run_t) (ab : Nat × Nat) =>
          p.x = ab.1 * (mark_screen_dirty (hud_init 800 480)).tilesize_x ∧
          p.y = 0 * (mark_screen_dirty (hud_init 800 480)).tilesize_y ∧
          p.w = min ((ab.2 + 1) * (mark_screen_dirty (hud_init 800 480)).tilesize_x)
              (mark_screen_dirty (hud_init 800 480)).screenw -
            ab.1 * (mark_screen_dirty (hud_init 800 480)).tilesize_x ∧
          p.h = if 0 = 15 then (mark_screen_dirty (hud_init 800 480)).screenh -
              15 * (mark_screen_dirty (hud_init 800 480)).tilesize_y
            else (mark_screen_dirty (hud_init 800 480)).tilesize_y)
        rs runs ∧
      ((mark_screen_dirty (hud_init 800 480)).dirty_bits 0 % 65536 = 0 → rs = [])) ∧
    paint_runs (mark_screen_dirty (hud_init 800 480)) =
      (List.range 16).flatMap
        (fun r => (paint_row (mark_screen_dirty (hud_init 800 480)) r
          (r * (mark_screen_dirty (hud_init 800 480)).tilesize_y)).getD []) :=
  paint_row_rectangles (mark_screen_dirty (hud_init 800 480)) 0
    (no_early_clamp_of_fit (mark_screen_dirty (hud_init 800 480)) (by decide) (by decide)
      (Nat.mod_lt _ (by decide)))

/-! ## The blit loop follows the paint loop -/

theorem load_widgets_events (fuel : Nat) :
    ∀ (obs : Nat → shm_t × Nat) (st st' : hud_t) (evs : List event),
      load_widgets fuel obs st = some (st', evs) → evs = [] ∨ evs = [event.clear_image] := by
  induction fuel with
  | zero => intro obs st st' evs h; simp [load_widgets] at h
  | succ f ih =>
    intro obs st st' evs h
    rw [load_widgets] at h
    simp only at h
    by_cases h1 : (obs 0).1.hdr.numwidgets > MAXWIDGETS
    · rw [if_pos h1] at h
      simp only [Option.some.injEq, Prod.mk.injEq] at h
      exact Or.inl h.2.symm
    · rw [if_neg h1] at h
      by_cases h2 : (obs 0).1.hdr.version = (obs 0).2
      · rw [if_pos h2] at h
        simp only [Option.some.injEq, Prod.mk.injEq] at h
        exact Or.inr h.2.symm
      · rw [if_neg h2] at h
        exact ih _ _ _ _ h

theorem run_events_painted (shm : shm_t) (x y w h : Int) (l : List Nat) :
    ∀ i, (draw_updates shm x y w h i l).filterMap event.painted = [] ∧
      (draw_updates shm x y w h i l).filterMap event.blitted = [] := by
  induction l with
  | nil => intro i; exact ⟨rfl, rfl⟩
  | cons a l ih =>
    intro i
    obtain ⟨h1, h2⟩ := ih (i + 1)
    rw [draw_updates]
    simp only [List.filterMap_append, h1, h2]
    constructor
    · split_ifs <;> rfl
    · split_ifs <;> rfl

theorem runs_painted (shm : shm_t) (runs : List run_t) :
    (runs.flatMap (run_events shm)).filterMap event.painted = runs.map run_t.rect ∧
    (runs.flatMap (run_events shm)).filterMap event.blitted = [] ∧
    (runs.map run_t.blit).filterMap event.painted = [] ∧
    (runs.map run_t.blit).filterMap event.blitted = runs.map run_t.rect := by
  induction runs with
  | nil => exact ⟨rfl, rfl, rfl, rfl⟩
  | cons r runs ih =>
    obtain ⟨h1, h2, h3, h4⟩ := ih
    obtain ⟨d1, d2⟩ := run_events_painted shm r.x r.y r.w r.h r.widgets 0
    refine ⟨?_, ?_, ?_, ?_⟩
    · rw [List.flatMap_cons, List.filterMap_append, h1, run_events, List.filterMap_cons, d1]
      rfl
    · rw [List.flatMap_cons, List.filterMap_append, h2, run_events, List.filterMap_cons, d2]
      rfl
    · rw [List.map_cons, List.filterMap_cons, h3]
      rfl
    · rw [List.map_cons, List.filterMap_cons, h4]
      rfl

/-- C23: in every call of `draw_widgets` that returns, the sequence of
rectangles passed to the blitter equals, in number, order and coordinates, the
sequence of run rectangles cleared and painted by the same call; and for every
dirty bitmap and screen size the paint loop and the blit loop run to their end,
the blit loop calling the blitter once for each run of the paint loop, in
order, with the rectangle of the run. -/
theorem blit_loop_follows_paint_loop (fuel : Nat) (obs : Nat → shm_t × Nat) (shm : shm_t)
    (st st' : hud_t) (evs : List event) (h : draw_widgets fuel obs shm st = some (st', evs)) :
    evs.filterMap event.blitted = evs.filterMap event.painted ∧
    ∀ s : hud_t, ∃ runs, paint_loop s = some runs ∧ blit_loop s = some (runs.map run_t.blit) ∧
      (runs.flatMap (run_events shm)).filterMap event.painted = runs.map run_t.rect ∧
      (runs.map run_t.blit).filterMap event.blitted = runs.map run_t.rect := by
  refine ⟨?_, fun s => ⟨paint_runs s, paint_loop_eq s, blit_loop_eq s, (runs_painted shm _).1,
    (runs_painted shm _).2.2.2⟩⟩
  have hvt : (vt_switch st).2.filterMap event.blitted = [] ∧
      (vt_switch st).2.filterMap event.painted = [] := by
    unfold vt_switch
    by_cases h1 : st.vt_active ≠ st.vt_active_requested
    · rw [if_pos h1]
      simp only
      by_cases h2 : st.vt_active_requested ≠ 0
      · rw [if_pos h2]; exact ⟨rfl, rfl⟩
      · rw [if_neg h2]; exact ⟨rfl, rfl⟩
    · rw [if_neg h1]; exact ⟨rfl, rfl⟩
  unfold draw_widgets at h
  simp only at h
  by_cases hact : (vt_switch st).1.vt_active = 0
  · rw [if_pos hact] at h
    simp only [Option.some.injEq] at h
    have e : evs = (vt_switch st).2 := by rw [h]
    rw [e, hvt.1, hvt.2]
  · rw [if_neg hact, draw_owned_eq] at h
    by_cases hver : (vt_switch st).1.cur_header.version ≠ shm.hdr.version
    · rw [if_pos hver] at h
      cases hl : load_widgets fuel obs (vt_switch st).1 with
      | none => rw [hl] at h; simp at h
      | some r =>
        obtain ⟨sA, ev1⟩ := r
        rw [hl] at h
        simp only [Option.map_some', Option.some.injEq, Prod.mk.injEq] at h
        rw [← h.2]
        obtain ⟨p1, p2, p3, p4⟩ := runs_painted shm
          (paint_runs (detect_changes shm shm.hdr.visibility sA))
        simp only [List.filterMap_append, hvt.1, hvt.2, p1, p2, p3, p4]
        rcases load_widgets_events fuel obs _ sA ev1 hl with rfl | rfl
        · simp
        · simp [event.blitted, event.painted]
    · rw [if_neg hver] at h
      simp only [Option.map_some', Option.some.injEq, Prod.mk.injEq] at h
      rw [← h.2]
      obtain ⟨p1, p2, p3, p4⟩ := runs_painted shm
        (paint_runs (detect_changes shm shm.hdr.visibility (vt_switch st).1))
      simp only [List.filterMap_append, hvt.1, hvt.2, p1, p2, p3, p4]
      simp

/-- C23, at a concrete input: the first frame over the two-widget region on
the 800x480 screen. -/
theorem blit_loop_follows_paint_loop_witness :
    ((draw_widgets 1 (stable shm_two) shm_two
        (load_commit 1 2 (load_pass shm_two (hud_init 800 480)))).getD
          (hud_init 800 480, [])).2.filterMap event.blitted =
      ((draw_widgets 1 (stable shm_two) shm_two
        (load_commit 1 2 (load_pass shm_two (hud_init 800 480)))).getD
          (hud_init 800 480, [])).2.filterMap event.painted :=
  (blit_loop_follows_paint_loop 1 (stable shm_two) shm_two
    (load_commit 1 2 (load_pass shm_two (hud_init 800 480)))
    ((draw_widgets 1 (stable shm_two) shm_two
      (load_commit 1 2 (load_pass shm_two (hud_init 800 480)))).getD (hud_init 800 480, [])).1
    ((draw_widgets 1 (stable shm_two) shm_two
      (load_commit 1 2 (load_pass shm_two (hud_init 800 480)))).getD (hud_init 800 480, [])).2
    rfl).1

/-! ## A suspended display -/

/-- C25: when the requested VT state is inactive on entry, `draw_widgets`
returns before the reload test: the only call it can make is the `VT_RELDISP`
acknowledgement of the release (when the display was still active), it emits no
rectangle, clears nothing and reloads nothing, and the dirty bitmap, the cached
header, the local widget records and the tile index are the ones on entry. -/
theorem draw_widgets_suspended (fuel : Nat) (obs : Nat → shm_t × Nat) (shm : shm_t)
    (st : hud_t) (h : st.vt_active_requested = 0) :
    ∃ st' evs, draw_widgets fuel obs shm st = some (st', evs) ∧
      evs = (if st.vt_active ≠ 0 then [event.reldisp 1] else []) ∧
      evs.filterMap event.painted = [] ∧ evs.filterMap event.blitted = [] ∧
      event.clear_image ∉ evs ∧
      st'.vt_active = 0 ∧ st'.vt_active_requested = 0 ∧
      st'.dirty_bits = st.dirty_bits ∧ st'.cur_header = st.cur_header ∧
      st'.widget_ldata = st.widget_ldata ∧
      st'.tile_widgets = st.tile_widgets ∧ st'.tile_nwidgets = st.tile_nwidgets := by
  unfold draw_widgets
  simp only
  by_cases ha : st.vt_active = 0
  · rw [vt_switch_same st (by rw [ha, h]), if_pos ha]
    refine ⟨st, [], rfl, by rw [if_neg (by simpa using ha)], rfl, rfl, by simp, ha, h,
      rfl, rfl, rfl, rfl, rfl⟩
  · have hs : vt_switch st =
        ({ st with vt_active := st.vt_active_requested }, [event.reldisp 1]) := by
      unfold vt_switch
      rw [if_pos (by rw [h]; exact ha)]
      simp only
      rw [if_neg (by simpa using h), if_neg (by simpa using h)]
    rw [hs]
    simp only
    rw [if_pos h]
    refine ⟨_, _, rfl, by rw [if_pos ha], rfl, rfl, by simp, h, h, rfl, rfl, rfl, rfl, rfl⟩

/-- C25, at a concrete input: the two-widget state with every tile marked
dirty and the release of the display requested. -/
theorem draw_widgets_suspended_witness :
    ∃ st' evs, draw_widgets 1 (stable shm_two) shm_two
        { mark_screen_dirty hud_two with vt_active_requested := 0 } = some (st', evs) ∧
      evs = (if ({ mark_screen_dirty hud_two with vt_active_requested := 0 } : hud_t).vt_active
        ≠ 0 then [event.reldisp 1] else []) ∧
      evs.filterMap event.painted = [] ∧ evs.filterMap event.blitted = [] ∧
      event.clear_image ∉ evs ∧
      st'.vt_active = 0 ∧ st'.vt_active_requested = 0 ∧
      st'.dirty_bits =
        ({ mark_screen_dirty hud_two with vt_active_requested := 0 } : hud_t).dirty_bits ∧
      st'.cur_header =
        ({ mark_screen_dirty hud_two with vt_active_requested := 0 } : hud_t).cur_header ∧
      st'.widget_ldata =
        ({ mark_screen_dirty hud_two with vt_active_requested := 0 } : hud_t).widget_ldata ∧
      st'.tile_widgets =
        ({ mark_screen_dirty hud_two with vt_active_requested := 0 } : hud_t).tile_widgets ∧
      st'.tile_nwidgets =
        ({ mark_screen_dirty hud_two with vt_active_requested := 0 } : hud_t).tile_nwidgets :=
  draw_widgets_suspended 1 (stable shm_two) shm_two
    { mark_screen_dirty hud_two with vt_active_requested := 0 } rfl

/-! ## Widgets without a draw routine -/

theorem draw_updates_draw (shm : shm_t) (x y w h : Int) (t j : Nat) (l : List Nat) :
    ∀ i, event.draw t j ∈ draw_updates shm x y w h i l →
      j ∈ l ∧ (shm.widgets j).ctype = t ∧ t < 1 := by
  induction l with
  | nil => intro i hm; simp [draw_updates] at hm
  | cons a l ih =>
    intro i hm
    rw [draw_updates] at hm
    simp only [List.mem_append] at hm
    rcases hm with ((((hm | hm) | hm) | hm) | hm)
    · split_ifs at hm <;> simp at hm
    · simp at hm
    · split_ifs at hm <;> simp at hm
    · split_ifs at hm with hc
      · simp only [List.mem_singleton, event.draw.injEq] at hm
        obtain ⟨rfl, rfl⟩ := hm
        exact ⟨List.mem_cons_self _ _, rfl, hc⟩
      · simp at hm
    · obtain ⟨h1, h2⟩ := ih (i + 1) hm
      exact ⟨List.mem_cons_of_mem _ h1, h2⟩

/-- C26, counterexample: the first frame over a region whose one widget has
type 1 and a background colour: in both rows that the widget spans, the clip is
set to its box and its background is painted; only the call of the draw routine
is left out. -/
theorem draw_widgets_paints_background_of_unknown_type :
    (shm_typed.widgets 0).ctype = 1 ∧ (shm_typed.widgets 0).cbg ≠ 0 ∧
    ((load_widgets 1 (stable shm_typed) (hud_init 800 480)).bind
        (fun r => draw_widgets 1 (stable shm_typed) shm_typed r.1)).map
        (fun r => ((r.1.widget_ldata 0).visible, r.2.take 7)) =
      some (1, [event.paint_run 0 0 800 30, event.clip_widget 0, event.paint_bg 0,
        event.paint_run 0 30 800 30, event.clip_widget 0, event.paint_bg 0,
        event.paint_run 0 60 800 30]) :=
  ⟨rfl, by decide, rfl⟩

/-- C26, amended: in the paint pass, for a widget of the update list whose
type has no draw routine (`type >= 1`), the run rectangle is clipped again
(unless the widget is the first of the run), the clip is set to the box of the
widget and the background is painted if `cbg` is not 0; only the call of the
draw routine is left out, in every run, and the pass continues with the next
widget of the list. -/
theorem draw_updates_skips_draw_routine (shm : shm_t) (x y w h : Int) (i wjtnum : Nat)
    (rest : List Nat) (htype : 1 ≤ (shm.widgets wjtnum).ctype) :
    draw_updates shm x y w h i (wjtnum :: rest) =
      (if i ≠ 0 then [event.reclip_run x y w h] else []) ++ [event.clip_widget wjtnum] ++
        (if (shm.widgets wjtnum).cbg ≠ 0 then [event.paint_bg wjtnum] else []) ++
        draw_updates shm x y w h (i + 1) rest ∧
    ∀ (r : run_t) (t : Nat), event.draw t wjtnum ∉ run_events shm r := by
  constructor
  · have hc : ¬ (shm.widgets wjtnum).ctype < 1 := by omega
    rw [draw_updates]
    simp only [if_neg hc, List.append_nil]
  · intro r t hm
    unfold run_events at hm
    rcases List.mem_cons.1 hm with hm | hm
    · simp at hm
    · obtain ⟨_, h2, h3⟩ := draw_updates_draw shm r.x r.y r.w r.h t wjtnum r.widgets 0 hm
      omega

/-- C26, amended, at a concrete input: the widget of type 1 as the only entry
of the update list of the first run. -/
theorem draw_updates_skips_draw_routine_witness :
    draw_updates shm_typed 0 0 800 30 0 (0 :: []) =
      (if 0 ≠ 0 then [event.reclip_run 0 0 800 30] else []) ++ [event.clip_widget 0] ++
        (if (shm_typed.widgets 0).cbg ≠ 0 then [event.paint_bg 0] else []) ++
        draw_updates shm_typed 0 0 800 30 (0 + 1) [] ∧
    ∀ (r : run_t) (t : Nat), event.draw t 0 ∉ run_events shm_typed r :=
  draw_updates_skips_draw_routine shm_typed 0 0 800 30 0 0 [] (by decide)

/-! ## The first change detection after a commit -/

theorem load_widget_last_version (shm : shm_t) (s : hud_t × Nat) (i : Nat) :
    ((load_widget shm s i).1.widget_ldata i).last_version =
      ((shm.widgets i).version + 4294967296 - 1) % 4294967296 := by
  unfold load_widget
  simp only
  rw [Function.update_same]

theorem load_loop_last_version (shm : shm_t) (s0 : hud_t × Nat) (n : Nat) :
    ∀ i, i < n → ((load_loop shm n s0).1.widget_ldata i).last_version =
      ((shm.widgets i).version + 4294967296 - 1) % 4294967296 := by
  induction n with
  | zero => intro i hi; omega
  | succ n ih =>
    intro i hi
    rw [load_loop_succ]
    by_cases hin : i = n
    · subst hin
      exact load_widget_last_version shm _ i
    · rw [(load_widget_text shm (load_loop shm n s0) n).2.1 i hin]
      exact ih i (by omega)

theorem detect_widget_other (shm : shm_t) (nv : Nat) (s : hud_t) (i j : Nat) (hj : j ≠ i) :
    (detect_widget shm nv s i).widget_ldata j = s.widget_ldata j := by
  unfold detect_widget
  simp only
  by_cases hch : changed shm nv s i
  · rw [if_pos ((detect_widget_cond shm nv s i).2 hch)]
    simp only
    rw [Function.update_noteq hj]
  · rw [if_neg (fun h => hch ((detect_widget_cond shm nv s i).1 h))]

theorem detect_widget_changed (shm : shm_t) (nv : Nat) (s : hud_t) (i : Nat)
    (hch : changed shm nv s i) :
    ((detect_widget shm nv s i).widget_ldata i).visible =
      (if IS_VISIBLE (shm.widgets i) nv then 1 else 0) ∧
    ((detect_widget shm nv s i).widget_ldata i).last_version = (shm.widgets i).version := by
  unfold detect_widget
  simp only
  rw [if_pos ((detect_widget_cond shm nv s i).2 hch)]
  simp only
  rw [Function.update_same]
  exact ⟨rfl, rfl⟩

/-- The record of widget `i` after the detection loop is the one that the
round of widget `i` leaves, which depends on the record of `i` and the cached
header on entry only. -/
theorem detect_fold_changed (shm : shm_t) (nv : Nat) (st : hud_t) (n : Nat) :
    ∀ i, i < n → changed shm nv st i →
      (((List.range n).foldl (detect_widget shm nv) st).widget_ldata i).visible =
        (if IS_VISIBLE (shm.widgets i) nv then 1 else 0) ∧
      (((List.range n).foldl (detect_widget shm nv) st).widget_ldata i).last_version =
        (shm.widgets i).version := by
  induction n with
  | zero => intro i hi; omega
  | succ n ih =>
    intro i hi hch
    obtain ⟨inv1, inv2, _⟩ := detect_fold_inv shm nv st n
    rw [List.range_succ, List.foldl_append, List.foldl_cons, List.foldl_nil]
    by_cases hin : i = n
    · subst hin
      apply detect_widget_changed
      unfold changed at hch ⊢
      rw [inv1, inv2 i le_rfl]
      exact hch
    · rw [detect_widget_other shm nv _ n i hin]
      exact ih i (by omega) hch

/-- C24: when `load_widgets` commits pass `k`, every widget has `last_version`
equal to its version minus 1 modulo `2^32`, which differs from its version for
every 32-bit version; so in the next change detection over records with these
versions, every widget that is visible under the visibility word `nv` read by
the detection is treated as changed: its `visible` flag is set, the rows
`ty1..ty2` of the bitmap are OR-ed with its dirty mask, and `last_version`
becomes its version. -/
theorem load_widgets_forces_first_change (fuel k : Nat) (obs : Nat → shm_t × Nat)
    (st : hud_t) (shm : shm_t) (nv : Nat) (hk : k < fuel)
    (htorn : ∀ j, j < k → (obs j).1.hdr.numwidgets ≤ MAXWIDGETS ∧
      (obs j).1.hdr.version ≠ (obs j).2)
    (hnw : (obs k).1.hdr.numwidgets ≤ MAXWIDGETS) (hv : (obs k).1.hdr.version = (obs k).2)
    (hver : ∀ i, i < (obs k).1.hdr.numwidgets → ((obs k).1.widgets i).version < 4294967296)
    (hsame : ∀ i, i < (obs k).1.hdr.numwidgets →
      (shm.widgets i).version = ((obs k).1.widgets i).version) :
    ∃ st', load_widgets fuel obs st = some (st', [event.clear_image]) ∧
      ∀ i, i < (obs k).1.hdr.numwidgets →
        (st'.widget_ldata i).last_version =
          (((obs k).1.widgets i).version + 4294967296 - 1) % 4294967296 ∧
        (st'.widget_ldata i).last_version ≠ ((obs k).1.widgets i).version ∧
        (IS_VISIBLE (shm.widgets i) nv = true →
          changed shm nv st' i ∧
          ((detect_changes shm nv st').widget_ldata i).visible = 1 ∧
          ((detect_changes shm nv st').widget_ldata i).last_version = (shm.widgets i).version ∧
          ∀ r c, (st'.widget_ldata i).ty1 ≤ r → r ≤ (st'.widget_ldata i).ty2 →
            ((st'.widget_ldata i).dirty_mask).testBit c = true →
            ((detect_changes shm nv st').dirty_bits r).testBit c = true) := by
  obtain ⟨st0, _, hl⟩ := load_widgets_commits_at k fuel obs st hk htorn hnw hv
  refine ⟨_, hl, fun i hi => ?_⟩
  have hlv : ((load_commit (obs k).1.hdr.version (obs k).1.hdr.numwidgets
      (load_pass (obs k).1 st0)).widget_ldata i).last_version =
      (((obs k).1.widgets i).version + 4294967296 - 1) % 4294967296 :=
    load_loop_last_version (obs k).1 _ _ i hi
  have hne : ((load_commit (obs k).1.hdr.version (obs k).1.hdr.numwidgets
      (load_pass (obs k).1 st0)).widget_ldata i).last_version ≠ ((obs k).1.widgets i).version := by
    rw [hlv]
    have := hver i hi
    omega
  refine ⟨hlv, hne, fun hvis => ?_⟩
  have hch : changed shm nv (load_commit (obs k).1.hdr.version (obs k).1.hdr.numwidgets
      (load_pass (obs k).1 st0)) i := by
    left
    exact ⟨hvis, by rw [hsame i hi]; exact fun h => hne h.symm⟩
  obtain ⟨d1, d2⟩ := detect_fold_changed shm nv (load_commit (obs k).1.hdr.version
    (obs k).1.hdr.numwidgets (load_pass (obs k).1 st0)) (obs k).1.hdr.numwidgets i hi hch
  rw [hvis] at d1
  refine ⟨hch, d1, d2, fun r c h1 h2 h3 => ?_⟩
  exact ((detect_fold_inv shm nv _ (obs k).1.hdr.numwidgets).2.2 r c).2
    (Or.inr ⟨i, hi, hch, h1, h2, h3⟩)

/-- C24, at a concrete input: one stable pass over the region with one widget,
followed by the detection over the same region. -/
theorem load_widgets_forces_first_change_witness :
    ∃ st', load_widgets 1 (stable shm_one) (hud_init 800 480) =
        some (st', [event.clear_image]) ∧
      ∀ i, i < (stable shm_one 0).1.hdr.numwidgets →
        (st'.widget_ldata i).last_version =
          (((stable shm_one 0).1.widgets i).version + 4294967296 - 1) % 4294967296 ∧
        (st'.widget_ldata i).last_version ≠ ((stable shm_one 0).1.widgets i).version ∧
        (IS_VISIBLE (shm_one.widgets i) 0 = true →
          changed shm_one 0 st' i ∧
          ((detect_changes shm_one 0 st').widget_ldata i).visible = 1 ∧
          ((detect_changes shm_one 0 st').widget_ldata i).last_version =
            (shm_one.widgets i).version ∧
          ∀ r c, (st'.widget_ldata i).ty1 ≤ r → r ≤ (st'.widget_ldata i).ty2 →
            ((st'.widget_ldata i).dirty_mask).testBit c = true →
            ((detect_changes shm_one 0 st').dirty_bits r).testBit c = true) :=
  load_widgets_forces_first_change 1 0 (stable shm_one) (hud_init 800 480) shm_one 0
    (by decide) (fun j hj => absurd hj (Nat.not_lt_zero j)) (by decide) rfl
    (fun _ _ => (by decide : (5 : Nat) < 4294967296)) (fun _ _ => rfl)

/-! ## Bounds of the widget indices -/

theorem tile_list_congr {s t : hud_t} (h1 : s.tile_widgets = t.tile_widgets)
    (h2 : s.tile_nwidgets = t.tile_nwidgets) (x y : Nat) : tile_list s x y = tile_list t x y := by
  unfold tile_list
  rw [h1, h2]

theorem paint_runs_widgets (s : hud_t) (p : run_t) (hp : p ∈ paint_runs s) :
    p.widgets.Pairwise (fun i j => i < j) ∧
      ∀ w ∈ p.widgets, ∃ c cty, c < 16 ∧ cty < 16 ∧ w ∈ tile_list s c cty := by
  rw [paint_runs_rows, List.mem_flatMap] at hp
  obtain ⟨r, hr, hp⟩ := hp
  rw [List.mem_range] at hr
  have hlt : s.dirty_bits r % 65536 < 2 ^ 16 := Nat.mod_lt _ (by decide)
  obtain ⟨rs, h1, h2⟩ := paint_cols_widgets s r (r * s.tilesize_y)
    (if r = 15 then s.screenh - r * s.tilesize_y else s.tilesize_y) 16
    (s.dirty_bits r % 65536) 0 0 0 [] 0 hlt (by decide) (fun _ => le_rfl) List.Pairwise.nil
    (fun w => by simp)
  have hrow : paint_row s r (r * s.tilesize_y) = some rs := h1
  rw [hrow, Option.getD_some] at hp
  obtain ⟨⟨a, b⟩, hab, hsorted, hmem⟩ := forall₂_mem_left h2 p hp
  rw [run_cols_mem_row _ hlt] at hab
  have hb15 : b < 16 := by
    have hbit := hab.2.1 b hab.1 le_rfl
    by_contra hge
    have : (s.dirty_bits r % 65536).testBit b = false :=
      Nat.testBit_lt_two_pow (lt_of_lt_of_le hlt (Nat.pow_le_pow_right (by decide) (by omega)))
    rw [this] at hbit
    exact Bool.false_ne_true hbit
  refine ⟨hsorted, fun w hw => ?_⟩
  obtain ⟨_, c, _, hc2, hin⟩ := (hmem w).1 hw
  simp only at hc2
  exact ⟨c, r, by omega, hr, hin⟩

/-- C27: when `load_widgets` commits pass `k`, the cached `numwidgets` is at
most 256 and every index in a tile list is smaller than it.  In every state
with this tile index, an update list that is strictly ascending with entries
below `numwidgets` stays so when a widget of a tile list is inserted and when
the visible widgets of a tile are collected, its length never exceeds
`numwidgets`; and the update list of every run of the paint loop is strictly
ascending, has entries below `numwidgets` and at most `numwidgets` of them. -/
theorem load_widgets_indices_in_bounds (fuel k : Nat) (obs : Nat → shm_t × Nat) (st : hud_t)
    (hk : k < fuel)
    (htorn : ∀ j, j < k → (obs j).1.hdr.numwidgets ≤ MAXWIDGETS ∧
      (obs j).1.hdr.version ≠ (obs j).2)
    (hnw : (obs k).1.hdr.numwidgets ≤ 256) (hv : (obs k).1.hdr.version = (obs k).2) :
    ∃ st', load_widgets fuel obs st = some (st', [event.clear_image]) ∧
      st'.cur_header.numwidgets ≤ 256 ∧
      (∀ x y, x < 16 → y < 16 → ∀ j ∈ tile_list st' x y, j < st'.cur_header.numwidgets) ∧
      ∀ s : hud_t, s.tile_widgets = st'.tile_widgets → s.tile_nwidgets = st'.tile_nwidgets →
        (∀ w upd, w < st'.cur_header.numwidgets → upd.Pairwise (fun i j => i < j) →
          (∀ v ∈ upd, v < st'.cur_header.numwidgets) →
          (insert_update w upd).Pairwise (fun i j => i < j) ∧
          (∀ v ∈ insert_update w upd, v < st'.cur_header.numwidgets) ∧
          (insert_update w upd).length ≤ st'.cur_header.numwidgets) ∧
        (∀ ctx cty upd, ctx < 16 → cty < 16 → upd.Pairwise (fun i j => i < j) →
          (∀ v ∈ upd, v < st'.cur_header.numwidgets) →
          (collect_tile s ctx cty upd).Pairwise (fun i j => i < j) ∧
          (∀ v ∈ collect_tile s ctx cty upd, v < st'.cur_header.numwidgets) ∧
          (collect_tile s ctx cty upd).length ≤ st'.cur_header.numwidgets) ∧
        ∀ p ∈ paint_runs s, p.widgets.Pairwise (fun i j => i < j) ∧
          (∀ v ∈ p.widgets, v < st'.cur_header.numwidgets) ∧
          p.widgets.length ≤ st'.cur_header.numwidgets := by
  obtain ⟨st0, _, hl⟩ := load_widgets_commits_at k fuel obs st hk htorn hnw hv
  have htl : ∀ x y, x < 16 → y < 16 →
      ∀ j ∈ tile_list (load_commit (obs k).1.hdr.version (obs k).1.hdr.numwidgets
        (load_pass (obs k).1 st0)) x y, j < (obs k).1.hdr.numwidgets := by
    intro x y hx hy j hj
    rw [load_commit_tile_list, (load_pass_tiles (obs k).1 st0 hnw x y hx hy).2] at hj
    have := List.mem_of_mem_take hj
    rw [List.mem_filter, List.mem_range] at this
    exact this.1
  refine ⟨_, hl, hnw, htl, fun s hs1 hs2 => ⟨?_, ?_, ?_⟩⟩
  · intro w upd hw hsorted hbound
    have h1 := insert_update_sorted w upd hsorted
    have h2 : ∀ v ∈ insert_update w upd, v < (obs k).1.hdr.numwidgets := by
      intro v hv'
      rcases (insert_update_mem w upd v).1 hv' with rfl | hv'
      · exact hw
      · exact hbound v hv'
    exact ⟨h1, h2, sorted_bounded_length h1 h2⟩
  · intro ctx cty upd hctx hcty hsorted hbound
    obtain ⟨h1, h2⟩ := collect_tile_spec s ctx cty upd hsorted
    have h3 : ∀ v ∈ collect_tile s ctx cty upd, v < (obs k).1.hdr.numwidgets := by
      intro v hv'
      rcases (h2 v).1 hv' with hv' | ⟨hv', _⟩
      · exact hbound v hv'
      · rw [tile_list_congr hs1 hs2] at hv'
        exact htl ctx cty hctx hcty v hv'
    exact ⟨h1, h3, sorted_bounded_length h1 h3⟩
  · intro p hp
    obtain ⟨h1, h2⟩ := paint_runs_widgets s p hp
    have h3 : ∀ v ∈ p.widgets, v < (obs k).1.hdr.numwidgets := by
      intro v hv'
      obtain ⟨c, cty, hc, hcty, hin⟩ := h2 v hv'
      rw [tile_list_congr hs1 hs2] at hin
      exact htl c cty hc hcty v hin
    exact ⟨h1, h3, sorted_bounded_length h1 h3⟩

/-- C27, at a concrete input: one stable pass over the two-widget region. -/
theorem load_widgets_indices_in_bounds_witness :
    ∃ st', load_widgets 1 (stable shm_two) (hud_init 800 480) =
        some (st', [event.clear_image]) ∧
      st'.cur_header.numwidgets ≤ 256 ∧
      (∀ x y, x < 16 → y < 16 → ∀ j ∈ tile_list st' x y, j < st'.cur_header.numwidgets) ∧
      ∀ s : hud_t, s.tile_widgets = st'.tile_widgets → s.tile_nwidgets = st'.tile_nwidgets →
        (∀ w upd, w < st'.cur_header.numwidgets → upd.Pairwise (fun i j => i < j) →
          (∀ v ∈ upd, v < st'.cur_header.numwidgets) →
          (insert_update w upd).Pairwise (fun i j => i < j) ∧
          (∀ v ∈ insert_update w upd, v < st'.cur_header.numwidgets) ∧
          (insert_update w upd).length ≤ st'.cur_header.numwidgets) ∧
        (∀ ctx cty upd, ctx < 16 → cty < 16 → upd.Pairwise (fun i j => i < j) →
          (∀ v ∈ upd, v < st'.cur_header.numwidgets) →
          (collect_tile s ctx cty upd).Pairwise (fun i j => i < j) ∧
          (∀ v ∈ collect_tile s ctx cty upd, v < st'.cur_header.numwidgets) ∧
          (collect_tile s ctx cty upd).length ≤ st'.cur_header.numwidgets) ∧
        ∀ p ∈ paint_runs s, p.widgets.Pairwise (fun i j => i < j) ∧
          (∀ v ∈ p.widgets, v < st'.cur_header.numwidgets) ∧
          p.widgets.length ≤ st'.cur_header.numwidgets :=
  load_widgets_indices_in_bounds 1 0 (stable shm_two) (hud_init 800 480) (by decide)
    (fun j hj => absurd hj (Nat.not_lt_zero j)) (by decide) rfl

/-! ## The widgets drawn for a run -/

theorem draw_updates_widgets (shm : shm_t) (x y w h : Int) (l : List Nat) :
    ∀ i, (draw_updates shm x y w h i l).filterMap event.clipped = l ∧
      (draw_updates shm x y w h i l).filterMap event.drawn =
        l.filter (fun j => decide ((shm.widgets j).ctype < 1)) := by
  induction l with
  | nil => intro i; exact ⟨rfl, rfl⟩
  | cons a l ih =>
    intro i
    obtain ⟨h1, h2⟩ := ih (i + 1)
    have c1 : (if i ≠ 0 then [event.reclip_run x y w h] else []).filterMap event.clipped = [] := by
      split_ifs <;> rfl
    have c2 : (if (shm.widgets a).cbg ≠ 0 then [event.paint_bg a] else []).filterMap
        event.clipped = [] := by
      split_ifs <;> rfl
    have c3 : (if (shm.widgets a).ctype < 1 then [event.draw (shm.widgets a).ctype a]
        else []).filterMap event.clipped = [] := by
      split_ifs <;> rfl
    have d1 : (if i ≠ 0 then [event.reclip_run x y w h] else []).filterMap event.drawn = [] := by
      split_ifs <;> rfl
    have d2 : (if (shm.widgets a).cbg ≠ 0 then [event.paint_bg a] else []).filterMap
        event.drawn = [] := by
      split_ifs <;> rfl
    have d3 : (if (shm.widgets a).ctype < 1 then [event.draw (shm.widgets a).ctype a]
        else []).filterMap event.drawn =
        if (shm.widgets a).ctype < 1 then [a] else [] := by
      split_ifs <;> rfl
    rw [draw_updates]
    simp only [List.filterMap_append, c1, c2, c3, d1, d2, d3, h1, h2]
    constructor
    · rfl
    · rw [List.filter_cons]
      by_cases hc : (shm.widgets a).ctype < 1
      · rw [if_pos hc, if_pos (by simpa using hc)]
        rfl
      · rw [if_neg hc, if_neg (by simpa using hc)]
        rfl

theorem run_events_widgets (shm : shm_t) (r : run_t) :
    (run_events shm r).filterMap event.clipped = r.widgets ∧
      (run_events shm r).filterMap event.drawn =
        r.widgets.filter (fun j => decide ((shm.widgets j).ctype < 1)) := by
  obtain ⟨h1, h2⟩ := draw_updates_widgets shm r.x r.y r.w r.h r.widgets 0
  unfold run_events
  exact ⟨h1, h2⟩

theorem runs_widgets (shm : shm_t) (runs : List run_t) :
    (runs.flatMap (run_events shm)).filterMap event.clipped = runs.flatMap run_t.widgets ∧
    (runs.flatMap (run_events shm)).filterMap event.drawn =
      (runs.flatMap run_t.widgets).filter (fun j => decide ((shm.widgets j).ctype < 1)) ∧
    (runs.map run_t.blit).filterMap event.clipped = [] ∧
    (runs.map run_t.blit).filterMap event.drawn = [] := by
  induction runs with
  | nil => exact ⟨rfl, rfl, rfl, rfl⟩
  | cons r runs ih =>
    obtain ⟨h1, h2, h3, h4⟩ := ih
    obtain ⟨d1, d2⟩ := run_events_widgets shm r
    refine ⟨?_, ?_, ?_, ?_⟩
    · rw [List.flatMap_cons, List.filterMap_append, h1, d1, List.flatMap_cons]
    · rw [List.flatMap_cons, List.filterMap_append, h2, d2, List.flatMap_cons,
        List.filter_append]
    · rw [List.map_cons, List.filterMap_cons, h3]
      rfl
    · rw [List.map_cons, List.filterMap_cons, h4]
      rfl

/-- C2: in the paint pass, the runs closed in row `cty` correspond, left to
right, to the maximal runs of set bits of `dirty_bits[cty]`.  The draw loop of
a run of columns `a..b` (lines 480-500) handles, in the order of its cairo
calls, exactly the widgets flagged visible that occur in the list of a tile of
the run, once each, in strictly ascending index order, whatever the tile lists
contain, and calls the draw routine for those of them that have one.  In every
call of `draw_widgets` that returns with the display owned, the widgets
handled, in trace order, are those of the runs of the rows 0..15 of the state
that the call leaves (up to the cleared bitmap and the cached visibility). -/
theorem paint_row_draws_sorted_visible (shm : shm_t) (st : hud_t) (cty : Nat) (cy : Int) :
    (∃ rs runs, paint_row st cty cy = some rs ∧
      (∀ a b, (a, b) ∈ runs ↔ is_run (st.dirty_bits cty % 65536) a b) ∧
      runs.Pairwise (fun p q => p.2 < q.2) ∧
      List.Forall₂
        (fun (r : run_t) (ab : Nat × Nat) =>
          (run_events shm r).filterMap event.clipped = r.widgets ∧
          (run_events shm r).filterMap event.drawn =
            ((run_events shm r).filterMap event.clipped).filter
              (fun w => decide ((shm.widgets w).ctype < 1)) ∧
          ((run_events shm r).filterMap event.clipped).Pairwise (fun i j => i < j) ∧
          ∀ w, w ∈ (run_events shm r).filterMap event.clipped ↔
            ((st.widget_ldata w).visible ≠ 0 ∧
              ∃ c, ab.1 ≤ c ∧ c ≤ ab.2 ∧ w ∈ tile_list st c cty))
        rs runs) ∧
    ∀ (fuel : Nat) (obs : Nat → shm_t × Nat) (st0 st' : hud_t) (evs : List event),
      draw_widgets fuel obs shm st0 = some (st', evs) → st'.vt_active ≠ 0 →
      ∃ s, st' = finish_pass shm.hdr.visibility s ∧
        evs.filterMap event.clipped =
          ((List.range 16).flatMap
            (fun r => (paint_row s r (r * s.tilesize_y)).getD [])).flatMap
              (fun r => (run_events shm r).filterMap event.clipped) ∧
        evs.filterMap event.drawn =
          (evs.filterMap event.clipped).filter
            (fun w => decide ((shm.widgets w).ctype < 1)) := by
  constructor
  · have hm : st.dirty_bits cty % 65536 < 2 ^ 16 := Nat.mod_lt _ (by decide)
    obtain ⟨rs, h1, h2⟩ := paint_cols_widgets st cty cy
      (if cty = 15 then st.screenh - cy else st.tilesize_y) 16 (st.dirty_bits cty % 65536)
      0 0 0 [] 0 hm (by decide) (fun _ => le_rfl) List.Pairwise.nil (fun w => by simp)
    refine ⟨rs, run_cols 16 (st.dirty_bits cty % 65536) 0 0, h1, run_cols_mem_row _ hm,
      (run_cols_sorted 16 _ 0 0).2, ?_⟩
    refine List.Forall₂.imp ?_ h2
    rintro r ab ⟨hs, hmem⟩
    obtain ⟨e1, e2⟩ := run_events_widgets shm r
    rw [e2, e1]
    exact ⟨rfl, rfl, hs, hmem⟩
  · intro fuel obs st0 st' evs h hown
    have hvt : (vt_switch st0).2.filterMap event.clipped = [] ∧
        (vt_switch st0).2.filterMap event.drawn = [] := by
      unfold vt_switch
      by_cases h1 : st0.vt_active ≠ st0.vt_active_requested
      · rw [if_pos h1]
        simp only
        by_cases h2 : st0.vt_active_requested ≠ 0
        · rw [if_pos h2]; exact ⟨rfl, rfl⟩
        · rw [if_neg h2]; exact ⟨rfl, rfl⟩
      · rw [if_neg h1]; exact ⟨rfl, rfl⟩
    have hflat : ∀ runs : List run_t,
        runs.flatMap (fun r => (run_events shm r).filterMap event.clipped) =
          runs.flatMap run_t.widgets := by
      intro runs
      congr 1
      funext r
      exact (run_events_widgets shm r).1
    unfold draw_widgets at h
    simp only at h
    by_cases hact : (vt_switch st0).1.vt_active = 0
    · rw [if_pos hact] at h
      simp only [Option.some.injEq] at h
      have e : st' = (vt_switch st0).1 := by rw [h]
      rw [e] at hown
      exact absurd hact hown
    · rw [if_neg hact, draw_owned_eq] at h
      by_cases hver : (vt_switch st0).1.cur_header.version ≠ shm.hdr.version
      · rw [if_pos hver] at h
        cases hl : load_widgets fuel obs (vt_switch st0).1 with
        | none => rw [hl] at h; simp at h
        | some q =>
          obtain ⟨sA, ev1⟩ := q
          rw [hl] at h
          simp only [Option.map_some', Option.some.injEq, Prod.mk.injEq] at h
          refine ⟨detect_changes shm shm.hdr.visibility sA, h.1.symm, ?_⟩
          rw [← h.2, hflat, ← paint_runs_rows]
          obtain ⟨p1, p2, p3, p4⟩ := runs_widgets shm
            (paint_runs (detect_changes shm shm.hdr.visibility sA))
          have hev1 : ev1.filterMap event.clipped = [] ∧ ev1.filterMap event.drawn = [] := by
            rcases load_widgets_events fuel obs _ sA ev1 hl with rfl | rfl
            · exact ⟨rfl, rfl⟩
            · exact ⟨rfl, rfl⟩
          simp only [List.filterMap_append, hvt.1, hvt.2, hev1.1, hev1.2, p1, p2, p3, p4,
            List.nil_append, List.append_nil]
          exact ⟨trivial, trivial⟩
      · rw [if_neg hver] at h
        simp only [Option.map_some', Option.some.injEq, Prod.mk.injEq] at h
        refine ⟨detect_changes shm shm.hdr.visibility (vt_switch st0).1, h.1.symm, ?_⟩
        rw [← h.2, hflat, ← paint_runs_rows]
        obtain ⟨p1, p2, p3, p4⟩ := runs_widgets shm
          (paint_runs (detect_changes shm shm.hdr.visibility (vt_switch st0).1))
        simp only [List.filterMap_append, hvt.1, hvt.2, p1, p2, p3, p4,
          List.nil_append, List.append_nil, List.filterMap_nil]
        exact ⟨trivial, trivial⟩

/-! ## A run behind a run that was cut at the screen edge -/

/-- C22, the failing input: on the 97x64 screen (tiles of 7x4 pixels) the
region holds a widget in tile column 13 and a widget right of the screen, in
tile column 15; after the first frame both get a new version, so the detection
leaves the mask `0xA000` in row 0, with the maximal runs `[13, 13]` and
`[15, 15]`.  The run of column 13 is cut at the screen edge (`cx = 97`) and the
scan goes on from the cut `cx`: the run of column 15 is cleared, painted and
blitted as `(104, 0, -7, 4)`, whereas `15 * tilesize_x = 105` and
`min(16 * tilesize_x, screenw) - 105 = -8`. -/
theorem draw_widgets_shifts_run_after_clamp :
    screen_ok (hud_init 97 64) ∧ hud_right.tilesize_x = 7 ∧ hud_right.screenw = 97 ∧
    (detect_changes shm_right_next shm_right_next.hdr.visibility hud_right).dirty_bits 0 =
      40960 ∧
    is_run 40960 13 13 ∧ is_run 40960 15 15 ∧
    (draw_widgets 1 (stable shm_right_next) shm_right_next hud_right).map (fun r => r.2) =
      some [event.paint_run 91 0 6 4, event.clip_widget 0, event.draw 0 0,
        event.paint_run 104 0 (-7) 4, event.clip_widget 1, event.draw 0 1,
        event.blit 91 0 6 4, event.blit 104 0 (-7) 4] ∧
    (104 : Int) ≠ 15 * hud_right.tilesize_x ∧
    (-7 : Int) ≠ min (((15 : Nat) + 1) * hud_right.tilesize_x) hud_right.screenw -
      15 * hud_right.tilesize_x := by
  refine ⟨⟨by decide, by decide, by decide, by decide⟩, rfl, rfl, rfl, ?_, ?_, rfl, by decide,
    by decide⟩
  · refine ⟨le_rfl, fun c h1 h2 => ?_, Or.inr (by decide), by decide⟩
    obtain rfl : c = 13 := by omega
    decide
  · refine ⟨le_rfl, fun c h1 h2 => ?_, Or.inr (by decide), by decide⟩
    obtain rfl : c = 15 := by omega
    decide

end Hud

namespace Canlog

/-! ## The write pointer of the ring -/

theorem to_int_of_lt (v : Nat) (h : v < 2147483648) : to_int v = (v : Int) := by
  unfold to_int
  rw [Nat.mod_eq_of_lt (by omega), if_pos h]

theorem to_uint32_of_nat (n : Nat) (h : n < 4294967296) : to_uint32 (n : Int) = n := by
  unfold to_uint32
  omega

theorem to_int_eq_iff (n rp : Nat) (hn : n < 2147483648) (hrp : rp < 4294967296) :
    (n : Int) = to_int rp ↔ n = rp := by
  unfold to_int
  rw [Nat.mod_eq_of_lt hrp]
  split_ifs <;> omega

theorem advance_write_pointer_eq (old : Nat) (s : canlog_t) (h1 : 1 ≤ old) (h2 : old ≤ 65535) :
    advance_write_pointer old s =
      if (((if old + 1 = 65536 then 1 else old + 1 : Nat) : Nat) : Int) = to_int s.read_pointer
      then (s, 0)
      else ({ s with write_pointer := if old + 1 = 65536 then 1 else old + 1 }, 1) := by
  unfold advance_write_pointer get_read_pointer
  simp only
  rw [to_int_of_lt (old + 1) (by omega)]
  by_cases h : old + 1 = 65536
  · have hge : ((old + 1 : Nat) : Int) ≥ (CANLOG_NUMRECORDS : Int) := by
      unfold CANLOG_NUMRECORDS; omega
    rw [if_pos hge, if_pos h]
    rfl
  · have hge : ¬ ((old + 1 : Nat) : Int) ≥ (CANLOG_NUMRECORDS : Int) := by
      unfold CANLOG_NUMRECORDS; omega
    rw [if_neg hge, if_neg h, to_uint32_of_nat (old + 1) (by omega)]

theorem advance_write_pointer_range (s : canlog_t) (h1 : 1 ≤ s.write_pointer)
    (h2 : s.write_pointer ≤ 65535) :
    1 ≤ (advance_write_pointer (to_uint32 (get_write_pointer s)) s).1.write_pointer ∧
      (advance_write_pointer (to_uint32 (get_write_pointer s)) s).1.write_pointer ≤ 65535 := by
  have e : to_uint32 (get_write_pointer s) = s.write_pointer := by
    unfold get_write_pointer
    rw [to_int_of_lt _ (by omega), to_uint32_of_nat _ (by omega)]
  rw [e, advance_write_pointer_eq _ s h1 h2]
  by_cases hc : (((if s.write_pointer + 1 = 65536 then 1 else s.write_pointer + 1 : Nat) : Nat) :
      Int) = to_int s.read_pointer
  · rw [if_pos hc]
    exact ⟨h1, h2⟩
  · rw [if_neg hc]
    show 1 ≤ (if s.write_pointer + 1 = 65536 then 1 else s.write_pointer + 1) ∧
      (if s.write_pointer + 1 = 65536 then 1 else s.write_pointer + 1) ≤ 65535
    split_ifs <;> omega

theorem init_write_pointer_range (s : canlog_t) (h : s.write_pointer < 4294967296) :
    1 ≤ (init_write_pointer s).write_pointer ∧ (init_write_pointer s).write_pointer ≤ 65535 := by
  have e : to_uint32 (get_write_pointer s) = s.write_pointer := by
    unfold get_write_pointer to_uint32 to_int
    rw [Nat.mod_eq_of_lt h]
    split_ifs <;> omega
  unfold init_write_pointer
  simp only
  rw [e]
  unfold CANLOG_NUMRECORDS
  split_ifs <;> first
    | omega
    | exact ⟨le_rfl, (by decide : (1 : Nat) ≤ 65535)⟩
    | (show 1 ≤ s.write_pointer ∧ s.write_pointer ≤ 65535
       omega)

theorem writer_run_range (rps : List Nat) :
    ∀ s : canlog_t, 1 ≤ s.write_pointer → s.write_pointer ≤ 65535 →
      1 ≤ (writer_run rps s).write_pointer ∧ (writer_run rps s).write_pointer ≤ 65535 := by
  induction rps with
  | nil => intro s h1 h2; exact ⟨h1, h2⟩
  | cons rp rps ih =>
    intro s h1 h2
    unfold writer_run
    rw [List.foldl_cons]
    have := advance_write_pointer_range { s with read_pointer := rp } h1 h2
    exact ih _ this.1 this.2

/-- C28: for every old write pointer in `[1, 65535]` and every read pointer,
`advance_write_pointer` takes the successor `old + 1`, with 65536 wrapping to
1; it returns 0 and stores nothing iff the successor is the read pointer, and
otherwise stores the successor and returns 1.  So a stored write pointer in
`[1, 65535]` stays there, the pointer is never advanced onto the read pointer,
and from `init_write_pointer` on, over any sequence of advances with any read
pointers, the write pointer is in `[1, 65535]`: slot 0 is never selected. -/
theorem advance_write_pointer_spec (old : Nat) (s : canlog_t) (h1 : 1 ≤ old)
    (h2 : old ≤ 65535) (hrp : s.read_pointer < 4294967296) :
    ((advance_write_pointer old s).2 = 0 ↔
      (if old + 1 = 65536 then 1 else old + 1) = s.read_pointer) ∧
    ((if old + 1 = 65536 then 1 else old + 1) = s.read_pointer →
      advance_write_pointer old s = (s, 0)) ∧
    ((if old + 1 = 65536 then 1 else old + 1) ≠ s.read_pointer →
      advance_write_pointer old s =
        ({ s with write_pointer := if old + 1 = 65536 then 1 else old + 1 }, 1)) ∧
    (1 ≤ s.write_pointer → s.write_pointer ≤ 65535 →
      1 ≤ (advance_write_pointer old s).1.write_pointer ∧
      (advance_write_pointer old s).1.write_pointer ≤ 65535) ∧
    ((advance_write_pointer old s).2 = 1 →
      (advance_write_pointer old s).1.write_pointer ≠
        (advance_write_pointer old s).1.read_pointer) ∧
    ∀ (s0 : canlog_t) (rps : List Nat), s0.write_pointer < 4294967296 →
      1 ≤ (writer_run rps (init_write_pointer s0)).write_pointer ∧
      (writer_run rps (init_write_pointer s0)).write_pointer ≤ 65535 := by
  have hiff := to_int_eq_iff (if old + 1 = 65536 then 1 else old + 1) s.read_pointer
    (by split_ifs <;> omega) hrp
  have heq := advance_write_pointer_eq old s h1 h2
  have hs : 1 ≤ (if old + 1 = 65536 then 1 else old + 1) ∧
      (if old + 1 = 65536 then 1 else old + 1) ≤ 65535 := by split_ifs <;> omega
  by_cases hc : (if old + 1 = 65536 then 1 else old + 1) = s.read_pointer
  · rw [if_pos (hiff.2 hc)] at heq
    rw [heq]
    refine ⟨⟨fun _ => hc, fun _ => rfl⟩, fun _ => rfl, fun hne => absurd hc hne,
      fun a b => ⟨a, b⟩, fun h => absurd h (by decide : ¬ (0 : Int) = 1), ?_⟩
    intro s0 rps h0
    obtain ⟨a, b⟩ := init_write_pointer_range s0 h0
    exact writer_run_range rps _ a b
  · rw [if_neg (fun h => hc (hiff.1 h))] at heq
    rw [heq]
    refine ⟨⟨fun h => absurd h (by decide : ¬ (1 : Int) = 0), fun h => absurd h hc⟩,
      fun h => absurd h hc,
      fun _ => rfl, fun _ _ => hs, fun _ => hc, ?_⟩
    intro s0 rps h0
    obtain ⟨a, b⟩ := init_write_pointer_range s0 h0
    exact writer_run_range rps _ a b

/-- C28, at a concrete input: the wrap from 65535 to 1 with the reader at
slot 7. -/
theorem advance_write_pointer_spec_witness :
    advance_write_pointer 65535 { canlog_start with read_pointer := 7 } =
      ({ { canlog_start with read_pointer := 7 } with write_pointer := 1 }, 1) :=
  (advance_write_pointer_spec 65535 { canlog_start with read_pointer := 7 } (by decide)
    (by decide) (by decide)).2.2.1 (by decide)

/-! ## The frame scan of the source -/

/-- C29, the failing input: a first `read` returns the five bytes
`F1 01 02 03 04`, an incomplete frame at `cpos = 0`.  The scan leaves `bufpos`
at 0 instead of 5, so the next `read`, which returns the other seven bytes of
the frame, stores them over the first five, and no frame is counted; the twelve
bytes in one `read` are one frame, and so are the same two reads behind one
leading byte, where the bytes are moved with `cpos = 1`.  In general a scan
that finds an incomplete frame at `cpos = 0` returns the state as it is. -/
theorem source_round_loses_partial_frame :
    (source_round (fun _ => 0) [0xF1, 1, 2, 3, 4] canlog_start).map
        (fun s => (s.bufpos, s.buf 0, s.buf 4, s.frame_count)) = some (0, 0xF1, 4, 0) ∧
    ((source_round (fun _ => 0) [0xF1, 1, 2, 3, 4] canlog_start).bind
        (source_round (fun _ => 0) [5, 6, 7, 8, 9, 0, 11])).map
        (fun s => (s.bufpos, s.buf 0, s.frame_count)) = some (0, 5, 0) ∧
    (source_round (fun _ => 0) [0xF1, 1, 2, 3, 4, 5, 6, 7, 8, 9, 0, 11] canlog_start).map
        (fun s => s.frame_count) = some 1 ∧
    (source_round (fun _ => 0) [0, 0xF1, 1, 2, 3, 4] canlog_start).map
        (fun s => (s.bufpos, s.buf 0, s.buf 4, s.frame_count)) = some (5, 0xF1, 4, 0) ∧
    ((source_round (fun _ => 0) [0, 0xF1, 1, 2, 3, 4] canlog_start).bind
        (source_round (fun _ => 0) [5, 6, 7, 8, 9, 0, 11])).map
        (fun s => s.frame_count) = some 1 ∧
    ∀ (gettime : Nat → Nat) (fuel : Nat) (nr : Int) (s : canlog_t), s.buf 0 = 0xF1 →
      (nr < 12 ∨ nr < 12 + ((s.buf 10 &&& 15 : Nat) : Int)) →
      scan gettime (fuel + 1) 0 nr s = some s := by
  refine ⟨rfl, rfl, rfl, rfl, rfl, ?_⟩
  intro gettime fuel nr s hb hinc
  have hp : process_frame (gettime s.frame_count.toNat) 0 (nr - ((0 : Nat) : Int)) s = (s, -1) := by
    unfold process_frame
    simp only [Nat.cast_zero, sub_zero, Nat.zero_add]
    by_cases h12 : nr < 12
    · rw [if_pos h12]
    · rw [if_neg h12, if_pos (by omega)]
  rw [scan, if_pos hb]
  simp only
  rw [hp]
  simp

end Canlog

namespace GpioPoll

/-! ## Rotor decoding -/

theorem evt_byte (i : Nat) (hi : i < 32) :
    (EVT_ROTOR ||| EVT_UP ||| i) % 256 = 192 + i ∧ (EVT_ROTOR ||| i) % 256 = 128 + i := by
  interval_cases i <;> exact ⟨rfl, rfl⟩

/-- C30: for a rotor `i < 32` at rest (`lastval = 0`, `count = 0`), the four
samples of a full gray-code cycle in one direction, ending at rest, emit the
one byte `EVT_ROTOR | EVT_UP | i`, those of the cycle in the other direction
the one byte `EVT_ROTOR | i`, and a single step away from rest and back, in
either direction, emits nothing; the rotor is at rest with `count = 0`
afterwards in all four cases. -/
theorem rotor_cycle_events (i : Nat) (hi : i < 32) :
    rotor_run i [(true, false), (false, false), (false, true), (true, true)] ⟨0, 0⟩ =
      (⟨0, 0⟩, [192 + i]) ∧
    rotor_run i [(false, true), (false, false), (true, false), (true, true)] ⟨0, 0⟩ =
      (⟨0, 0⟩, [128 + i]) ∧
    rotor_run i [(true, false), (true, true)] ⟨0, 0⟩ = (⟨0, 0⟩, []) ∧
    rotor_run i [(false, true), (true, true)] ⟨0, 0⟩ = (⟨0, 0⟩, []) ∧
    192 + i = EVT_ROTOR ||| EVT_UP ||| i ∧ 128 + i = EVT_ROTOR ||| i := by
  obtain ⟨e1, e2⟩ := evt_byte i hi
  refine ⟨?_, ?_, rfl, rfl, ?_, ?_⟩
  · rw [← e1]; rfl
  · rw [← e2]; rfl
  · interval_cases i <;> rfl
  · interval_cases i <;> rfl

/-- C30, at a concrete input: rotor 3. -/
theorem rotor_cycle_events_witness :
    rotor_run 3 [(true, false), (false, false), (false, true), (true, true)] ⟨0, 0⟩ =
      (⟨0, 0⟩, [195]) :=
  (rotor_cycle_events 3 (by decide)).1

end GpioPoll
